import Mathlib

/-!
# The input encoder of libqrencode (`qrinput.c`)

A shallow embedding of `qrinput.c`: the validation of the input data, the
estimation of the bit length, the mode encoders, the recursive splitter, the
version fitting loops, the padding generator and the stream assembler.

Conventions of the embedding.

* A byte (`unsigned char`) is a `Fin 256`.  A data chunk `(size, data)` is the
  list of its bytes, `size` being the length of the list.
* A bit stream is the list of its bits, most significant bit of every appended
  number first.
* `unsigned int` arithmetic is arithmetic on `Int` reduced modulo `2^32`
  (`u32`).  The `int` quantities that count bytes and bits are natural numbers:
  they are sums of lengths and never negative.
* The singly linked chain `head … tail` of a job is the list of its nodes in
  order; `tail` is its last node, so linking a node after `tail` appends it.
* Loops that the C code does not bound (`do … while`, `for(;;)`, the recursion
  of the splitter) take a fuel argument and report `EncError.outOfFuel` when it
  is used up.  A `NULL` entry that the C code would dereference is reported as
  `EncError.nullEntry`.
-/

set_option maxRecDepth 100000

/-! ## Types -/

/-- Encoding mode of a data chunk (`QRencodeMode`). -/
inductive QRencodeMode where
  | QR_MODE_NUM
  | QR_MODE_AN
  | QR_MODE_8
  | QR_MODE_KANJI
  deriving DecidableEq, Repr

/-- Level of error correction (`QRecLevel`). -/
inductive QRecLevel where
  | QR_ECLEVEL_L
  | QR_ECLEVEL_M
  | QR_ECLEVEL_Q
  | QR_ECLEVEL_H
  deriving DecidableEq, Repr

open QRencodeMode QRecLevel

/-- An `unsigned char`. -/
abbrev UChar := Fin 256

/-- A bit stream: its bits in order. -/
abbrev BitStream := List Bool

/-- The ways in which a run of the C code fails to return: a `NULL` entry is
dereferenced, or a loop does not come to an end within the fuel given. -/
inductive EncError where
  | nullEntry
  | outOfFuel
  deriving DecidableEq, Repr

/-- Modelled from the spec: the Symbol Table (`qrspec.c`, not part of the
sources at hand), "pure functions of (mode, version) or (byteLength, level)":
the width of the length indicator, the maximum number of words of a chunk, the
minimum version for a number of bytes (`-1` for none) and the data capacity in
bytes. -/
structure QRspec where
  lengthIndicator : QRencodeMode → Int → Nat
  maximumWords : QRencodeMode → Int → Int
  getMinimumVersion : Int → QRecLevel → Int
  getDataLength : Int → QRecLevel → Int

/-- Entry of input data (`struct _QRenc_List`); `size` is `data.length`, the
field `next` is the rest of the list that holds the entry. -/
structure QRenc_List where
  mode : QRencodeMode
  data : List UChar
  bstream : Option BitStream
  deriving DecidableEq, Repr

/-- Input data (`QRinput`): the chain of entries, the version and the level. -/
structure QRinput where
  head : List QRenc_List
  version : Int
  level : QRecLevel
  deriving DecidableEq, Repr

/-! ## Bit streams (`bitstream.c`) -/

/-- Modelled from the spec: the Bit Buffer primitive "create empty buffer". -/
def BitStream_new : BitStream := []

/-- Modelled from the spec: the bits of "an unsigned value using exactly N bits,
most-significant-bit first" (`bitstream.c` is not part of the sources at hand);
the bits of the value above the `N`-th are not used. -/
def BitStream_newFromNum : Nat → Nat → BitStream
  | 0, _ => []
  | n + 1, num => decide (num / 2 ^ n % 2 = 1) :: BitStream_newFromNum n num

/-- Modelled from the spec: the Bit Buffer primitive "append an unsigned value
using exactly N bits, most-significant-bit first". -/
def BitStream_appendNum (bstream : BitStream) (bits num : Nat) : BitStream :=
  bstream ++ BitStream_newFromNum bits num

/-- Modelled from the spec: the Bit Buffer primitive "append (concatenate)
another buffer's bits in order"; an absent (`NULL`) argument appends nothing. -/
def BitStream_append (bstream : BitStream) (arg : Option BitStream) : BitStream :=
  match arg with
  | none => bstream
  | some a => bstream ++ a

/-- Modelled from the spec: the Bit Buffer primitive "query current bit
length"; an absent (`NULL`) buffer has no bit. -/
def BitStream_size (bstream : Option BitStream) : Nat :=
  match bstream with
  | none => 0
  | some b => b.length

/-! ## Machine arithmetic -/

/-- The value of an `int` converted to `unsigned int`. -/
def u32 (x : Int) : Nat := (x % 4294967296).toNat

/-- The value of a byte read through a `const char *` (a signed `char`). -/
def charOf (c : UChar) : Int := if c.val < 128 then (c.val : Int) else (c.val : Int) - 256

/-- The byte `data[i]`; the loops below read inside the chunk whenever the
chunk passed `QRinput_check`. -/
def byteAt (data : List UChar) (i : Nat) : UChar := data.getD i 0

/-! ## Numeric data -/

/-- `QRenc_checkModeNum`: `-1` at the first byte that is not a digit. -/
def QRenc_checkModeNum : List UChar → Int
  | [] => 0
  | c :: rest =>
    if charOf c < 48 ∨ charOf c > 57 then -1 else QRenc_checkModeNum rest

/-- `QRenc_estimateBitsModeNum`. -/
def QRenc_estimateBitsModeNum (entry : QRenc_List) : Nat :=
  let size := entry.data.length
  let w := size / 3
  let bits := w * 10
  match size - w * 3 with
  | 1 => bits + 4
  | 2 => bits + 7
  | _ => bits

/-- `QRenc_encodeModeNum`. -/
def QRenc_encodeModeNum (spec : QRspec) (entry : QRenc_List) (version : Int) : QRenc_List :=
  let size := entry.data.length
  let words := size / 3
  let bs := BitStream_new
  let bs := BitStream_appendNum bs 4 1
  let bs := BitStream_appendNum bs (spec.lengthIndicator QR_MODE_NUM version) size
  let bs := (List.range words).foldl (fun bs i =>
    let val := u32 (((byteAt entry.data (i * 3) : Nat) - 48 : Int) * 100
      + ((byteAt entry.data (i * 3 + 1) : Nat) - 48 : Int) * 10
      + ((byteAt entry.data (i * 3 + 2) : Nat) - 48 : Int))
    BitStream_appendNum bs 10 val) bs
  let bs :=
    if size - words * 3 = 1 then
      BitStream_appendNum bs 4 (u32 ((byteAt entry.data (words * 3) : Nat) - 48 : Int))
    else if size - words * 3 = 2 then
      BitStream_appendNum bs 7 (u32 (((byteAt entry.data (words * 3) : Nat) - 48 : Int) * 10
        + ((byteAt entry.data (words * 3 + 1) : Nat) - 48 : Int)))
    else bs
  { entry with bstream := some bs }

/-! ## Alphabet-numeric data -/

/-- The table `anTable`. -/
def anTable : List Int := [
  -1, -1, -1, -1, -1, -1, -1, -1, -1, -1, -1, -1, -1, -1, -1, -1,
  -1, -1, -1, -1, -1, -1, -1, -1, -1, -1, -1, -1, -1, -1, -1, -1,
  36, -1, -1, -1, 37, 38, -1, -1, -1, -1, 39, 40, -1, 41, 42, 43,
   0,  1,  2,  3,  4,  5,  6,  7,  8,  9, 44, -1, -1, -1, -1, -1,
  -1, 10, 11, 12, 13, 14, 15, 16, 17, 18, 19, 20, 21, 22, 23, 24,
  25, 26, 27, 28, 29, 30, 31, 32, 33, 34, 35, -1, -1, -1, -1, -1,
  -1, 10, 11, 12, 13, 14, 15, 16, 17, 18, 19, 20, 21, 22, 23, 24,
  25, 26, 27, 28, 29, 30, 31, 32, 33, 34, 35, -1, -1, -1, -1, -1]

/-- `QRenc_lookAnTable`: `-1` when the bit `0x80` of the character is set, the
entry of the table otherwise (the index is then below 128). -/
def QRenc_lookAnTable (c : UChar) : Int :=
  if c.val / 128 % 2 = 1 then -1 else anTable.getD c.val (-1)

/-- `QRenc_checkModeAn`: `-1` at the first character without a table value. -/
def QRenc_checkModeAn : List UChar → Int
  | [] => 0
  | c :: rest => if QRenc_lookAnTable c < 0 then -1 else QRenc_checkModeAn rest

/-- `QRenc_estimateBitsModeAn`. -/
def QRenc_estimateBitsModeAn (entry : QRenc_List) : Nat :=
  let size := entry.data.length
  let w := size / 2
  let bits := w * 11
  if size % 2 = 1 then bits + 6 else bits

/-- `QRenc_encodeModeAn`. -/
def QRenc_encodeModeAn (spec : QRspec) (entry : QRenc_List) (version : Int) : QRenc_List :=
  let size := entry.data.length
  let words := size / 2
  let bs := BitStream_new
  let bs := BitStream_appendNum bs 4 2
  let bs := BitStream_appendNum bs (spec.lengthIndicator QR_MODE_AN version) size
  let bs := (List.range words).foldl (fun bs i =>
    let val := u32 ((u32 (QRenc_lookAnTable (byteAt entry.data (i * 2))) : Int) * 45
      + (u32 (QRenc_lookAnTable (byteAt entry.data (i * 2 + 1))) : Int))
    BitStream_appendNum bs 11 val) bs
  let bs :=
    if size % 2 = 1 then
      BitStream_appendNum bs 6 (u32 (QRenc_lookAnTable (byteAt entry.data (words * 2))))
    else bs
  { entry with bstream := some bs }

/-! ## 8 bit data -/

/-- `QRenc_estimateBitsMode8`. -/
def QRenc_estimateBitsMode8 (entry : QRenc_List) : Nat :=
  entry.data.length * 8

/-- `QRenc_encodeMode8`. -/
def QRenc_encodeMode8 (spec : QRspec) (entry : QRenc_List) (version : Int) : QRenc_List :=
  let size := entry.data.length
  let bs := BitStream_new
  let bs := BitStream_appendNum bs 4 4
  let bs := BitStream_appendNum bs (spec.lengthIndicator QR_MODE_8 version) size
  let bs := (List.range size).foldl (fun bs i =>
    BitStream_appendNum bs 8 (byteAt entry.data i).val) bs
  { entry with bstream := some bs }

/-! ## Kanji data -/

/-- `QRenc_estimateBitsModeKanji`. -/
def QRenc_estimateBitsModeKanji (entry : QRenc_List) : Nat :=
  (entry.data.length / 2) * 13

/-- The loop of `QRenc_checkModeKanji` over the pairs of bytes. -/
def QRenc_checkModeKanji.loop : List UChar → Int
  | a :: b :: rest =>
    let val := a.val * 256 + b.val
    if val < 0x8140 ∨ (val > 0x9ffc ∧ val < 0xe040) ∨ val > 0xebbf then -1
    else QRenc_checkModeKanji.loop rest
  | _ => 0

/-- `QRenc_checkModeKanji`: `-1` for an odd size and at the first pair of bytes
out of the two ranges. -/
def QRenc_checkModeKanji (data : List UChar) : Int :=
  if data.length % 2 = 1 then -1 else QRenc_checkModeKanji.loop data

/-- The number that `QRenc_encodeModeKanji` appends for the pair of bytes
`(hi, lo)`. -/
def QRenc_encodeModeKanji.word (hi lo : UChar) : Nat :=
  let val := hi.val * 256 + lo.val
  let val := if val ≤ 0x9ffc then u32 ((val : Int) - 0x8140) else u32 ((val : Int) - 0xc140)
  let h := u32 (((val / 256 : Nat) : Int) * 0xc0)
  u32 (((val % 256 : Nat) : Int) + (h : Int))

/-- `QRenc_encodeModeKanji`; the loop `for(i=0; i<size; i+=2)` runs
`(size + 1) / 2` times, with `i = 2 * k` in its `k`-th run. -/
def QRenc_encodeModeKanji (spec : QRspec) (entry : QRenc_List) (version : Int) : QRenc_List :=
  let size := entry.data.length
  let bs := BitStream_new
  let bs := BitStream_appendNum bs 4 8
  let bs := BitStream_appendNum bs (spec.lengthIndicator QR_MODE_KANJI version) (size / 2)
  let bs := (List.range ((size + 1) / 2)).foldl (fun bs k =>
    BitStream_appendNum bs 13
      (QRenc_encodeModeKanji.word (byteAt entry.data (2 * k)) (byteAt entry.data (2 * k + 1)))) bs
  { entry with bstream := some bs }

/-! ## Validation -/

/-- `QRinput_check`: `0` when the data suits the mode, `-1` otherwise. -/
def QRinput_check (mode : QRencodeMode) (data : List UChar) : Int :=
  match mode with
  | QR_MODE_NUM => QRenc_checkModeNum data
  | QR_MODE_AN => QRenc_checkModeAn data
  | QR_MODE_KANJI => QRenc_checkModeKanji data
  | QR_MODE_8 => 0

/-! ## Entries and the job -/

/-- `QRenc_newEntry`: `none` (`NULL`) when the data does not pass
`QRinput_check`, a new entry with a copy of the data and no bit stream
otherwise. -/
def QRenc_newEntry (mode : QRencodeMode) (data : List UChar) : Option QRenc_List :=
  if QRinput_check mode data ≠ 0 then none
  else some { mode := mode, data := data, bstream := none }

/-- `QRinput_new`. -/
def QRinput_new : QRinput := { head := [], version := 0, level := QR_ECLEVEL_L }

/-- `QRenc_getVersion`. -/
def QRenc_getVersion (input : QRinput) : Int := input.version

/-- `QRenc_setVersion`. -/
def QRenc_setVersion (input : QRinput) (v : Int) : QRinput := { input with version := v }

/-- `QRenc_setErrorCorrectionLevel`. -/
def QRenc_setErrorCorrectionLevel (input : QRinput) (level : QRecLevel) : QRinput :=
  { input with level := level }

/-- `QRenc_getErrorCorrectionLevel`. -/
def QRenc_getErrorCorrectionLevel (input : QRinput) : QRecLevel := input.level

/-- `QRinput_append`: the return value and the job after the call. -/
def QRinput_append (input : QRinput) (mode : QRencodeMode) (data : List UChar) : Int × QRinput :=
  match QRenc_newEntry mode data with
  | none => (-1, input)
  | some entry =>
    match input.head with
    | [] => (0, { input with head := [entry] })
    | first :: others => (0, { input with head := (first :: others) ++ [entry] })

/-! ## Estimation of the bit length -/

/-- The `switch(entry->mode)` of `QRenc_estimateBitStreamSizeOfEntry`: the
estimator of the mode of the entry. -/
def QRenc_estimateBitStreamSizeOfEntry.estimate (entry : QRenc_List) : Nat :=
  match entry.mode with
  | QR_MODE_NUM => QRenc_estimateBitsModeNum entry
  | QR_MODE_AN => QRenc_estimateBitsModeAn entry
  | QR_MODE_8 => QRenc_estimateBitsMode8 entry
  | QR_MODE_KANJI => QRenc_estimateBitsModeKanji entry

/-- `QRenc_estimateBitStreamSizeOfEntry`. -/
def QRenc_estimateBitStreamSizeOfEntry (spec : QRspec) (entry : QRenc_List) (version : Int) : Nat :=
  let bits := QRenc_estimateBitStreamSizeOfEntry.estimate entry
  let l := spec.lengthIndicator entry.mode version
  let m := 2 ^ l
  let num := (bits + m - 1) / m
  bits + num * (4 + l)

/-- `QRenc_estimateBitStreamSize`: the sum over the entries of the job. -/
def QRenc_estimateBitStreamSize (spec : QRspec) (input : QRinput) (version : Int) : Nat :=
  input.head.foldl (fun bits entry => bits + QRenc_estimateBitStreamSizeOfEntry spec entry version) 0

/-- The `do … while (new > prev)` loop of `QRenc_estimateVersion`, entered with
the value of `new`. -/
def QRenc_estimateVersion.loop (spec : QRspec) (input : QRinput) : Nat → Int → Except EncError Int
  | 0, _ => .error EncError.outOfFuel
  | fuel + 1, new =>
    let prev := new
    let bits := QRenc_estimateBitStreamSize spec input prev
    let new := spec.getMinimumVersion (((bits + 7) / 8 : Nat) : Int) input.level
    if new = -1 then .ok (-1)
    else if new > prev then QRenc_estimateVersion.loop spec input fuel new
    else .ok new

/-- `QRenc_estimateVersion`. -/
def QRenc_estimateVersion (spec : QRspec) (fuel : Nat) (input : QRinput) : Except EncError Int :=
  QRenc_estimateVersion.loop spec input fuel 0

/-! ## Data conversion -/

/-- The `switch(entry->mode)` of `QRenc_encodeBitStream`: the encoder of the
mode of the entry. -/
def QRenc_encodeBitStream.encode (spec : QRspec) (entry : QRenc_List) (version : Int) : QRenc_List :=
  match entry.mode with
  | QR_MODE_NUM => QRenc_encodeModeNum spec entry version
  | QR_MODE_AN => QRenc_encodeModeAn spec entry version
  | QR_MODE_8 => QRenc_encodeMode8 spec entry version
  | QR_MODE_KANJI => QRenc_encodeModeKanji spec entry version

/-- `QRenc_encodeBitStream`: the entry with its new bit stream, and the size of
that bit stream.  The two sub-entries of a chunk larger than
`QRspec_maximumWords` hold its first `words` bytes and the bytes from
`&entry->data[words]` on; the call on a sub-entry that is `NULL` dereferences
it. -/
def QRenc_encodeBitStream (spec : QRspec) :
    Nat → QRenc_List → Int → Except EncError (QRenc_List × Nat)
  | 0, _, _ => .error EncError.outOfFuel
  | fuel + 1, entry, version =>
    let entry := { entry with bstream := none }
    let words := spec.maximumWords entry.mode version
    if (entry.data.length : Int) > words then
      let st1 := QRenc_newEntry entry.mode (entry.data.take words.toNat)
      let st2 := QRenc_newEntry entry.mode (entry.data.drop words.toNat)
      match st1 with
      | none => .error EncError.nullEntry
      | some st1 =>
        match QRenc_encodeBitStream spec fuel st1 version with
        | .error e => .error e
        | .ok (st1, _) =>
          match st2 with
          | none => .error EncError.nullEntry
          | some st2 =>
            match QRenc_encodeBitStream spec fuel st2 version with
            | .error e => .error e
            | .ok (st2, _) =>
              let bs := BitStream_new
              let bs := BitStream_append bs st1.bstream
              let bs := BitStream_append bs st2.bstream
              .ok ({ entry with bstream := some bs }, BitStream_size (some bs))
    else
      let entry := QRenc_encodeBitStream.encode spec entry version
      .ok (entry, BitStream_size entry.bstream)

/-- The loop of `QRenc_createBitStream` over the entries: the entries with
their new bit streams and the sum of the sizes. -/
def QRenc_createBitStream.loop (spec : QRspec) (fuel : Nat) (version : Int) :
    List QRenc_List → Except EncError (List QRenc_List × Nat)
  | [] => .ok ([], 0)
  | entry :: rest =>
    match QRenc_encodeBitStream spec fuel entry version with
    | .error e => .error e
    | .ok (entry, n) =>
      match QRenc_createBitStream.loop spec fuel version rest with
      | .error e => .error e
      | .ok (rest, bits) => .ok (entry :: rest, n + bits)

/-- `QRenc_createBitStream`: the job after the call and the number of bits. -/
def QRenc_createBitStream (spec : QRspec) (fuel : Nat) (input : QRinput) :
    Except EncError (QRinput × Nat) :=
  match QRenc_createBitStream.loop spec fuel input.version input.head with
  | .error e => .error e
  | .ok (head, bits) => .ok ({ input with head := head }, bits)

/-- The `for(;;)` loop of `QRenc_convertData`; `encFuel` is the fuel of every
run of the splitter, the first argument after it the fuel of the loop. -/
def QRenc_convertData.loop (spec : QRspec) (encFuel : Nat) :
    Nat → QRinput → Except EncError (QRinput × Int)
  | 0, _ => .error EncError.outOfFuel
  | fuel + 1, input =>
    match QRenc_createBitStream spec encFuel input with
    | .error e => .error e
    | .ok (input, bits) =>
      let ver := spec.getMinimumVersion (((bits + 7) / 8 : Nat) : Int) input.level
      if ver < 0 then .ok (input, -1)
      else if ver > QRenc_getVersion input then
        QRenc_convertData.loop spec encFuel fuel (QRenc_setVersion input ver)
      else .ok (input, 0)

/-- `QRenc_convertData`: the job after the call and the return value.  Every
loop of the call gets the fuel `fuel`. -/
def QRenc_convertData (spec : QRspec) (fuel : Nat) (input : QRinput) :
    Except EncError (QRinput × Int) :=
  match QRenc_estimateVersion spec fuel input with
  | .error e => .error e
  | .ok ver =>
    let input := if ver > QRenc_getVersion input then QRenc_setVersion input ver else input
    QRenc_convertData.loop spec fuel fuel input

/-- The `while` loop of `QRenc_createPaddingBit`: the sum of the sizes of the
bit streams of the entries. -/
def QRenc_createPaddingBit.bits (input : QRinput) : Nat :=
  input.head.foldl (fun bits entry => bits + BitStream_size entry.bstream) 0

/-- `QRenc_createPaddingBit`: `none` is the `NULL` result. -/
def QRenc_createPaddingBit (spec : QRspec) (input : QRinput) : Option BitStream :=
  if input.version ≤ 0 then none
  else
    let maxwords := spec.getDataLength input.version input.level
    let maxbits := maxwords * 8
    let bits : Int := (QRenc_createPaddingBit.bits input : Nat)
    let words := (bits + 7) / 8
    if bits = maxbits then none
    else if maxbits - bits < 5 then
      some (BitStream_appendNum BitStream_new (maxbits - bits).toNat 0)
    else
      let bstream := BitStream_appendNum BitStream_new (words * 8 - bits).toNat 0
      some ((List.range (maxwords - words).toNat).foldl (fun bstream i =>
        if i % 2 = 1 then BitStream_appendNum bstream 8 0x11
        else BitStream_appendNum bstream 8 0xec) bstream)

/-- `QRenc_mergeBitStream`: the job after the call and the merged bit stream,
`none` being the `NULL` result. -/
def QRenc_mergeBitStream (spec : QRspec) (fuel : Nat) (input : QRinput) :
    Except EncError (QRinput × Option BitStream) :=
  match QRenc_convertData spec fuel input with
  | .error e => .error e
  | .ok (input, r) =>
    if r < 0 then .ok (input, none)
    else
      .ok (input, some (input.head.foldl (fun bstream entry =>
        BitStream_append bstream entry.bstream) BitStream_new))

/-- `QRenc_getBitStream`: the job after the call and the padded bit stream,
`none` being the `NULL` result. -/
def QRenc_getBitStream (spec : QRspec) (fuel : Nat) (input : QRinput) :
    Except EncError (QRinput × Option BitStream) :=
  match QRenc_mergeBitStream spec fuel input with
  | .error e => .error e
  | .ok (input, none) => .ok (input, none)
  | .ok (input, some bstream) =>
    let padding := QRenc_createPaddingBit spec input
    .ok (input, some (BitStream_append bstream padding))

/-! ## The calls of `BitStream_appendNum` -/

/-- The calls `BitStream_appendNum(entry->bstream, bits, val)` that
`QRenc_encodeModeNum` makes, in the order in which it makes them, each as the
pair `(bits, val)` of its arguments. -/
def QRenc_encodeModeNum.calls (spec : QRspec) (entry : QRenc_List) (version : Int) :
    List (Nat × Nat) :=
  let size := entry.data.length
  let words := size / 3
  [(4, 1), (spec.lengthIndicator QR_MODE_NUM version, size)]
    ++ (List.range words).map (fun i =>
      (10, u32 (((byteAt entry.data (i * 3) : Nat) - 48 : Int) * 100
        + ((byteAt entry.data (i * 3 + 1) : Nat) - 48 : Int) * 10
        + ((byteAt entry.data (i * 3 + 2) : Nat) - 48 : Int))))
    ++ (if size - words * 3 = 1 then
        [(4, u32 ((byteAt entry.data (words * 3) : Nat) - 48 : Int))]
      else if size - words * 3 = 2 then
        [(7, u32 (((byteAt entry.data (words * 3) : Nat) - 48 : Int) * 10
          + ((byteAt entry.data (words * 3 + 1) : Nat) - 48 : Int)))]
      else [])

/-- The calls of `BitStream_appendNum` that `QRenc_encodeModeAn` makes. -/
def QRenc_encodeModeAn.calls (spec : QRspec) (entry : QRenc_List) (version : Int) :
    List (Nat × Nat) :=
  let size := entry.data.length
  let words := size / 2
  [(4, 2), (spec.lengthIndicator QR_MODE_AN version, size)]
    ++ (List.range words).map (fun i =>
      (11, u32 ((u32 (QRenc_lookAnTable (byteAt entry.data (i * 2))) : Int) * 45
        + (u32 (QRenc_lookAnTable (byteAt entry.data (i * 2 + 1))) : Int))))
    ++ (if size % 2 = 1 then
        [(6, u32 (QRenc_lookAnTable (byteAt entry.data (words * 2))))]
      else [])

/-- The calls of `BitStream_appendNum` that `QRenc_encodeMode8` makes. -/
def QRenc_encodeMode8.calls (spec : QRspec) (entry : QRenc_List) (version : Int) :
    List (Nat × Nat) :=
  let size := entry.data.length
  [(4, 4), (spec.lengthIndicator QR_MODE_8 version, size)]
    ++ (List.range size).map (fun i => (8, (byteAt entry.data i).val))

/-- The calls of `BitStream_appendNum` that `QRenc_encodeModeKanji` makes. -/
def QRenc_encodeModeKanji.calls (spec : QRspec) (entry : QRenc_List) (version : Int) :
    List (Nat × Nat) :=
  let size := entry.data.length
  [(4, 8), (spec.lengthIndicator QR_MODE_KANJI version, size / 2)]
    ++ (List.range ((size + 1) / 2)).map (fun k =>
      (13, QRenc_encodeModeKanji.word (byteAt entry.data (2 * k)) (byteAt entry.data (2 * k + 1))))

/-- The calls of `BitStream_appendNum` made for a chunk by the encoder of its
mode, chosen as in the `switch` of `QRenc_encodeBitStream`. -/
def QRenc_encodeBitStream.calls (spec : QRspec) (entry : QRenc_List) (version : Int) :
    List (Nat × Nat) :=
  match entry.mode with
  | QR_MODE_NUM => QRenc_encodeModeNum.calls spec entry version
  | QR_MODE_AN => QRenc_encodeModeAn.calls spec entry version
  | QR_MODE_8 => QRenc_encodeMode8.calls spec entry version
  | QR_MODE_KANJI => QRenc_encodeModeKanji.calls spec entry version

/-! ## A sample symbol table -/

/-- A small symbol table for concrete runs: the length indicators of the
versions up to 9, chunks of at most `2^L − 1` words, and five versions with
the data capacities 19, 34, 55, 80 and 108 bytes, whatever the level; a
version above the fifth has the capacity of the fifth. -/
def sampleSpec : QRspec where
  lengthIndicator := fun mode _ =>
    match mode with
    | QR_MODE_NUM => 10
    | QR_MODE_AN => 9
    | QR_MODE_8 => 8
    | QR_MODE_KANJI => 8
  maximumWords := fun mode _ =>
    match mode with
    | QR_MODE_NUM => 1023
    | QR_MODE_AN => 511
    | QR_MODE_8 => 255
    | QR_MODE_KANJI => 255
  getMinimumVersion := fun size _ =>
    if size ≤ 19 then 1
    else if size ≤ 34 then 2
    else if size ≤ 55 then 3
    else if size ≤ 80 then 4
    else if size ≤ 108 then 5
    else -1
  getDataLength := fun version _ =>
    if version ≤ 0 then 0
    else if version ≤ 1 then 19
    else if version ≤ 2 then 34
    else if version ≤ 3 then 55
    else if version ≤ 4 then 80
    else 108

/-- The bytes of an ASCII string. -/
def bytesOf (s : String) : List UChar := s.toList.map (fun c => Fin.ofNat c.toNat)

/-! ## Reference notions of the specification -/

/-- The 45 symbols of the alphanumeric mode as the specification lists them:
the digits, the uppercase letters, and space `$` `%` `*` `+` `-` `.` `/` `:`. -/
def isAn45 (c : UChar) : Prop :=
  (48 ≤ c.val ∧ c.val ≤ 57) ∨ (65 ≤ c.val ∧ c.val ≤ 90) ∨
    c.val ∈ [32, 36, 37, 42, 43, 45, 46, 47, 58]

instance : DecidablePred isAn45 := fun c => by
  unfold isAn45
  infer_instance

/-- A lowercase letter `a`..`z`. -/
def isLower (c : UChar) : Prop := 97 ≤ c.val ∧ c.val ≤ 122

instance : DecidablePred isLower := fun c => by
  unfold isLower
  infer_instance

/-- The `k`-th 2-byte big-endian value of a chunk. -/
def kanjiValue (data : List UChar) (k : Nat) : Nat :=
  (byteAt data (2 * k)).val * 256 + (byteAt data (2 * k + 1)).val

/-- The two ranges of Shift-JIS values of the kanji mode. -/
def inKanjiRange (v : Nat) : Prop := (0x8140 ≤ v ∧ v ≤ 0x9ffc) ∨ (0xe040 ≤ v ∧ v ≤ 0xebbf)

/-- The eight bits of the pad codeword `0xEC`, most significant bit first. -/
def padEC : BitStream := [true, true, true, false, true, true, false, false]

/-- The eight bits of the pad codeword `0x11`, most significant bit first. -/
def pad11 : BitStream := [false, false, false, true, false, false, false, true]

/-- The pad bytes of the specification: `n` bytes "alternating 0xEC, 0x11,
0xEC, 0x11, … starting with 0xEC". -/
def padBytes (n : Nat) : BitStream :=
  (List.range n).flatMap (fun i => if i % 2 = 0 then padEC else pad11)

/-- The padding of the specification for a merged length of `bits` bits and a
capacity of `maxBytes` bytes: nothing when the capacity is reached, the
missing zero bits alone when fewer than five bits are missing, and otherwise
the zero bits up to the byte boundary followed by one pad byte for every
remaining byte. -/
def paddingSpec (bits maxBytes : Nat) : BitStream :=
  if bits = 8 * maxBytes then []
  else if 8 * maxBytes - bits < 5 then List.replicate (8 * maxBytes - bits) false
  else
    List.replicate (8 * ((bits + 7) / 8) - bits) false ++ padBytes (maxBytes - (bits + 7) / 8)

/-- The unsigned value that a run of bits holds, most-significant bit first:
what a reader of the symbol gets back from a field of the bit stream. -/
def BitStream_toNum (bs : BitStream) : Nat :=
  bs.foldl (fun n b => 2 * n + (if b then 1 else 0)) 0

/-! ## The shape of an encoded chunk -/

/-- The number that the `i`-th run of the loop of `QRenc_encodeModeNum`
appends: the value of the three digits from `data[i*3]` on. -/
def numWord (data : List UChar) (i : Nat) : Nat :=
  u32 (((byteAt data (i * 3) : Nat) - 48 : Int) * 100
    + ((byteAt data (i * 3 + 1) : Nat) - 48 : Int) * 10
    + ((byteAt data (i * 3 + 2) : Nat) - 48 : Int))

/-- The bits that `QRenc_encodeModeNum` appends after its loop, for the one or
two digits that remain. -/
def numTail (data : List UChar) : BitStream :=
  if data.length - data.length / 3 * 3 = 1 then
    BitStream_newFromNum 4 (u32 ((byteAt data (data.length / 3 * 3) : Nat) - 48 : Int))
  else if data.length - data.length / 3 * 3 = 2 then
    BitStream_newFromNum 7 (u32 (((byteAt data (data.length / 3 * 3) : Nat) - 48 : Int) * 10
      + ((byteAt data (data.length / 3 * 3 + 1) : Nat) - 48 : Int)))
  else []

/-- The payload bits of `QRenc_encodeModeNum`. -/
def numPayload (data : List UChar) : BitStream :=
  (List.range (data.length / 3)).flatMap (fun i => BitStream_newFromNum 10 (numWord data i))
    ++ numTail data

/-- The number that the `i`-th run of the loop of `QRenc_encodeModeAn` appends:
the value of the pair of characters from `data[i*2]` on. -/
def anWord (data : List UChar) (i : Nat) : Nat :=
  u32 ((u32 (QRenc_lookAnTable (byteAt data (i * 2))) : Int) * 45
    + (u32 (QRenc_lookAnTable (byteAt data (i * 2 + 1))) : Int))

/-- The bits that `QRenc_encodeModeAn` appends after its loop. -/
def anTail (data : List UChar) : BitStream :=
  if data.length % 2 = 1 then
    BitStream_newFromNum 6 (u32 (QRenc_lookAnTable (byteAt data (data.length / 2 * 2))))
  else []

/-- The payload bits of `QRenc_encodeModeAn`. -/
def anPayload (data : List UChar) : BitStream :=
  (List.range (data.length / 2)).flatMap (fun i => BitStream_newFromNum 11 (anWord data i))
    ++ anTail data

/-- The payload bits of `QRenc_encodeMode8`. -/
def bytePayload (data : List UChar) : BitStream :=
  (List.range data.length).flatMap (fun i => BitStream_newFromNum 8 (byteAt data i).val)

/-- The payload bits of `QRenc_encodeModeKanji`. -/
def kanjiPayload (data : List UChar) : BitStream :=
  (List.range ((data.length + 1) / 2)).flatMap (fun k =>
    BitStream_newFromNum 13
      (QRenc_encodeModeKanji.word (byteAt data (2 * k)) (byteAt data (2 * k + 1))))

/-- The mode indicator that the encoder of a mode appends first. -/
def modeIndicator : QRencodeMode → Nat
  | QR_MODE_NUM => 1
  | QR_MODE_AN => 2
  | QR_MODE_8 => 4
  | QR_MODE_KANJI => 8

/-- The number that the encoder of a mode puts in the length indicator. -/
def lengthField : QRencodeMode → List UChar → Nat
  | QR_MODE_KANJI, data => data.length / 2
  | _, data => data.length

/-- The payload bits of the encoder of a mode. -/
def modePayload : QRencodeMode → List UChar → BitStream
  | QR_MODE_NUM, data => numPayload data
  | QR_MODE_AN, data => anPayload data
  | QR_MODE_8, data => bytePayload data
  | QR_MODE_KANJI, data => kanjiPayload data

/-- The bits of a chunk encoded on its own: mode indicator, length indicator,
payload. -/
def chunkBits (spec : QRspec) (mode : QRencodeMode) (version : Int) (data : List UChar) : BitStream :=
  BitStream_newFromNum 4 (modeIndicator mode)
    ++ BitStream_newFromNum (spec.lengthIndicator mode version) (lengthField mode data)
    ++ modePayload mode data

/-- The consecutive slices of a chunk of the specification: slices of `w`
bytes each, "the last slice holding the remainder"; the empty data has the one
empty slice. -/
def slices (w : Nat) (data : List UChar) : List (List UChar) :=
  (List.range (max 1 ((data.length + w - 1) / w))).map (fun i => (data.drop (i * w)).take w)

/-- The bits of a chunk encoded on its own by the encoder of its mode. -/
def singleChunk (spec : QRspec) (mode : QRencodeMode) (version : Int) (data : List UChar) :
    BitStream :=
  ((QRenc_encodeBitStream.encode spec ⟨mode, data, none⟩ version).bstream).getD []

/-- The character of an alphanumeric value: the 45 symbols in the order of
their values. -/
def anDecode (t : Int) : UChar :=
  (bytesOf "0123456789ABCDEFGHIJKLMNOPQRSTUVWXYZ $%*+-./:").getD t.toNat 0

/-! ## Sample jobs -/

/-- A symbol table with chunks of at most two words, for concrete runs of the
splitter; apart from that the sample table. -/
def splitSpec : QRspec := { sampleSpec with maximumWords := fun _ _ => 2 }

/-- A job of two chunks, the digits "01234567" and the text "AC-42", with the
version not yet chosen. -/
def sampleJob : QRinput :=
  { head := [⟨QR_MODE_NUM, bytesOf "01234567", none⟩, ⟨QR_MODE_AN, bytesOf "AC-42", none⟩],
    version := 0, level := QR_ECLEVEL_L }

/-- The sample job after `QRenc_getBitStream` with the sample table. -/
def sampleJobDone : QRinput :=
  match QRenc_getBitStream sampleSpec 10 sampleJob with
  | .ok (input, _) => input
  | .error _ => sampleJob

/-- The merged bit stream of the sample job with the sample table. -/
def sampleMerged : BitStream :=
  match QRenc_mergeBitStream sampleSpec 10 sampleJob with
  | .ok (_, some bstream) => bstream
  | _ => []

/-- The padded bit stream of the sample job with the sample table. -/
def samplePadded : BitStream :=
  match QRenc_getBitStream sampleSpec 10 sampleJob with
  | .ok (_, some bstream) => bstream
  | _ => []

/-! ## Further sample jobs and tables -/

/-- A job of one chunk of 105 bytes, with the version not yet chosen. -/
def byteJob : QRinput :=
  { head := [⟨QR_MODE_8, List.replicate 105 65, none⟩], version := 0, level := QR_ECLEVEL_L }

/-- The job of 105 bytes with its chunk encoded at version 5. -/
def byteJobDone : QRinput :=
  { head := [QRenc_encodeBitStream.encode sampleSpec ⟨QR_MODE_8, List.replicate 105 65, none⟩ 5],
    version := 5, level := QR_ECLEVEL_L }

/-- A kanji chunk of 128 characters, 256 bytes. -/
def kanji256 : List UChar := (List.replicate 128 [0x93, 0x5f]).flatten

/-- A job of the kanji chunk of 256 bytes and of a byte chunk of 109 bytes,
one byte more than the sample table holds at its last version. -/
def crashJob : QRinput :=
  { head := [⟨QR_MODE_KANJI, kanji256, none⟩, ⟨QR_MODE_8, List.replicate 109 65, none⟩],
    version := 0, level := QR_ECLEVEL_L }

/-- A job of one byte chunk of 109 bytes, one byte more than the sample table
holds at its last version. -/
def overJob : QRinput :=
  { head := [⟨QR_MODE_8, List.replicate 109 65, none⟩], version := 0, level := QR_ECLEVEL_L }

/-- A job of the two digits "12", with the version not yet chosen. -/
def shortJob : QRinput :=
  { head := [⟨QR_MODE_NUM, bytesOf "12", none⟩], version := 0, level := QR_ECLEVEL_L }

/-- The job of the two digits with its chunk encoded at version 1. -/
def shortJobDone : QRinput :=
  { head := [QRenc_encodeBitStream.encode sampleSpec ⟨QR_MODE_NUM, bytesOf "12", none⟩ 1],
    version := 1, level := QR_ECLEVEL_L }

/-- A byte chunk of 33 bytes. -/
def entry33 : QRenc_List := ⟨QR_MODE_8, List.replicate 33 65, none⟩

/-- A job of one byte chunk of 78 bytes, with the version not yet chosen. -/
def job78 : QRinput :=
  { head := [⟨QR_MODE_8, List.replicate 78 65, none⟩], version := 0, level := QR_ECLEVEL_L }

theorem checkModeNum_eq_zero_iff (data : List UChar) :
    QRenc_checkModeNum data = 0 ↔ ∀ c ∈ data, 48 ≤ c.val ∧ c.val ≤ 57 := by
  induction data with
  | nil => simp [QRenc_checkModeNum]
  | cons c rest ih =>
    simp only [QRenc_checkModeNum, List.mem_cons, forall_eq_or_imp]
    by_cases h : 48 ≤ c.val ∧ c.val ≤ 57
    · have hc : ¬ (charOf c < 48 ∨ charOf c > 57) := by
        unfold charOf; split <;> omega
      simp [hc, h, ih]
    · have hc : charOf c < 48 ∨ charOf c > 57 := by
        have := c.isLt
        unfold charOf; split <;> omega
      simp [hc, h]

theorem checkModeNum_cases (data : List UChar) :
    QRenc_checkModeNum data = 0 ∨ QRenc_checkModeNum data = -1 := by
  induction data with
  | nil => simp [QRenc_checkModeNum]
  | cons c rest ih =>
    simp only [QRenc_checkModeNum]
    split
    · right; rfl
    · exact ih

theorem lookAnTable_neg_iff : ∀ c : UChar, QRenc_lookAnTable c < 0 ↔ ¬ (isAn45 c ∨ isLower c) := by
  decide

theorem lookAnTable_highbit : ∀ c : UChar, 128 ≤ c.val → QRenc_lookAnTable c = -1 := by
  decide

theorem checkModeAn_eq_zero_iff (data : List UChar) :
    QRenc_checkModeAn data = 0 ↔ ∀ c ∈ data, isAn45 c ∨ isLower c := by
  induction data with
  | nil => simp [QRenc_checkModeAn]
  | cons c rest ih =>
    simp only [QRenc_checkModeAn, List.mem_cons, forall_eq_or_imp]
    by_cases h : isAn45 c ∨ isLower c
    · have hc : ¬ QRenc_lookAnTable c < 0 := by
        rw [lookAnTable_neg_iff]; exact not_not.mpr h
      simp [hc, h, ih]
    · have hc : QRenc_lookAnTable c < 0 := (lookAnTable_neg_iff c).mpr h
      simp [hc, h]

theorem checkModeAn_cases (data : List UChar) :
    QRenc_checkModeAn data = 0 ∨ QRenc_checkModeAn data = -1 := by
  induction data with
  | nil => simp [QRenc_checkModeAn]
  | cons c rest ih =>
    simp only [QRenc_checkModeAn]
    split
    · right; rfl
    · exact ih

theorem kanjiValue_cons_cons (a b : UChar) (rest : List UChar) (k : Nat) :
    kanjiValue (a :: b :: rest) (k + 1) = kanjiValue rest k := by
  simp [kanjiValue, byteAt, Nat.mul_add]

theorem checkModeKanji_loop_cases (data : List UChar) :
    QRenc_checkModeKanji.loop data = 0 ∨ QRenc_checkModeKanji.loop data = -1 := by
  induction data using QRenc_checkModeKanji.loop.induct with
  | case1 a b rest val h => simp [QRenc_checkModeKanji.loop, val, h]
  | case2 a b rest val h ih => simpa [QRenc_checkModeKanji.loop, val, h] using ih
  | case3 data h =>
    left
    unfold QRenc_checkModeKanji.loop
    split
    · exact absurd rfl (h _ _ _)
    · rfl

theorem checkModeKanji_loop_eq_zero_iff (data : List UChar) :
    QRenc_checkModeKanji.loop data = 0 ↔
      ∀ k, k < data.length / 2 → inKanjiRange (kanjiValue data k) := by
  induction data using QRenc_checkModeKanji.loop.induct with
  | case1 a b rest val h =>
    simp only [QRenc_checkModeKanji.loop, val, h, if_true]
    constructor
    · intro h0; simp at h0
    · intro hk
      have := hk 0 (by simp; omega)
      simp only [kanjiValue, byteAt, inKanjiRange] at this
      simp at this
      simp only [val] at h
      omega
  | case2 a b rest val h ih =>
    simp only [QRenc_checkModeKanji.loop, val, h, if_false, ih]
    constructor
    · intro hk k hlt
      cases k with
      | zero =>
        simp only [kanjiValue, byteAt, inKanjiRange]
        simp
        simp only [val] at h
        omega
      | succ k =>
        rw [kanjiValue_cons_cons]
        apply hk
        simp at hlt
        omega
    · intro hk k hlt
      have := hk (k + 1) (by simp; omega)
      rwa [kanjiValue_cons_cons] at this
  | case3 data h =>
    have hlen : data.length / 2 = 0 := by
      match data, h with
      | [], _ => rfl
      | [_], _ => simp
      | a :: b :: rest, h => exact absurd rfl (h a b rest)
    have h0 : QRenc_checkModeKanji.loop data = 0 := by
      unfold QRenc_checkModeKanji.loop
      split
      · exact absurd rfl (h _ _ _)
      · rfl
    simp [h0, hlen]

/-! ## Validation: the claims -/

/-- C9: `QRinput_check` in numeric mode returns `0` if and only if every byte
of the data is an ASCII digit, the empty data being accepted, and returns `-1`
otherwise; in byte mode it returns `0` for every data. -/
theorem QRinput_check_num_and_8 (data : List UChar) :
    (QRinput_check QR_MODE_NUM data = 0 ↔ ∀ c ∈ data, 48 ≤ c.val ∧ c.val ≤ 57) ∧
    (QRinput_check QR_MODE_NUM data = 0 ∨ QRinput_check QR_MODE_NUM data = -1) ∧
    QRinput_check QR_MODE_NUM [] = 0 ∧
    QRinput_check QR_MODE_8 data = 0 :=
  ⟨checkModeNum_eq_zero_iff data, checkModeNum_cases data, rfl, rfl⟩

/-- C8: `QRinput_check` in kanji mode returns `0` if and only if the size is
even and every 2-byte big-endian value lies in `[0x8140, 0x9FFC]` or
`[0xE040, 0xEBBF]`; it returns `-1` otherwise, so for every odd size and for
every data with a value out of the ranges. -/
theorem QRinput_check_kanji_iff (data : List UChar) :
    (QRinput_check QR_MODE_KANJI data = 0 ↔
      data.length % 2 = 0 ∧ ∀ k, k < data.length / 2 → inKanjiRange (kanjiValue data k)) ∧
    (QRinput_check QR_MODE_KANJI data = 0 ∨ QRinput_check QR_MODE_KANJI data = -1) ∧
    (data.length % 2 = 1 → QRinput_check QR_MODE_KANJI data = -1) ∧
    ((∃ k, k < data.length / 2 ∧ ¬ inKanjiRange (kanjiValue data k)) →
      QRinput_check QR_MODE_KANJI data = -1) := by
  have hiff : QRinput_check QR_MODE_KANJI data = 0 ↔
      data.length % 2 = 0 ∧ ∀ k, k < data.length / 2 → inKanjiRange (kanjiValue data k) := by
    simp only [QRinput_check, QRenc_checkModeKanji]
    by_cases hodd : data.length % 2 = 1
    · simp [hodd]
    · have heven : data.length % 2 = 0 := by omega
      simp only [hodd, if_false, heven, true_and]
      exact checkModeKanji_loop_eq_zero_iff data
  have hcases : QRinput_check QR_MODE_KANJI data = 0 ∨ QRinput_check QR_MODE_KANJI data = -1 := by
    simp only [QRinput_check, QRenc_checkModeKanji]
    split
    · right; rfl
    · exact checkModeKanji_loop_cases data
  refine ⟨hiff, hcases, ?_, ?_⟩
  · intro hodd
    simp [QRinput_check, QRenc_checkModeKanji, hodd]
  · rintro ⟨k, hk, hbad⟩
    rcases hcases with h0 | h1
    · exact absurd ((hiff.mp h0).2 k hk) hbad
    · exact h1

/-- C7, the claim refuted: the one-byte data `a` (0x61), a lowercase letter
and none of the 45 symbols, is accepted in alphanumeric mode. -/
theorem an_lowercase_accepted :
    QRinput_check QR_MODE_AN [97] = 0 ∧ ¬ (∀ c ∈ ([97] : List UChar), isAn45 c) := by
  decide

/-- C7, amended: `QRinput_check` in alphanumeric mode returns `0` if and only
if every byte of the data is one of the 45 symbols or a lowercase letter
`a`..`z` (which the table maps to the value of its uppercase letter); it
returns `-1` otherwise, and so for every data holding a byte with the high
bit set. -/
theorem QRinput_check_an_iff (data : List UChar) :
    (QRinput_check QR_MODE_AN data = 0 ↔ ∀ c ∈ data, isAn45 c ∨ isLower c) ∧
    (QRinput_check QR_MODE_AN data = 0 ∨ QRinput_check QR_MODE_AN data = -1) ∧
    ((∃ c ∈ data, 128 ≤ c.val) → QRinput_check QR_MODE_AN data = -1) := by
  refine ⟨checkModeAn_eq_zero_iff data, checkModeAn_cases data, ?_⟩
  rintro ⟨c, hc, hhigh⟩
  rcases checkModeAn_cases data with h0 | h1
  · have := (checkModeAn_eq_zero_iff data).mp h0 c hc
    have hneg : QRenc_lookAnTable c < 0 := by
      rw [lookAnTable_highbit c hhigh]; decide
    exact absurd this ((lookAnTable_neg_iff c).mp hneg)
  · exact h1

/-- C10: `QRinput_append` returns `-1` exactly when `QRinput_check` rejects the
data, and then leaves the job as it was; otherwise it returns `0` and the
chain of the job is the chain before the call followed by one new entry with
the given mode, the given data and no bit stream, the version, the level and
the entries before it being unchanged. -/
theorem QRinput_append_atomic (input : QRinput) (mode : QRencodeMode) (data : List UChar) :
    ((QRinput_append input mode data).1 = -1 ↔ QRinput_check mode data ≠ 0) ∧
    (QRinput_check mode data ≠ 0 → (QRinput_append input mode data).2 = input) ∧
    (QRinput_check mode data = 0 →
      (QRinput_append input mode data).1 = 0 ∧
      (QRinput_append input mode data).2.head
        = input.head ++ [{ mode := mode, data := data, bstream := none }] ∧
      (QRinput_append input mode data).2.version = input.version ∧
      (QRinput_append input mode data).2.level = input.level) := by
  by_cases h : QRinput_check mode data = 0
  · have hnew : QRenc_newEntry mode data
        = some { mode := mode, data := data, bstream := none } := by
      simp [QRenc_newEntry, h]
    refine ⟨?_, fun hne => absurd h hne, fun _ => ?_⟩
    · simp only [QRinput_append, hnew, h, ne_eq, not_true_eq_false, iff_false]
      cases input.head <;> simp
    · simp only [QRinput_append, hnew]
      cases hh : input.head <;> simp
  · have hnew : QRenc_newEntry mode data = none := by
      simp [QRenc_newEntry, h]
    refine ⟨?_, fun _ => ?_, fun h0 => absurd h0 h⟩
    · simp [QRinput_append, hnew, h]
    · simp [QRinput_append, hnew]

/-! ## Bit streams: lemmas -/

theorem BitStream_newFromNum_length (n num : Nat) : (BitStream_newFromNum n num).length = n := by
  induction n with
  | zero => rfl
  | succ n ih => simp [BitStream_newFromNum, ih]

theorem BitStream_newFromNum_zero (n : Nat) : BitStream_newFromNum n 0 = List.replicate n false := by
  induction n with
  | zero => rfl
  | succ n ih => simp [BitStream_newFromNum, ih, List.replicate_succ]

theorem foldl_append_flatMap {α : Type} (f : α → BitStream) (l : List α) (bs : BitStream) :
    l.foldl (fun b i => b ++ f i) bs = bs ++ l.flatMap f := by
  induction l generalizing bs with
  | nil => simp
  | cons a l ih => simp [List.foldl_cons, ih, List.flatMap_cons]

theorem length_flatMap_const {α : Type} (f : α → BitStream) (l : List α) (k : Nat)
    (h : ∀ i ∈ l, (f i).length = k) : (l.flatMap f).length = l.length * k := by
  induction l with
  | nil => simp
  | cons a l ih =>
    have ha := h a (List.mem_cons_self a l)
    have hl := ih (fun i hi => h i (List.mem_cons_of_mem a hi))
    simp only [List.flatMap_cons, List.length_append, List.length_cons, ha, hl]
    ring

/-! ## The padding generator -/

theorem padding_loop_eq (n : Nat) (bs : BitStream) :
    (List.range n).foldl (fun bstream i =>
        if i % 2 = 1 then BitStream_appendNum bstream 8 0x11
        else BitStream_appendNum bstream 8 0xec) bs
      = bs ++ padBytes n := by
  have hfun : (fun (bstream : BitStream) (i : Nat) =>
        if i % 2 = 1 then BitStream_appendNum bstream 8 0x11
        else BitStream_appendNum bstream 8 0xec)
      = (fun b i => b ++ (fun i => if i % 2 = 0 then padEC else pad11) i) := by
    funext bstream i
    by_cases h : i % 2 = 1
    · have h0 : ¬ i % 2 = 0 := by omega
      simp only [h, h0, if_true, if_false, BitStream_appendNum]
      rfl
    · have h0 : i % 2 = 0 := by omega
      simp only [h, h0, if_true, if_false, BitStream_appendNum]
      rfl
  rw [hfun, foldl_append_flatMap]
  rfl

theorem padBytes_length (n : Nat) : (padBytes n).length = 8 * n := by
  unfold padBytes
  rw [length_flatMap_const _ _ 8]
  · simp [Nat.mul_comm]
  · intro i _
    split <;> rfl

/-- The padding of the code is the padding of the specification. -/
theorem createPaddingBit_eq (spec : QRspec) (input : QRinput) (maxBytes : Nat)
    (hv : 1 ≤ input.version)
    (hmax : spec.getDataLength input.version input.level = (maxBytes : Int))
    (hle : QRenc_createPaddingBit.bits input ≤ 8 * maxBytes) :
    QRenc_createPaddingBit spec input =
      if QRenc_createPaddingBit.bits input = 8 * maxBytes then none
      else some (paddingSpec (QRenc_createPaddingBit.bits input) maxBytes) := by
  generalize hb : QRenc_createPaddingBit.bits input = bits at hle
  have hv0 : ¬ input.version ≤ 0 := by omega
  simp only [QRenc_createPaddingBit, hv0, if_false, hmax, hb]
  by_cases h1 : bits = 8 * maxBytes
  · have h1i : (bits : Int) = (maxBytes : Int) * 8 := by omega
    rw [if_pos h1i, if_pos h1]
  · have h1i : ¬ (bits : Int) = (maxBytes : Int) * 8 := by omega
    simp only [h1, h1i, if_false]
    by_cases h2 : 8 * maxBytes - bits < 5
    · have h2i : (maxBytes : Int) * 8 - (bits : Int) < 5 := by omega
      have ht : ((maxBytes : Int) * 8 - (bits : Int)).toNat = 8 * maxBytes - bits := by omega
      simp only [h2i, if_true, paddingSpec, h1, if_false, h2, ht, BitStream_appendNum,
        BitStream_new, List.nil_append, BitStream_newFromNum_zero]
    · have h2i : ¬ (maxBytes : Int) * 8 - (bits : Int) < 5 := by omega
      have ht : ((((bits : Nat) : Int) + 7) / 8 * 8 - (bits : Int)).toNat
          = 8 * ((bits + 7) / 8) - bits := by omega
      have hw : ((maxBytes : Int) - (((bits : Nat) : Int) + 7) / 8).toNat
          = maxBytes - (bits + 7) / 8 := by omega
      simp only [h2i, if_false, paddingSpec, h1, h2, ht, hw, padding_loop_eq]
      simp only [BitStream_appendNum, BitStream_new, List.nil_append, BitStream_newFromNum_zero]

/-- C2: for every job of version at least 1 whose merged bit length `bits` is
at most `maxBits = 8 × maxBytes`, `QRenc_createPaddingBit` is the three-case
padding of the specification: nothing when `bits = maxBits`; exactly
`maxBits − bits` zero bits and no pad byte when `0 < maxBits − bits < 5`;
otherwise `8 × ⌈bits/8⌉ − bits` zero bits followed by exactly
`maxBytes − ⌈bits/8⌉` pad bytes, `0xEC` at the even and `0x11` at the odd
places.  In particular `bits = maxBits − 3` gives three zero bits, and
`bits = maxBits − 12` gives four zero bits and the single byte `0xEC`. -/
theorem QRenc_createPaddingBit_three_cases (spec : QRspec) (input : QRinput) (maxBytes : Nat)
    (hv : 1 ≤ input.version)
    (hmax : spec.getDataLength input.version input.level = (maxBytes : Int))
    (hle : QRenc_createPaddingBit.bits input ≤ 8 * maxBytes) :
    (QRenc_createPaddingBit.bits input = 8 * maxBytes →
      QRenc_createPaddingBit spec input = none) ∧
    (0 < 8 * maxBytes - QRenc_createPaddingBit.bits input →
      8 * maxBytes - QRenc_createPaddingBit.bits input < 5 →
      QRenc_createPaddingBit spec input
        = some (List.replicate (8 * maxBytes - QRenc_createPaddingBit.bits input) false)) ∧
    (5 ≤ 8 * maxBytes - QRenc_createPaddingBit.bits input →
      QRenc_createPaddingBit spec input
        = some (List.replicate
            (8 * ((QRenc_createPaddingBit.bits input + 7) / 8) - QRenc_createPaddingBit.bits input)
            false
          ++ padBytes (maxBytes - (QRenc_createPaddingBit.bits input + 7) / 8)) ∧
      (padBytes (maxBytes - (QRenc_createPaddingBit.bits input + 7) / 8)).length
        = 8 * (maxBytes - (QRenc_createPaddingBit.bits input + 7) / 8)) ∧
    (QRenc_createPaddingBit.bits input + 3 = 8 * maxBytes →
      QRenc_createPaddingBit spec input = some [false, false, false]) ∧
    (QRenc_createPaddingBit.bits input + 12 = 8 * maxBytes →
      QRenc_createPaddingBit spec input
        = some ([false, false, false, false]
          ++ [true, true, true, false, true, true, false, false])) := by
  have key := createPaddingBit_eq spec input maxBytes hv hmax hle
  generalize QRenc_createPaddingBit.bits input = bits at key hle
  refine ⟨?_, ?_, ?_, ?_, ?_⟩
  · intro h
    simp [key, h]
  · intro h0 h5
    have hne : ¬ bits = 8 * maxBytes := by omega
    simp [key, hne, paddingSpec, h5]
  · intro h5
    have hne : ¬ bits = 8 * maxBytes := by omega
    have hn5 : ¬ 8 * maxBytes - bits < 5 := by omega
    refine ⟨?_, padBytes_length _⟩
    simp [key, hne, paddingSpec, hn5]
  · intro h3
    have hne : ¬ bits = 8 * maxBytes := by omega
    have h5 : 8 * maxBytes - bits < 5 := by omega
    have hd : 8 * maxBytes - bits = 3 := by omega
    simp [key, hne, paddingSpec, h5, hd, List.replicate]
  · intro h12
    have hne : ¬ bits = 8 * maxBytes := by omega
    have hn5 : ¬ 8 * maxBytes - bits < 5 := by omega
    have hz : 8 * ((bits + 7) / 8) - bits = 4 := by omega
    have hp : maxBytes - (bits + 7) / 8 = 1 := by omega
    simp only [key, hne, paddingSpec, hn5, hz, hp, if_false]
    rfl

/-! ## The mode encoders: shape and length -/

theorem encodeModeNum_eq (spec : QRspec) (entry : QRenc_List) (version : Int) :
    QRenc_encodeModeNum spec entry version
      = { entry with bstream := some (chunkBits spec QR_MODE_NUM version entry.data) } := by
  simp only [QRenc_encodeModeNum, BitStream_appendNum, BitStream_new, List.nil_append,
    foldl_append_flatMap, chunkBits, modeIndicator, lengthField, modePayload, numPayload,
    numTail, numWord]
  congr 2
  split
  · simp
  · split <;> simp

theorem encodeModeAn_eq (spec : QRspec) (entry : QRenc_List) (version : Int) :
    QRenc_encodeModeAn spec entry version
      = { entry with bstream := some (chunkBits spec QR_MODE_AN version entry.data) } := by
  simp only [QRenc_encodeModeAn, BitStream_appendNum, BitStream_new, List.nil_append,
    foldl_append_flatMap, chunkBits, modeIndicator, lengthField, modePayload, anPayload,
    anTail, anWord]
  congr 2
  split <;> simp

theorem encodeMode8_eq (spec : QRspec) (entry : QRenc_List) (version : Int) :
    QRenc_encodeMode8 spec entry version
      = { entry with bstream := some (chunkBits spec QR_MODE_8 version entry.data) } := by
  simp only [QRenc_encodeMode8, BitStream_appendNum, BitStream_new, List.nil_append,
    foldl_append_flatMap, chunkBits, modeIndicator, lengthField, modePayload, bytePayload]

theorem encodeModeKanji_eq (spec : QRspec) (entry : QRenc_List) (version : Int) :
    QRenc_encodeModeKanji spec entry version
      = { entry with bstream := some (chunkBits spec QR_MODE_KANJI version entry.data) } := by
  simp only [QRenc_encodeModeKanji, BitStream_appendNum, BitStream_new, List.nil_append,
    foldl_append_flatMap, chunkBits, modeIndicator, lengthField, modePayload, kanjiPayload]

theorem encode_eq (spec : QRspec) (entry : QRenc_List) (version : Int) :
    QRenc_encodeBitStream.encode spec entry version
      = { entry with bstream := some (chunkBits spec entry.mode version entry.data) } := by
  unfold QRenc_encodeBitStream.encode
  split <;> rename_i h
  · rw [encodeModeNum_eq, h]
  · rw [encodeModeAn_eq, h]
  · rw [encodeMode8_eq, h]
  · rw [encodeModeKanji_eq, h]

theorem numPayload_length (data : List UChar) :
    (numPayload data).length = QRenc_estimateBitsModeNum ⟨QR_MODE_NUM, data, none⟩ := by
  unfold numPayload numTail QRenc_estimateBitsModeNum
  rw [List.length_append, length_flatMap_const _ _ 10
    (fun i _ => BitStream_newFromNum_length 10 _), List.length_range]
  simp only
  split
  · rename_i h; simp [h, BitStream_newFromNum_length]
  · split
    · rename_i h1 h2; simp [h2, BitStream_newFromNum_length]
    · rename_i h1 h2
      have h0 : data.length - data.length / 3 * 3 = 0 := by omega
      simp [h0]

theorem anPayload_length (data : List UChar) :
    (anPayload data).length = QRenc_estimateBitsModeAn ⟨QR_MODE_AN, data, none⟩ := by
  unfold anPayload anTail QRenc_estimateBitsModeAn
  rw [List.length_append, length_flatMap_const _ _ 11
    (fun i _ => BitStream_newFromNum_length 11 _), List.length_range]
  simp only
  split <;> simp [BitStream_newFromNum_length]

theorem bytePayload_length (data : List UChar) :
    (bytePayload data).length = QRenc_estimateBitsMode8 ⟨QR_MODE_8, data, none⟩ := by
  unfold bytePayload QRenc_estimateBitsMode8
  rw [length_flatMap_const _ _ 8 (fun i _ => BitStream_newFromNum_length 8 _), List.length_range]

theorem kanjiPayload_length (data : List UChar) (heven : data.length % 2 = 0) :
    (kanjiPayload data).length = QRenc_estimateBitsModeKanji ⟨QR_MODE_KANJI, data, none⟩ := by
  unfold kanjiPayload QRenc_estimateBitsModeKanji
  rw [length_flatMap_const _ _ 13 (fun i _ => BitStream_newFromNum_length 13 _), List.length_range]
  have : (data.length + 1) / 2 = data.length / 2 := by omega
  simp [this]

theorem check_kanji_even (data : List UChar) (h : QRinput_check QR_MODE_KANJI data = 0) :
    data.length % 2 = 0 := by
  simp only [QRinput_check, QRenc_checkModeKanji] at h
  by_contra hne
  have : data.length % 2 = 1 := by omega
  simp [this] at h

theorem modePayload_length (entry : QRenc_List)
    (hvalid : QRinput_check entry.mode entry.data = 0) :
    (modePayload entry.mode entry.data).length
      = QRenc_estimateBitStreamSizeOfEntry.estimate entry := by
  obtain ⟨mode, data, bs⟩ := entry
  cases mode
  · exact numPayload_length data
  · exact anPayload_length data
  · exact bytePayload_length data
  · exact kanjiPayload_length data (check_kanji_even data hvalid)

theorem chunkBits_length (spec : QRspec) (entry : QRenc_List) (version : Int)
    (hvalid : QRinput_check entry.mode entry.data = 0) :
    (chunkBits spec entry.mode version entry.data).length
      = 4 + spec.lengthIndicator entry.mode version
        + QRenc_estimateBitStreamSizeOfEntry.estimate entry := by
  simp only [chunkBits, List.length_append, BitStream_newFromNum_length,
    modePayload_length entry hvalid]

/-- A chunk of at most `QRspec_maximumWords` bytes is encoded by the encoder of
its mode. -/
theorem encodeBitStream_leaf (spec : QRspec) (fuel : Nat) (entry : QRenc_List) (version : Int)
    (hsize : (entry.data.length : Int) ≤ spec.maximumWords entry.mode version) :
    QRenc_encodeBitStream spec (fuel + 1) entry version
      = .ok ({ entry with bstream := some (chunkBits spec entry.mode version entry.data) },
          (chunkBits spec entry.mode version entry.data).length) := by
  have hn : ¬ (entry.data.length : Int) > spec.maximumWords entry.mode version := by omega
  simp only [QRenc_encodeBitStream, hn, if_false, encode_eq, BitStream_size]

/-- C3: a chunk that passes `QRinput_check` and holds at most
`QRspec_maximumWords` bytes is encoded by the encoder of its mode into exactly
`4 + L + P` bits, `L` being `QRspec_lengthIndicator(mode, version)` and `P` the
estimate of the estimator of the mode: `10×⌊n/3⌋ + (0, 4, 7)` for numeric,
`11×⌊n/2⌋ + 6×(n mod 2)` for alphanumeric, `8×n` for byte and `13×⌊n/2⌋` for
kanji data of `n` bytes; the numeric data "01234567" has `P = 27`. -/
theorem QRenc_encode_bit_count (spec : QRspec) (fuel : Nat) (entry : QRenc_List)
    (version : Int)
    (hvalid : QRinput_check entry.mode entry.data = 0)
    (hsize : (entry.data.length : Int) ≤ spec.maximumWords entry.mode version) :
    (∃ bs, (QRenc_encodeBitStream.encode spec entry version).bstream = some bs ∧
      QRenc_encodeBitStream spec (fuel + 1) entry version
        = .ok (QRenc_encodeBitStream.encode spec entry version, bs.length) ∧
      bs.length = 4 + spec.lengthIndicator entry.mode version
        + QRenc_estimateBitStreamSizeOfEntry.estimate entry) ∧
    (entry.mode = QR_MODE_NUM → QRenc_estimateBitStreamSizeOfEntry.estimate entry
      = 10 * (entry.data.length / 3) + [0, 4, 7].getD (entry.data.length % 3) 0) ∧
    (entry.mode = QR_MODE_AN → QRenc_estimateBitStreamSizeOfEntry.estimate entry
      = 11 * (entry.data.length / 2) + 6 * (entry.data.length % 2)) ∧
    (entry.mode = QR_MODE_8 → QRenc_estimateBitStreamSizeOfEntry.estimate entry
      = 8 * entry.data.length) ∧
    (entry.mode = QR_MODE_KANJI → QRenc_estimateBitStreamSizeOfEntry.estimate entry
      = 13 * (entry.data.length / 2)) ∧
    QRenc_estimateBitStreamSizeOfEntry.estimate ⟨QR_MODE_NUM, bytesOf "01234567", none⟩ = 27 := by
  refine ⟨⟨chunkBits spec entry.mode version entry.data, ?_, ?_, ?_⟩, ?_, ?_, ?_, ?_, ?_⟩
  · rw [encode_eq]
  · rw [encodeBitStream_leaf spec fuel entry version hsize, encode_eq]
  · exact chunkBits_length spec entry version hvalid
  · intro hm
    simp only [QRenc_estimateBitStreamSizeOfEntry.estimate, hm, QRenc_estimateBitsModeNum]
    have h3 : entry.data.length % 3 = 0 ∨ entry.data.length % 3 = 1 ∨ entry.data.length % 3 = 2 := by
      omega
    rcases h3 with h | h | h
    · have hd : entry.data.length - entry.data.length / 3 * 3 = 0 := by omega
      simp only [hd, h]
      simp; omega
    · have hd : entry.data.length - entry.data.length / 3 * 3 = 1 := by omega
      simp only [hd, h]
      simp; omega
    · have hd : entry.data.length - entry.data.length / 3 * 3 = 2 := by omega
      simp only [hd, h]
      simp; omega
  · intro hm
    simp only [QRenc_estimateBitStreamSizeOfEntry.estimate, hm, QRenc_estimateBitsModeAn]
    split <;> omega
  · intro hm
    simp only [QRenc_estimateBitStreamSizeOfEntry.estimate, hm, QRenc_estimateBitsMode8]
    omega
  · intro hm
    simp only [QRenc_estimateBitStreamSizeOfEntry.estimate, hm, QRenc_estimateBitsModeKanji]
    omega
  · decide

/-! ## The splitter -/

theorem slices_unfold (w : Nat) (hw : 1 ≤ w) (data : List UChar) :
    slices w data
      = if data.length ≤ w then [data] else data.take w :: slices w (data.drop w) := by
  unfold slices
  by_cases hle : data.length ≤ w
  · have hc : max 1 ((data.length + w - 1) / w) = 1 := by
      have : (data.length + w - 1) / w < 2 :=
        (Nat.div_lt_iff_lt_mul (by omega)).mpr (by omega)
      omega
    rw [hc, if_pos hle]
    simp [List.range_succ, List.take_of_length_le hle]
  · have hdl : (data.drop w).length = data.length - w := List.length_drop w data
    have hsplit : data.length + w - 1 = (data.length - w + w - 1) + w := by omega
    have hc1 : (data.length + w - 1) / w = (data.length - w + w - 1) / w + 1 := by
      rw [hsplit, Nat.add_div_right _ (by omega)]
    have hc2 : 1 ≤ (data.length - w + w - 1) / w := by
      apply (Nat.le_div_iff_mul_le (by omega)).mpr
      omega
    rw [if_neg hle, hdl, hc1, max_eq_right (by omega), max_eq_right hc2, List.range_succ_eq_map]
    simp only [List.map_cons, List.map_map, Nat.zero_mul, List.drop_zero]
    congr 1
    apply List.map_congr_left
    intro i _
    simp only [Function.comp, List.drop_drop, Nat.succ_eq_add_one]
    congr 2
    ring

theorem check_num_of_subset (d data : List UChar) (hsub : ∀ c ∈ d, c ∈ data)
    (h : QRinput_check QR_MODE_NUM data = 0) : QRinput_check QR_MODE_NUM d = 0 := by
  simp only [QRinput_check] at h ⊢
  rw [checkModeNum_eq_zero_iff] at h ⊢
  exact fun c hc => h c (hsub c hc)

theorem check_an_of_subset (d data : List UChar) (hsub : ∀ c ∈ d, c ∈ data)
    (h : QRinput_check QR_MODE_AN data = 0) : QRinput_check QR_MODE_AN d = 0 := by
  simp only [QRinput_check] at h ⊢
  rw [checkModeAn_eq_zero_iff] at h ⊢
  exact fun c hc => h c (hsub c hc)

theorem check_kanji_iff (data : List UChar) :
    QRinput_check QR_MODE_KANJI data = 0 ↔
      data.length % 2 = 0 ∧ ∀ k, k < data.length / 2 → inKanjiRange (kanjiValue data k) := by
  simp only [QRinput_check, QRenc_checkModeKanji]
  by_cases hodd : data.length % 2 = 1
  · simp [hodd]
  · have heven : data.length % 2 = 0 := by omega
    simp only [hodd, if_false, heven, true_and]
    exact checkModeKanji_loop_eq_zero_iff data

theorem byteAt_take (data : List UChar) (w i : Nat) (hi : i < w) :
    byteAt (data.take w) i = byteAt data i := by
  simp only [byteAt, List.getD_eq_getElem?_getD, List.getElem?_take, hi, if_true]

theorem byteAt_drop (data : List UChar) (w i : Nat) :
    byteAt (data.drop w) i = byteAt data (w + i) := by
  simp only [byteAt, List.getD_eq_getElem?_getD, List.getElem?_drop]

theorem check_kanji_take (data : List UChar) (w : Nat) (hw : w % 2 = 0)
    (hlt : w ≤ data.length)
    (h : QRinput_check QR_MODE_KANJI data = 0) :
    QRinput_check QR_MODE_KANJI (data.take w) = 0 := by
  rw [check_kanji_iff] at h ⊢
  have hl : (data.take w).length = w := by simp [List.length_take]; omega
  refine ⟨by omega, fun k hk => ?_⟩
  rw [hl] at hk
  have := h.2 k (by omega)
  simp only [kanjiValue] at this ⊢
  rwa [byteAt_take _ _ _ (by omega), byteAt_take _ _ _ (by omega)]

theorem check_kanji_drop (data : List UChar) (w : Nat) (hw : w % 2 = 0)
    (h : QRinput_check QR_MODE_KANJI data = 0) :
    QRinput_check QR_MODE_KANJI (data.drop w) = 0 := by
  rw [check_kanji_iff] at h ⊢
  have hl : (data.drop w).length = data.length - w := List.length_drop w data
  refine ⟨by omega, fun k hk => ?_⟩
  rw [hl] at hk
  have := h.2 (w / 2 + k) (by omega)
  simp only [kanjiValue] at this ⊢
  rw [byteAt_drop, byteAt_drop]
  have e1 : 2 * (w / 2 + k) = w + 2 * k := by omega
  rw [e1] at this
  rw [← Nat.add_assoc]
  exact this

theorem check_take (mode : QRencodeMode) (data : List UChar) (w : Nat)
    (hk : mode = QR_MODE_KANJI → w % 2 = 0) (hlt : w ≤ data.length)
    (h : QRinput_check mode data = 0) : QRinput_check mode (data.take w) = 0 := by
  cases mode
  · exact check_num_of_subset _ data (fun c hc => List.mem_of_mem_take hc) h
  · exact check_an_of_subset _ data (fun c hc => List.mem_of_mem_take hc) h
  · rfl
  · exact check_kanji_take data w (hk rfl) hlt h

theorem check_drop (mode : QRencodeMode) (data : List UChar) (w : Nat)
    (hk : mode = QR_MODE_KANJI → w % 2 = 0)
    (h : QRinput_check mode data = 0) : QRinput_check mode (data.drop w) = 0 := by
  cases mode
  · exact check_num_of_subset _ data (fun c hc => List.mem_of_mem_drop hc) h
  · exact check_an_of_subset _ data (fun c hc => List.mem_of_mem_drop hc) h
  · rfl
  · exact check_kanji_drop data w (hk rfl) h

theorem singleChunk_eq (spec : QRspec) (mode : QRencodeMode) (version : Int) (data : List UChar) :
    singleChunk spec mode version data = chunkBits spec mode version data := by
  simp [singleChunk, encode_eq]

/-- The bits that the splitter produces: the chunks of the slices in order. -/
theorem encodeBitStream_slices (spec : QRspec) (mode : QRencodeMode) (version : Int) (w : Nat)
    (hw : spec.maximumWords mode version = (w : Int)) (hw1 : 1 ≤ w)
    (hk : mode = QR_MODE_KANJI → w % 2 = 0) :
    ∀ (fuel : Nat) (data : List UChar) (b : Option BitStream),
      data.length < fuel → QRinput_check mode data = 0 →
      QRenc_encodeBitStream spec fuel ⟨mode, data, b⟩ version
        = .ok (⟨mode, data, some ((slices w data).flatMap (chunkBits spec mode version))⟩,
            ((slices w data).flatMap (chunkBits spec mode version)).length) := by
  intro fuel
  induction fuel with
  | zero => intro data b h; omega
  | succ fuel ih =>
    intro data b hfuel hvalid
    rw [slices_unfold w hw1]
    by_cases hle : data.length ≤ w
    · have hsize : ((⟨mode, data, b⟩ : QRenc_List).data.length : Int)
          ≤ spec.maximumWords (⟨mode, data, b⟩ : QRenc_List).mode version := by
        simp only [hw]; omega
      rw [encodeBitStream_leaf spec fuel _ version hsize]
      simp [hle]
    · have hgt : (data.length : Int) > (w : Int) := by omega
      have hv1 := check_take mode data w hk (by omega) hvalid
      have hv2 := check_drop mode data w hk hvalid
      have hl1 : (data.take w).length = w := by simp [List.length_take]; omega
      have hl2 : (data.drop w).length = data.length - w := List.length_drop w data
      have e1 := ih (data.take w) none (by omega) hv1
      have e2 := ih (data.drop w) none (by omega) hv2
      have hs1 : slices w (data.take w) = [data.take w] := by
        rw [slices_unfold w hw1]; simp [hl1]
      rw [hs1] at e1
      simp only [QRenc_encodeBitStream, hgt, if_true, hw, Int.toNat_ofNat, QRenc_newEntry, hv1,
        hv2, ne_eq, not_true_eq_false, if_false, e1, e2, BitStream_append, BitStream_new,
        BitStream_size, hle]
      simp

/-- C5: for a chunk that passes `QRinput_check`, with
`maxWords = QRspec_maximumWords(mode, version) ≥ 1` (and `maxWords` even in
kanji mode), the bit stream that `QRenc_encodeBitStream` produces is the
concatenation, in order, of the encodings on their own of the consecutive
slices of `maxWords` bytes of the data, the last slice holding the remainder.
In particular a numeric chunk made of three parts of `maxWords`, `maxWords`
and `1` digits is encoded as the three parts encoded one by one and
concatenated. -/
theorem QRenc_encodeBitStream_split (spec : QRspec) (entry : QRenc_List) (version : Int)
    (w fuel : Nat)
    (hvalid : QRinput_check entry.mode entry.data = 0)
    (hw : spec.maximumWords entry.mode version = (w : Int)) (hw1 : 1 ≤ w)
    (hk : entry.mode = QR_MODE_KANJI → w % 2 = 0)
    (hfuel : entry.data.length < fuel) :
    QRenc_encodeBitStream spec fuel entry version
      = .ok ({ entry with
            bstream := some ((slices w entry.data).flatMap (singleChunk spec entry.mode version)) },
          ((slices w entry.data).flatMap (singleChunk spec entry.mode version)).length) ∧
    (∀ d1 d2 d3 : List UChar, entry.mode = QR_MODE_NUM → entry.data = d1 ++ d2 ++ d3 →
      d1.length = w → d2.length = w → d3.length = 1 →
      ∃ b1 b2 b3 : BitStream,
        QRenc_encodeBitStream spec fuel ⟨QR_MODE_NUM, d1, none⟩ version
          = .ok (⟨QR_MODE_NUM, d1, some b1⟩, b1.length) ∧
        QRenc_encodeBitStream spec fuel ⟨QR_MODE_NUM, d2, none⟩ version
          = .ok (⟨QR_MODE_NUM, d2, some b2⟩, b2.length) ∧
        QRenc_encodeBitStream spec fuel ⟨QR_MODE_NUM, d3, none⟩ version
          = .ok (⟨QR_MODE_NUM, d3, some b3⟩, b3.length) ∧
        QRenc_encodeBitStream spec fuel entry version
          = .ok ({ entry with bstream := some (b1 ++ b2 ++ b3) }, (b1 ++ b2 ++ b3).length)) := by
  obtain ⟨mode, data, b⟩ := entry
  have hfun : singleChunk spec mode version = chunkBits spec mode version :=
    funext (singleChunk_eq spec mode version)
  have main := encodeBitStream_slices spec mode version w hw hw1 hk fuel data b hfuel hvalid
  refine ⟨?_, ?_⟩
  · simp only [hfun]
    exact main
  · intro d1 d2 d3 hm hd h1 h2 h3
    simp only at hm hd
    subst hm
    obtain ⟨f, rfl⟩ : ∃ f, fuel = f + 1 := ⟨fuel - 1, by omega⟩
    refine ⟨chunkBits spec QR_MODE_NUM version d1, chunkBits spec QR_MODE_NUM version d2,
      chunkBits spec QR_MODE_NUM version d3, ?_, ?_, ?_, ?_⟩
    · exact encodeBitStream_leaf spec f ⟨QR_MODE_NUM, d1, none⟩ version (by simp only [hw]; omega)
    · exact encodeBitStream_leaf spec f ⟨QR_MODE_NUM, d2, none⟩ version (by simp only [hw]; omega)
    · exact encodeBitStream_leaf spec f ⟨QR_MODE_NUM, d3, none⟩ version (by simp only [hw]; omega)
    · have hs : slices w data = [d1, d2, d3] := by
        rw [slices_unfold w hw1, hd]
        have hl : ¬ (d1 ++ d2 ++ d3).length ≤ w := by
          simp only [List.length_append]; omega
        rw [if_neg hl]
        have ht : (d1 ++ d2 ++ d3).take w = d1 := by
          rw [List.append_assoc, List.take_left' h1]
        have hdr : (d1 ++ d2 ++ d3).drop w = d2 ++ d3 := by
          rw [List.append_assoc, List.drop_left' h1]
        rw [ht, hdr, slices_unfold w hw1]
        have hl2 : ¬ (d2 ++ d3).length ≤ w := by
          simp only [List.length_append]; omega
        rw [if_neg hl2, List.take_left' h2, List.drop_left' h2, slices_unfold w hw1,
          if_pos (by omega)]
      rw [main, hs]
      simp

/-! ## The conversion loop -/

theorem encodeBitStream_reset (spec : QRspec) (fuel : Nat) (e : QRenc_List) (v : Int) :
    QRenc_encodeBitStream spec fuel e v
      = QRenc_encodeBitStream spec fuel ⟨e.mode, e.data, none⟩ v := by
  cases fuel with
  | zero => rfl
  | succ fuel => simp only [QRenc_encodeBitStream]

theorem encodeBitStream_ok (spec : QRspec) (fuel : Nat) (e : QRenc_List) (v : Int)
    (e' : QRenc_List) (n : Nat) (h : QRenc_encodeBitStream spec fuel e v = .ok (e', n)) :
    e'.mode = e.mode ∧ e'.data = e.data ∧ n = BitStream_size e'.bstream := by
  cases fuel with
  | zero => simp [QRenc_encodeBitStream] at h
  | succ fuel =>
    simp only [QRenc_encodeBitStream] at h
    split at h
    · split at h
      · simp at h
      · split at h
        · simp at h
        · split at h
          · simp at h
          · split at h
            · simp at h
            · simp only [Except.ok.injEq, Prod.mk.injEq] at h
              obtain ⟨h1, h2⟩ := h
              subst h1 h2
              simp
    · simp only [Except.ok.injEq, Prod.mk.injEq] at h
      obtain ⟨h1, h2⟩ := h
      subst h1 h2
      simp [encode_eq]

theorem foldl_size_eq (l : List QRenc_List) (a : Nat) :
    l.foldl (fun bits entry => bits + BitStream_size entry.bstream) a
      = a + (l.map (fun e => BitStream_size e.bstream)).sum := by
  induction l generalizing a with
  | nil => simp
  | cons e l ih => simp [List.foldl_cons, ih]; omega

theorem createBitStream_loop_ok (spec : QRspec) (fuel : Nat) (v : Int) :
    ∀ (l l' : List QRenc_List) (bits : Nat),
      QRenc_createBitStream.loop spec fuel v l = .ok (l', bits) →
      l'.map (fun e => (e.mode, e.data)) = l.map (fun e => (e.mode, e.data)) ∧
      (∀ e' ∈ l', QRenc_encodeBitStream spec fuel ⟨e'.mode, e'.data, none⟩ v
        = .ok (e', BitStream_size e'.bstream)) ∧
      bits = (l'.map (fun e => BitStream_size e.bstream)).sum := by
  intro l
  induction l with
  | nil =>
    intro l' bits h
    simp only [QRenc_createBitStream.loop, Except.ok.injEq, Prod.mk.injEq] at h
    obtain ⟨h1, h2⟩ := h
    subst h1 h2
    simp
  | cons e l ih =>
    intro l' bits h
    simp only [QRenc_createBitStream.loop] at h
    split at h
    · simp at h
    · rename_i e1 n he
      split at h
      · simp at h
      · rename_i rest bits1 hrest
        simp only [Except.ok.injEq, Prod.mk.injEq] at h
        obtain ⟨h1, h2⟩ := h
        subst h1 h2
        obtain ⟨hm, hd, hn⟩ := encodeBitStream_ok spec fuel e v e1 n he
        obtain ⟨ihm, ihe, ihb⟩ := ih rest bits1 hrest
        refine ⟨by simp [hm, hd, ihm], ?_, by simp [hn, ihb]⟩
        intro e' he'
        rcases List.mem_cons.mp he' with rfl | hmem
        · rw [hm, hd, ← encodeBitStream_reset, he, hn]
        · exact ihe e' hmem

theorem createBitStream_ok (spec : QRspec) (fuel : Nat) (input input1 : QRinput) (bits : Nat)
    (h : QRenc_createBitStream spec fuel input = .ok (input1, bits)) :
    input1.version = input.version ∧ input1.level = input.level ∧
    input1.head.map (fun e => (e.mode, e.data)) = input.head.map (fun e => (e.mode, e.data)) ∧
    (∀ e' ∈ input1.head, QRenc_encodeBitStream spec fuel ⟨e'.mode, e'.data, none⟩ input.version
      = .ok (e', BitStream_size e'.bstream)) ∧
    bits = QRenc_createPaddingBit.bits input1 := by
  simp only [QRenc_createBitStream] at h
  split at h
  · simp at h
  · rename_i head bits1 hloop
    simp only [Except.ok.injEq, Prod.mk.injEq] at h
    obtain ⟨h1, h2⟩ := h
    subst h1 h2
    obtain ⟨hm, he, hb⟩ := createBitStream_loop_ok spec fuel input.version _ _ _ hloop
    refine ⟨rfl, rfl, hm, he, ?_⟩
    simp [QRenc_createPaddingBit.bits, foldl_size_eq, hb]

/-- What a returning run of the loop of `QRenc_convertData` leaves behind. -/
theorem convertData_loop_ok (spec : QRspec) (encFuel : Nat) :
    ∀ (fuel : Nat) (input input' : QRinput) (r : Int),
      QRenc_convertData.loop spec encFuel fuel input = .ok (input', r) →
      input'.level = input.level ∧ input.version ≤ input'.version ∧
      input'.head.map (fun e => (e.mode, e.data))
        = input.head.map (fun e => (e.mode, e.data)) ∧
      (∀ e' ∈ input'.head, QRenc_encodeBitStream spec encFuel ⟨e'.mode, e'.data, none⟩
        input'.version = .ok (e', BitStream_size e'.bstream)) ∧
      (r = 0 ∨ r = -1) ∧
      (r = -1 → spec.getMinimumVersion
        (((QRenc_createPaddingBit.bits input' + 7) / 8 : Nat) : Int) input'.level < 0) ∧
      (r = 0 →
        0 ≤ spec.getMinimumVersion
          (((QRenc_createPaddingBit.bits input' + 7) / 8 : Nat) : Int) input'.level ∧
        spec.getMinimumVersion
          (((QRenc_createPaddingBit.bits input' + 7) / 8 : Nat) : Int) input'.level
          ≤ input'.version) := by
  intro fuel
  induction fuel with
  | zero => intro input input' r h; simp [QRenc_convertData.loop] at h
  | succ fuel ih =>
    intro input input' r h
    simp only [QRenc_convertData.loop] at h
    split at h
    · simp at h
    · rename_i input1 bits hcreate
      obtain ⟨hv, hl, hm, he, hb⟩ := createBitStream_ok spec encFuel input input1 bits hcreate
      subst hb
      split at h
      · rename_i hneg
        simp only [Except.ok.injEq, Prod.mk.injEq] at h
        obtain ⟨h1, h2⟩ := h
        subst h1 h2
        refine ⟨hl, by omega, hm, ?_, Or.inr rfl, fun _ => hneg, fun h0 => ?_⟩
        · rw [hv]; exact he
        · omega
      · rename_i hnneg
        split at h
        · rename_i hgt
          obtain ⟨il, iv, im, ie, ir, in1, i0⟩ := ih _ _ _ h
          simp only [QRenc_setVersion, QRenc_getVersion] at il iv im hgt
          refine ⟨il.trans hl, by omega, im.trans hm, ie, ir, in1, i0⟩
        · rename_i hngt
          simp only [Except.ok.injEq, Prod.mk.injEq] at h
          obtain ⟨h1, h2⟩ := h
          subst h1 h2
          simp only [QRenc_getVersion] at hngt
          refine ⟨hl, by omega, hm, ?_, Or.inl rfl, fun h1 => ?_, fun _ => ⟨by omega, by omega⟩⟩
          · rw [hv]; exact he
          · omega

theorem convertData_ok (spec : QRspec) (fuel : Nat) (input input' : QRinput) (r : Int)
    (h : QRenc_convertData spec fuel input = .ok (input', r)) :
    input'.level = input.level ∧ input.version ≤ input'.version ∧
    input'.head.map (fun e => (e.mode, e.data))
      = input.head.map (fun e => (e.mode, e.data)) ∧
    (∀ e' ∈ input'.head, QRenc_encodeBitStream spec fuel ⟨e'.mode, e'.data, none⟩
      input'.version = .ok (e', BitStream_size e'.bstream)) ∧
    (r = 0 ∨ r = -1) ∧
    (r = -1 → spec.getMinimumVersion
      (((QRenc_createPaddingBit.bits input' + 7) / 8 : Nat) : Int) input'.level < 0) ∧
    (r = 0 →
      0 ≤ spec.getMinimumVersion
        (((QRenc_createPaddingBit.bits input' + 7) / 8 : Nat) : Int) input'.level ∧
      spec.getMinimumVersion
        (((QRenc_createPaddingBit.bits input' + 7) / 8 : Nat) : Int) input'.level
        ≤ input'.version) := by
  simp only [QRenc_convertData] at h
  split at h
  · simp at h
  · rename_i ver hest
    obtain ⟨il, iv, im, ie, ir, in1, i0⟩ := convertData_loop_ok spec fuel fuel _ _ _ h
    refine ⟨?_, ?_, ?_, ie, ir, in1, i0⟩
    · rw [il]; split <;> rfl
    · refine le_trans ?_ iv
      split
      · rename_i hgt; simp only [QRenc_getVersion, QRenc_setVersion] at hgt ⊢; omega
      · exact le_refl _
    · rw [im]; split <;> rfl

theorem BitStream_append_eq (bs : BitStream) (arg : Option BitStream) :
    BitStream_append bs arg = bs ++ arg.getD [] := by
  cases arg <;> simp [BitStream_append]

theorem merge_foldl_eq (l : List QRenc_List) :
    l.foldl (fun bstream entry => BitStream_append bstream entry.bstream) BitStream_new
      = l.flatMap (fun e => e.bstream.getD []) := by
  simp only [BitStream_append_eq, foldl_append_flatMap, BitStream_new, List.nil_append]

theorem merge_length (l : List QRenc_List) :
    (l.flatMap (fun e => e.bstream.getD [])).length
      = (l.map (fun e => BitStream_size e.bstream)).sum := by
  induction l with
  | nil => simp
  | cons e l ih =>
    simp only [List.flatMap_cons, List.length_append, ih, List.map_cons, List.sum_cons]
    cases e.bstream <;> simp [BitStream_size]

theorem mergeBitStream_ok (spec : QRspec) (fuel : Nat) (input input' : QRinput)
    (bs : BitStream) (h : QRenc_mergeBitStream spec fuel input = .ok (input', some bs)) :
    QRenc_convertData spec fuel input = .ok (input', 0) ∧
    bs = input'.head.flatMap (fun e => e.bstream.getD []) := by
  simp only [QRenc_mergeBitStream] at h
  split at h
  · simp at h
  · rename_i input1 r hconv
    split at h
    · simp at h
    · rename_i hr
      simp only [Except.ok.injEq, Prod.mk.injEq, Option.some.injEq] at h
      obtain ⟨h1, h2⟩ := h
      subst h1
      have hr0 : r = 0 := by
        rcases (convertData_ok spec fuel input input1 r hconv).2.2.2.2.1 with h | h <;> omega
      subst hr0
      exact ⟨hconv, by rw [← h2, merge_foldl_eq]⟩

theorem forall2_of_map_eq {α β : Type} (key : α → β) (P : α → α → Prop) :
    ∀ (l l' : List α), l'.map key = l.map key →
      (∀ e e', key e' = key e → e' ∈ l' → P e e') → List.Forall₂ P l l' := by
  intro l
  induction l with
  | nil =>
    intro l' hmap _
    have : l' = [] := by simpa using hmap
    subst this
    exact List.Forall₂.nil
  | cons a l ih =>
    intro l' hmap hP
    cases l' with
    | nil => simp at hmap
    | cons a' l' =>
      simp only [List.map_cons, List.cons.injEq] at hmap
      exact List.Forall₂.cons (hP a a' hmap.1 (List.mem_cons_self a' l'))
        (ih l' hmap.2 (fun e e' hk hm => hP e e' hk (List.mem_cons_of_mem a' hm)))

/-- C6: when `QRenc_mergeBitStream` returns a bit stream, every entry of the
job, in the order of the chain, has for bit stream the result of
`QRenc_encodeBitStream` on that entry at the version that the job has on
return, and the bit stream returned is the concatenation of these bit streams
in that order. -/
theorem QRenc_mergeBitStream_concat (spec : QRspec) (fuel : Nat) (input input' : QRinput)
    (bs : BitStream) (h : QRenc_mergeBitStream spec fuel input = .ok (input', some bs)) :
    List.Forall₂ (fun e e' =>
        QRenc_encodeBitStream spec fuel e input'.version = .ok (e', BitStream_size e'.bstream))
      input.head input'.head ∧
    bs = input'.head.flatMap (fun e' => e'.bstream.getD []) := by
  obtain ⟨hconv, hbs⟩ := mergeBitStream_ok spec fuel input input' bs h
  obtain ⟨_, _, hm, he, _⟩ := convertData_ok spec fuel input input' 0 hconv
  refine ⟨?_, hbs⟩
  apply forall2_of_map_eq (fun e : QRenc_List => (e.mode, e.data)) _ _ _ hm
  intro e e' hk hmem
  simp only [Prod.mk.injEq] at hk
  rw [encodeBitStream_reset, ← hk.1, ← hk.2]
  exact he e' hmem

/-! ## The padded bit stream -/

theorem paddingSpec_length (bits maxBytes : Nat) (hle : bits ≤ 8 * maxBytes) :
    (paddingSpec bits maxBytes).length = 8 * maxBytes - bits := by
  unfold paddingSpec
  split
  · simp; omega
  · split
    · simp
    · simp only [List.length_append, List.length_replicate, padBytes_length]
      omega

theorem sampleSpec_minimumVersion (b : Int) (level : QRecLevel) :
    sampleSpec.getMinimumVersion b level = -1 ∨
      (1 ≤ sampleSpec.getMinimumVersion b level ∧
        ∀ v', sampleSpec.getMinimumVersion b level ≤ v' → b ≤ sampleSpec.getDataLength v' level) := by
  simp only [sampleSpec]
  split_ifs <;> first
    | (left; rfl)
    | (right; refine ⟨by omega, fun v' hv' => ?_⟩; split_ifs <;> omega)

/-- C1: when `QRenc_getBitStream` returns a bit stream, that bit stream has
exactly `8 × QRspec_getDataLength(V, level)` bits, `V` being the version of the
job on return; the symbol table is such that `QRspec_getMinimumVersion(b,
level)` is `-1` or a version `v ≥ 1` from which on every version has a data
capacity of at least `b` bytes. -/
theorem QRenc_getBitStream_length (spec : QRspec) (fuel : Nat) (input input' : QRinput)
    (bs : BitStream)
    (hmin : ∀ (b : Int) (level : QRecLevel), spec.getMinimumVersion b level = -1 ∨
      (1 ≤ spec.getMinimumVersion b level ∧
        ∀ v', spec.getMinimumVersion b level ≤ v' → b ≤ spec.getDataLength v' level))
    (h : QRenc_getBitStream spec fuel input = .ok (input', some bs)) :
    (bs.length : Int) = 8 * spec.getDataLength input'.version input'.level := by
  simp only [QRenc_getBitStream] at h
  split at h
  · simp at h
  · simp at h
  · rename_i input1 mbs hmerge
    simp only [Except.ok.injEq, Prod.mk.injEq, Option.some.injEq] at h
    obtain ⟨h1, h2⟩ := h
    subst h1
    obtain ⟨hconv, hmbs⟩ := mergeBitStream_ok spec fuel input input1 mbs hmerge
    obtain ⟨_, _, _, _, _, _, h0⟩ := convertData_ok spec fuel input input1 0 hconv
    obtain ⟨hge, hver⟩ := h0 rfl
    have hlen : mbs.length = QRenc_createPaddingBit.bits input1 := by
      rw [hmbs, merge_length, QRenc_createPaddingBit.bits, foldl_size_eq]; simp
    generalize hbits : QRenc_createPaddingBit.bits input1 = bits at hge hver hlen
    rcases hmin (((bits + 7) / 8 : Nat) : Int) input1.level with hm | ⟨hm1, hcap⟩
    · omega
    · have hcapv := hcap input1.version hver
      have hv1 : 1 ≤ input1.version := by omega
      obtain ⟨maxBytes, hmax⟩ : ∃ m : Nat, spec.getDataLength input1.version input1.level = (m : Int) :=
        ⟨(spec.getDataLength input1.version input1.level).toNat, by omega⟩
      rw [hmax] at hcapv
      have hle : bits ≤ 8 * maxBytes := by omega
      have hpad := createPaddingBit_eq spec input1 maxBytes hv1 hmax (by rw [hbits]; exact hle)
      rw [hbits] at hpad
      rw [← h2, hpad, hmax, BitStream_append_eq]
      split
      · simp; omega
      · simp only [Option.getD_some, List.length_append, paddingSpec_length bits maxBytes hle]
        omega

/-! ## Round trip: the encoders are injective -/

theorem newFromNum_inj (n a b : Nat)
    (h : BitStream_newFromNum n a = BitStream_newFromNum n b) : a % 2 ^ n = b % 2 ^ n := by
  induction n with
  | zero => simp [Nat.mod_one]
  | succ n ih =>
    simp only [BitStream_newFromNum, List.cons.injEq, decide_eq_decide] at h
    have ht := ih h.2
    rw [Nat.mod_pow_succ, Nat.mod_pow_succ, ht]
    have h2 : a / 2 ^ n % 2 = b / 2 ^ n % 2 := by
      have := h.1
      omega
    rw [h2]

theorem newFromNum_inj_lt (n a b : Nat) (ha : a < 2 ^ n) (hb : b < 2 ^ n)
    (h : BitStream_newFromNum n a = BitStream_newFromNum n b) : a = b := by
  have := newFromNum_inj n a b h
  rwa [Nat.mod_eq_of_lt ha, Nat.mod_eq_of_lt hb] at this

theorem flatMap_inj {α : Type} (f g : α → BitStream) (k : Nat) (l : List α)
    (hf : ∀ i, (f i).length = k) (hg : ∀ i, (g i).length = k)
    (h : l.flatMap f = l.flatMap g) : ∀ i ∈ l, f i = g i := by
  induction l with
  | nil => intro i hi; simp at hi
  | cons a l ih =>
    simp only [List.flatMap_cons] at h
    obtain ⟨h1, h2⟩ := List.append_inj h (by rw [hf, hg])
    intro i hi
    rcases List.mem_cons.mp hi with rfl | hmem
    · exact h1
    · exact ih h2 i hmem

theorem byteAt_mem (data : List UChar) (j : Nat) (hj : j < data.length) :
    byteAt data j ∈ data := by
  simp only [byteAt, List.getD_eq_getElem?_getD, List.getElem?_eq_getElem hj, Option.getD_some]
  exact List.getElem_mem hj

theorem ext_byteAt (d1 d2 : List UChar) (hl : d1.length = d2.length)
    (h : ∀ j, j < d1.length → byteAt d1 j = byteAt d2 j) : d1 = d2 := by
  apply List.ext_getElem hl
  intro j h1 h2
  have := h j h1
  simpa only [byteAt, List.getD_eq_getElem?_getD, List.getElem?_eq_getElem h1,
    List.getElem?_eq_getElem h2, Option.getD_some] using this

theorem u32_eq (x : Int) (n : Nat) (h : x = (n : Int)) (hn : n < 4294967296) : u32 x = n := by
  subst h
  unfold u32
  omega

theorem numWord_eq (data : List UChar) (i : Nat)
    (h0 : 48 ≤ (byteAt data (i * 3)).val ∧ (byteAt data (i * 3)).val ≤ 57)
    (h1 : 48 ≤ (byteAt data (i * 3 + 1)).val ∧ (byteAt data (i * 3 + 1)).val ≤ 57)
    (h2 : 48 ≤ (byteAt data (i * 3 + 2)).val ∧ (byteAt data (i * 3 + 2)).val ≤ 57) :
    numWord data i = ((byteAt data (i * 3)).val - 48) * 100
      + ((byteAt data (i * 3 + 1)).val - 48) * 10 + ((byteAt data (i * 3 + 2)).val - 48) := by
  unfold numWord
  apply u32_eq
  · omega
  · omega

theorem numWord_lt (data : List UChar) (i : Nat)
    (h0 : 48 ≤ (byteAt data (i * 3)).val ∧ (byteAt data (i * 3)).val ≤ 57)
    (h1 : 48 ≤ (byteAt data (i * 3 + 1)).val ∧ (byteAt data (i * 3 + 1)).val ≤ 57)
    (h2 : 48 ≤ (byteAt data (i * 3 + 2)).val ∧ (byteAt data (i * 3 + 2)).val ≤ 57) :
    numWord data i < 2 ^ 10 := by
  rw [numWord_eq data i h0 h1 h2]
  norm_num
  omega

theorem numWord_inj (d1 d2 : List UChar) (i : Nat)
    (a0 : 48 ≤ (byteAt d1 (i * 3)).val ∧ (byteAt d1 (i * 3)).val ≤ 57)
    (a1 : 48 ≤ (byteAt d1 (i * 3 + 1)).val ∧ (byteAt d1 (i * 3 + 1)).val ≤ 57)
    (a2 : 48 ≤ (byteAt d1 (i * 3 + 2)).val ∧ (byteAt d1 (i * 3 + 2)).val ≤ 57)
    (b0 : 48 ≤ (byteAt d2 (i * 3)).val ∧ (byteAt d2 (i * 3)).val ≤ 57)
    (b1 : 48 ≤ (byteAt d2 (i * 3 + 1)).val ∧ (byteAt d2 (i * 3 + 1)).val ≤ 57)
    (b2 : 48 ≤ (byteAt d2 (i * 3 + 2)).val ∧ (byteAt d2 (i * 3 + 2)).val ≤ 57)
    (h : numWord d1 i = numWord d2 i) :
    byteAt d1 (i * 3) = byteAt d2 (i * 3) ∧ byteAt d1 (i * 3 + 1) = byteAt d2 (i * 3 + 1) ∧
      byteAt d1 (i * 3 + 2) = byteAt d2 (i * 3 + 2) := by
  rw [numWord_eq d1 i a0 a1 a2, numWord_eq d2 i b0 b1 b2] at h
  refine ⟨Fin.ext ?_, Fin.ext ?_, Fin.ext ?_⟩ <;> omega

theorem numDigit_eq (c : UChar) (h : 48 ≤ c.val ∧ c.val ≤ 57) :
    u32 ((c : Nat) - 48 : Int) = c.val - 48 := by
  apply u32_eq <;> omega

theorem numPair_eq (c d : UChar) (hc : 48 ≤ c.val ∧ c.val ≤ 57) (hd : 48 ≤ d.val ∧ d.val ≤ 57) :
    u32 (((c : Nat) - 48 : Int) * 10 + ((d : Nat) - 48 : Int))
      = (c.val - 48) * 10 + (d.val - 48) := by
  apply u32_eq <;> omega

theorem numPayload_inj (d1 d2 : List UChar) (hl : d1.length = d2.length)
    (hv1 : ∀ c ∈ d1, 48 ≤ c.val ∧ c.val ≤ 57) (hv2 : ∀ c ∈ d2, 48 ≤ c.val ∧ c.val ≤ 57)
    (h : numPayload d1 = numPayload d2) : d1 = d2 := by
  unfold numPayload at h
  rw [hl] at h
  obtain ⟨hflat, htail⟩ := List.append_inj h (by
    rw [length_flatMap_const _ _ 10 (fun i _ => BitStream_newFromNum_length 10 _),
      length_flatMap_const _ _ 10 (fun i _ => BitStream_newFromNum_length 10 _)])
  have hword := flatMap_inj _ _ 10 _ (fun i => BitStream_newFromNum_length 10 _)
    (fun i => BitStream_newFromNum_length 10 _) hflat
  have g1 : ∀ j, j < d1.length → 48 ≤ (byteAt d1 j).val ∧ (byteAt d1 j).val ≤ 57 :=
    fun j hj => hv1 _ (byteAt_mem d1 j hj)
  have g2 : ∀ j, j < d2.length → 48 ≤ (byteAt d2 j).val ∧ (byteAt d2 j).val ≤ 57 :=
    fun j hj => hv2 _ (byteAt_mem d2 j hj)
  have hfull : ∀ i, i < d2.length / 3 →
      byteAt d1 (i * 3) = byteAt d2 (i * 3) ∧ byteAt d1 (i * 3 + 1) = byteAt d2 (i * 3 + 1) ∧
        byteAt d1 (i * 3 + 2) = byteAt d2 (i * 3 + 2) := by
    intro i hi
    have a0 := g1 (i * 3) (by omega)
    have a1 := g1 (i * 3 + 1) (by omega)
    have a2 := g1 (i * 3 + 2) (by omega)
    have b0 := g2 (i * 3) (by omega)
    have b1 := g2 (i * 3 + 1) (by omega)
    have b2 := g2 (i * 3 + 2) (by omega)
    apply numWord_inj d1 d2 i a0 a1 a2 b0 b1 b2
    exact newFromNum_inj_lt 10 _ _ (numWord_lt d1 i a0 a1 a2) (numWord_lt d2 i b0 b1 b2)
      (hword i (List.mem_range.mpr hi))
  apply ext_byteAt d1 d2 hl
  intro j hj
  by_cases hjf : j / 3 < d2.length / 3
  · obtain ⟨e0, e1, e2⟩ := hfull (j / 3) hjf
    have hr : j % 3 = 0 ∨ j % 3 = 1 ∨ j % 3 = 2 := by omega
    rcases hr with hr | hr | hr
    · have : j = j / 3 * 3 := by omega
      rw [this]; exact e0
    · have : j = j / 3 * 3 + 1 := by omega
      rw [this]; exact e1
    · have : j = j / 3 * 3 + 2 := by omega
      rw [this]; exact e2
  · unfold numTail at htail
    rw [hl] at htail
    have a0 := g1 (d2.length / 3 * 3) (by omega)
    have b0 := g2 (d2.length / 3 * 3) (by omega)
    by_cases c1 : d2.length - d2.length / 3 * 3 = 1
    · simp only [c1, if_true] at htail
      have hj0 : j = d2.length / 3 * 3 := by omega
      rw [numDigit_eq _ a0, numDigit_eq _ b0] at htail
      have := newFromNum_inj_lt 4 _ _ (by norm_num; omega) (by norm_num; omega) htail
      rw [hj0]
      apply Fin.ext
      omega
    · have c2 : d2.length - d2.length / 3 * 3 = 2 := by omega
      have a1 := g1 (d2.length / 3 * 3 + 1) (by omega)
      have b1 := g2 (d2.length / 3 * 3 + 1) (by omega)
      have c21 : ¬ (2 = 1) := by omega
      simp only [c2, c21, if_true, if_false] at htail
      rw [numPair_eq _ _ a0 a1, numPair_eq _ _ b0 b1] at htail
      have := newFromNum_inj_lt 7 _ _ (by norm_num; omega) (by norm_num; omega) htail
      have hj0 : j = d2.length / 3 * 3 ∨ j = d2.length / 3 * 3 + 1 := by omega
      rcases hj0 with hj0 | hj0 <;> rw [hj0] <;> apply Fin.ext <;> omega

theorem bytePayload_inj (d1 d2 : List UChar) (hl : d1.length = d2.length)
    (h : bytePayload d1 = bytePayload d2) : d1 = d2 := by
  unfold bytePayload at h
  rw [hl] at h
  have hword := flatMap_inj _ _ 8 _ (fun i => BitStream_newFromNum_length 8 _)
    (fun i => BitStream_newFromNum_length 8 _) h
  apply ext_byteAt d1 d2 hl
  intro j hj
  apply Fin.ext
  exact newFromNum_inj_lt 8 _ _ (byteAt d1 j).isLt (byteAt d2 j).isLt
    (hword j (List.mem_range.mpr (by omega)))

theorem anDecode_look : ∀ c : UChar, isAn45 c → anDecode (QRenc_lookAnTable c) = c := by
  decide

theorem look_range : ∀ c : UChar, isAn45 c →
    0 ≤ QRenc_lookAnTable c ∧ QRenc_lookAnTable c ≤ 44 := by
  decide

theorem look_nat (c : UChar) (h : isAn45 c) :
    ∃ n : Nat, QRenc_lookAnTable c = (n : Int) ∧ n ≤ 44 := by
  obtain ⟨h0, h1⟩ := look_range c h
  exact ⟨(QRenc_lookAnTable c).toNat, by omega, by omega⟩

theorem look_inj (a b : UChar) (ha : isAn45 a) (hb : isAn45 b)
    (h : QRenc_lookAnTable a = QRenc_lookAnTable b) : a = b := by
  rw [← anDecode_look a ha, ← anDecode_look b hb, h]

theorem anPair_inj (a b a' b' : UChar) (ha : isAn45 a) (hb : isAn45 b) (ha' : isAn45 a')
    (hb' : isAn45 b')
    (h : BitStream_newFromNum 11
        (u32 ((u32 (QRenc_lookAnTable a) : Int) * 45 + (u32 (QRenc_lookAnTable b) : Int)))
      = BitStream_newFromNum 11
        (u32 ((u32 (QRenc_lookAnTable a') : Int) * 45 + (u32 (QRenc_lookAnTable b') : Int)))) :
    a = a' ∧ b = b' := by
  obtain ⟨n, hn, hn44⟩ := look_nat a ha
  obtain ⟨m, hm, hm44⟩ := look_nat b hb
  obtain ⟨n', hn', hn44'⟩ := look_nat a' ha'
  obtain ⟨m', hm', hm44'⟩ := look_nat b' hb'
  have e1 : QRenc_lookAnTable a = QRenc_lookAnTable a' ∧
      QRenc_lookAnTable b = QRenc_lookAnTable b' := by
    rw [hn, hm, hn', hm'] at h ⊢
    rw [u32_eq (n : Int) n rfl (by omega), u32_eq (m : Int) m rfl (by omega),
      u32_eq (n' : Int) n' rfl (by omega), u32_eq (m' : Int) m' rfl (by omega),
      u32_eq ((n : Int) * 45 + (m : Int)) (n * 45 + m) (by omega) (by omega),
      u32_eq ((n' : Int) * 45 + (m' : Int)) (n' * 45 + m') (by omega) (by omega)] at h
    have := newFromNum_inj_lt 11 _ _ (by norm_num; omega) (by norm_num; omega) h
    constructor <;> omega
  exact ⟨look_inj a a' ha ha' e1.1, look_inj b b' hb hb' e1.2⟩

theorem anSingle_inj (a a' : UChar) (ha : isAn45 a) (ha' : isAn45 a')
    (h : BitStream_newFromNum 6 (u32 (QRenc_lookAnTable a))
      = BitStream_newFromNum 6 (u32 (QRenc_lookAnTable a'))) : a = a' := by
  obtain ⟨n, hn, hn44⟩ := look_nat a ha
  obtain ⟨n', hn', hn44'⟩ := look_nat a' ha'
  apply look_inj a a' ha ha'
  rw [hn, hn'] at h ⊢
  rw [u32_eq (n : Int) n rfl (by omega), u32_eq (n' : Int) n' rfl (by omega)] at h
  have := newFromNum_inj_lt 6 _ _ (by norm_num; omega) (by norm_num; omega) h
  omega

theorem anPayload_inj (d1 d2 : List UChar) (hl : d1.length = d2.length)
    (hv1 : ∀ c ∈ d1, isAn45 c) (hv2 : ∀ c ∈ d2, isAn45 c)
    (h : anPayload d1 = anPayload d2) : d1 = d2 := by
  unfold anPayload at h
  rw [hl] at h
  obtain ⟨hflat, htail⟩ := List.append_inj h (by
    rw [length_flatMap_const _ _ 11 (fun i _ => BitStream_newFromNum_length 11 _),
      length_flatMap_const _ _ 11 (fun i _ => BitStream_newFromNum_length 11 _)])
  have hword := flatMap_inj _ _ 11 _ (fun i => BitStream_newFromNum_length 11 _)
    (fun i => BitStream_newFromNum_length 11 _) hflat
  have g1 : ∀ j, j < d1.length → isAn45 (byteAt d1 j) :=
    fun j hj => hv1 _ (byteAt_mem d1 j hj)
  have g2 : ∀ j, j < d2.length → isAn45 (byteAt d2 j) :=
    fun j hj => hv2 _ (byteAt_mem d2 j hj)
  apply ext_byteAt d1 d2 hl
  intro j hj
  by_cases hjf : j / 2 < d2.length / 2
  · have hw := hword (j / 2) (List.mem_range.mpr hjf)
    unfold anWord at hw
    obtain ⟨e0, e1⟩ := anPair_inj _ _ _ _ (g1 (j / 2 * 2) (by omega))
      (g1 (j / 2 * 2 + 1) (by omega)) (g2 (j / 2 * 2) (by omega))
      (g2 (j / 2 * 2 + 1) (by omega)) hw
    have hr : j % 2 = 0 ∨ j % 2 = 1 := by omega
    rcases hr with hr | hr
    · have : j = j / 2 * 2 := by omega
      rw [this]; exact e0
    · have : j = j / 2 * 2 + 1 := by omega
      rw [this]; exact e1
  · unfold anTail at htail
    rw [hl] at htail
    have c1 : d2.length % 2 = 1 := by omega
    simp only [c1, if_true] at htail
    have hj0 : j = d2.length / 2 * 2 := by omega
    rw [hj0]
    exact anSingle_inj _ _ (g1 _ (by omega)) (g2 _ (by omega)) htail

theorem kanjiWord_eq (hi lo : UChar) (hr : inKanjiRange (hi.val * 256 + lo.val))
    (hlo : 64 ≤ lo.val) :
    QRenc_encodeModeKanji.word hi lo
      = if hi.val * 256 + lo.val ≤ 0x9ffc then (hi.val - 0x81) * 192 + (lo.val - 0x40)
        else (hi.val - 0xc1) * 192 + (lo.val - 0x40) := by
  have hlo2 := lo.isLt
  unfold inKanjiRange at hr
  unfold QRenc_encodeModeKanji.word
  simp only
  split
  · rename_i hle
    rw [u32_eq ((((hi.val * 256 + lo.val : Nat) : Int)) - 0x8140) (hi.val * 256 + lo.val - 0x8140)
      (by omega) (by omega)]
    rw [u32_eq (((((hi.val * 256 + lo.val - 0x8140) / 256 : Nat)) : Int) * 0xc0)
      ((hi.val * 256 + lo.val - 0x8140) / 256 * 0xc0) (by omega) (by omega)]
    apply u32_eq <;> omega
  · rename_i hle
    rw [u32_eq ((((hi.val * 256 + lo.val : Nat) : Int)) - 0xc140) (hi.val * 256 + lo.val - 0xc140)
      (by omega) (by omega)]
    rw [u32_eq (((((hi.val * 256 + lo.val - 0xc140) / 256 : Nat)) : Int) * 0xc0)
      ((hi.val * 256 + lo.val - 0xc140) / 256 * 0xc0) (by omega) (by omega)]
    apply u32_eq <;> omega

theorem kanjiWord_inj (hi lo hi' lo' : UChar)
    (hr : inKanjiRange (hi.val * 256 + lo.val)) (hlo : 64 ≤ lo.val)
    (hr' : inKanjiRange (hi'.val * 256 + lo'.val)) (hlo' : 64 ≤ lo'.val)
    (h : BitStream_newFromNum 13 (QRenc_encodeModeKanji.word hi lo)
      = BitStream_newFromNum 13 (QRenc_encodeModeKanji.word hi' lo')) :
    hi = hi' ∧ lo = lo' := by
  have b1 := lo.isLt
  have b2 := lo'.isLt
  rw [kanjiWord_eq hi lo hr hlo, kanjiWord_eq hi' lo' hr' hlo'] at h
  unfold inKanjiRange at hr hr'
  have := newFromNum_inj_lt 13 _ _ (by norm_num; split <;> omega)
    (by norm_num; split <;> omega) h
  split at this <;> split at this <;> exact ⟨Fin.ext (by omega), Fin.ext (by omega)⟩

theorem kanjiPayload_inj (d1 d2 : List UChar) (hl : d1.length = d2.length)
    (he : d2.length % 2 = 0)
    (hv1 : ∀ k, k < d1.length / 2 → inKanjiRange (kanjiValue d1 k))
    (hv2 : ∀ k, k < d2.length / 2 → inKanjiRange (kanjiValue d2 k))
    (hs1 : ∀ k, k < d1.length / 2 → 64 ≤ (byteAt d1 (2 * k + 1)).val)
    (hs2 : ∀ k, k < d2.length / 2 → 64 ≤ (byteAt d2 (2 * k + 1)).val)
    (h : kanjiPayload d1 = kanjiPayload d2) : d1 = d2 := by
  unfold kanjiPayload at h
  rw [hl] at h
  have hword := flatMap_inj _ _ 13 _ (fun i => BitStream_newFromNum_length 13 _)
    (fun i => BitStream_newFromNum_length 13 _) h
  apply ext_byteAt d1 d2 hl
  intro j hj
  have hk : j / 2 < d2.length / 2 := by omega
  have hw := hword (j / 2) (List.mem_range.mpr (by omega))
  obtain ⟨e0, e1⟩ := kanjiWord_inj _ _ _ _ (hv1 (j / 2) (by omega)) (hs1 (j / 2) (by omega))
    (hv2 (j / 2) hk) (hs2 (j / 2) hk) hw
  have hr : j % 2 = 0 ∨ j % 2 = 1 := by omega
  rcases hr with hr | hr
  · have : j = 2 * (j / 2) := by omega
    rw [this]; exact e0
  · have : j = 2 * (j / 2) + 1 := by omega
    rw [this]; exact e1

theorem estimateBitsModeNum_eq (e : QRenc_List) :
    QRenc_estimateBitsModeNum e = 10 * (e.data.length / 3)
      + (if e.data.length % 3 = 1 then 4 else if e.data.length % 3 = 2 then 7 else 0) := by
  unfold QRenc_estimateBitsModeNum
  have h3 : e.data.length % 3 = 0 ∨ e.data.length % 3 = 1 ∨ e.data.length % 3 = 2 := by omega
  rcases h3 with h | h | h
  · have hd : e.data.length - e.data.length / 3 * 3 = 0 := by omega
    simp only [hd, h]
    simp; omega
  · have hd : e.data.length - e.data.length / 3 * 3 = 1 := by omega
    simp only [hd, h]
    simp; omega
  · have hd : e.data.length - e.data.length / 3 * 3 = 2 := by omega
    simp only [hd, h]
    simp; omega

theorem estimate_length_inj (mode : QRencodeMode) (d1 d2 : List UChar)
    (h1 : QRinput_check mode d1 = 0) (h2 : QRinput_check mode d2 = 0)
    (h : QRenc_estimateBitStreamSizeOfEntry.estimate ⟨mode, d1, none⟩
      = QRenc_estimateBitStreamSizeOfEntry.estimate ⟨mode, d2, none⟩) :
    d1.length = d2.length := by
  cases mode
  · simp only [QRenc_estimateBitStreamSizeOfEntry.estimate, estimateBitsModeNum_eq] at h
    split at h <;> split at h <;> (try split at h) <;> (try split at h) <;> omega
  · simp only [QRenc_estimateBitStreamSizeOfEntry.estimate, QRenc_estimateBitsModeAn] at h
    split at h <;> split at h <;> omega
  · simp only [QRenc_estimateBitStreamSizeOfEntry.estimate, QRenc_estimateBitsMode8] at h
    omega
  · have e1 := check_kanji_even d1 h1
    have e2 := check_kanji_even d2 h2
    simp only [QRenc_estimateBitStreamSizeOfEntry.estimate, QRenc_estimateBitsModeKanji] at h
    omega

/-- C4, the claim refuted: in alphanumeric mode the data `a` and `A`, and in
kanji mode the data `82 00` and `82 40`, are accepted by `QRinput_check` and
get the same bit stream from the encoder of the mode, though they differ. -/
theorem QRenc_encode_not_injective :
    (QRinput_check QR_MODE_AN [97] = 0 ∧ QRinput_check QR_MODE_AN [65] = 0 ∧
      (QRenc_encodeBitStream.encode sampleSpec ⟨QR_MODE_AN, [97], none⟩ 1).bstream
        = (QRenc_encodeBitStream.encode sampleSpec ⟨QR_MODE_AN, [65], none⟩ 1).bstream ∧
      ([97] : List UChar) ≠ [65]) ∧
    (QRinput_check QR_MODE_KANJI [0x82, 0x00] = 0 ∧ QRinput_check QR_MODE_KANJI [0x82, 0x40] = 0 ∧
      (QRenc_encodeBitStream.encode sampleSpec ⟨QR_MODE_KANJI, [0x82, 0x00], none⟩ 1).bstream
        = (QRenc_encodeBitStream.encode sampleSpec ⟨QR_MODE_KANJI, [0x82, 0x40], none⟩ 1).bstream ∧
      ([0x82, 0x00] : List UChar) ≠ [0x82, 0x40]) := by
  decide

/-- C4, amended: for every version and every two chunks of the same mode that
both pass `QRinput_check` — holding no lowercase letter in alphanumeric mode,
and with the second byte of every pair at least `0x40` in kanji mode — if the
encoder of the mode produces the same bit stream for both, the data of the two
chunks are the same. -/
theorem QRenc_encode_injective (spec : QRspec) (version : Int) (mode : QRencodeMode)
    (d1 d2 : List UChar)
    (h1 : QRinput_check mode d1 = 0) (h2 : QRinput_check mode d2 = 0)
    (han : mode = QR_MODE_AN → ∀ c, c ∈ d1 ∨ c ∈ d2 → ¬ isLower c)
    (hkj : mode = QR_MODE_KANJI →
      (∀ k, k < d1.length / 2 → 0x40 ≤ (byteAt d1 (2 * k + 1)).val) ∧
      (∀ k, k < d2.length / 2 → 0x40 ≤ (byteAt d2 (2 * k + 1)).val))
    (h : (QRenc_encodeBitStream.encode spec ⟨mode, d1, none⟩ version).bstream
      = (QRenc_encodeBitStream.encode spec ⟨mode, d2, none⟩ version).bstream) :
    d1 = d2 := by
  rw [encode_eq, encode_eq] at h
  simp only [Option.some.injEq] at h
  have hlen : d1.length = d2.length := by
    apply estimate_length_inj mode d1 d2 h1 h2
    have l1 := chunkBits_length spec ⟨mode, d1, none⟩ version h1
    have l2 := chunkBits_length spec ⟨mode, d2, none⟩ version h2
    simp only at l1 l2
    rw [h] at l1
    omega
  unfold chunkBits at h
  have hp : modePayload mode d1 = modePayload mode d2 :=
    (List.append_inj h (by simp [BitStream_newFromNum_length])).2
  cases mode
  · simp only [QRinput_check] at h1 h2
    exact numPayload_inj d1 d2 hlen ((checkModeNum_eq_zero_iff d1).mp h1)
      ((checkModeNum_eq_zero_iff d2).mp h2) hp
  · simp only [QRinput_check] at h1 h2
    have v1 := (checkModeAn_eq_zero_iff d1).mp h1
    have v2 := (checkModeAn_eq_zero_iff d2).mp h2
    refine anPayload_inj d1 d2 hlen (fun c hc => ?_) (fun c hc => ?_) hp
    · exact (v1 c hc).resolve_right (han rfl c (Or.inl hc))
    · exact (v2 c hc).resolve_right (han rfl c (Or.inr hc))
  · exact bytePayload_inj d1 d2 hlen hp
  · have v1 := (check_kanji_iff d1).mp h1
    have v2 := (check_kanji_iff d2).mp h2
    exact kanjiPayload_inj d1 d2 hlen v2.1 v1.2 v2.2 (hkj rfl).1 (hkj rfl).2 hp

/-! ## Concrete runs -/

/-- C1 at the sample job: the call returns a bit stream, the version on return
is 1, and the bit stream has the 152 bits of the 19 bytes of version 1. -/
theorem QRenc_getBitStream_length_witness :
    QRenc_getBitStream sampleSpec 10 sampleJob = .ok (sampleJobDone, some samplePadded) ∧
    sampleJobDone.version = 1 ∧ samplePadded.length = 152 ∧
    (samplePadded.length : Int)
      = 8 * sampleSpec.getDataLength sampleJobDone.version sampleJobDone.level :=
  ⟨by rfl, by decide, by decide,
    QRenc_getBitStream_length sampleSpec 10 sampleJob sampleJobDone samplePadded
      sampleSpec_minimumVersion (by rfl)⟩

/-- C2 at the sample job after its conversion: 82 bits are merged, so the
padding is 6 zero bits and 8 pad bytes. -/
theorem QRenc_createPaddingBit_three_cases_witness :
    (1 ≤ sampleJobDone.version ∧ QRenc_createPaddingBit.bits sampleJobDone = 82) ∧
    QRenc_createPaddingBit sampleSpec sampleJobDone
      = some (List.replicate 6 false ++ padBytes 8) :=
  ⟨by decide,
    ((QRenc_createPaddingBit_three_cases sampleSpec sampleJobDone 19 (by decide) (by decide)
      (by decide)).2.2.1 (by decide)).1⟩

/-- C3 at the digits "01234567" and version 1 of the sample table: the chunk
is encoded into 4 + 10 + 27 bits. -/
theorem QRenc_encode_bit_count_witness :
    QRinput_check QR_MODE_NUM (bytesOf "01234567") = 0 ∧
    ∃ bs, (QRenc_encodeBitStream.encode sampleSpec
        ⟨QR_MODE_NUM, bytesOf "01234567", none⟩ 1).bstream = some bs ∧
      QRenc_encodeBitStream sampleSpec 1 ⟨QR_MODE_NUM, bytesOf "01234567", none⟩ 1
        = .ok (QRenc_encodeBitStream.encode sampleSpec
            ⟨QR_MODE_NUM, bytesOf "01234567", none⟩ 1, bs.length) ∧
      bs.length = 4 + 10 + 27 :=
  ⟨by decide,
    (QRenc_encode_bit_count sampleSpec 0 ⟨QR_MODE_NUM, bytesOf "01234567", none⟩ 1
      (by decide) (by decide)).1⟩

/-- C4, amended, at a kanji chunk of one character. -/
theorem QRenc_encode_injective_witness :
    QRinput_check QR_MODE_KANJI [0x93, 0x5f] = 0 ∧
    0x40 ≤ (byteAt [0x93, 0x5f] 1).val ∧
    ([0x93, 0x5f] : List UChar) = [0x93, 0x5f] :=
  ⟨by decide, by decide,
    QRenc_encode_injective sampleSpec 1 QR_MODE_KANJI [0x93, 0x5f] [0x93, 0x5f]
      (by decide) (by decide) (fun h => by cases h) (fun _ => by decide) rfl⟩

/-- C5 at the digits "01234" with chunks of at most two digits: the bit stream
is made of the chunks of "01", "23" and "4". -/
theorem QRenc_encodeBitStream_split_witness :
    slices 2 (bytesOf "01234") = [bytesOf "01", bytesOf "23", bytesOf "4"] ∧
    QRenc_encodeBitStream splitSpec 6 ⟨QR_MODE_NUM, bytesOf "01234", none⟩ 1
      = .ok (⟨QR_MODE_NUM, bytesOf "01234",
          some ((slices 2 (bytesOf "01234")).flatMap (singleChunk splitSpec QR_MODE_NUM 1))⟩,
        ((slices 2 (bytesOf "01234")).flatMap (singleChunk splitSpec QR_MODE_NUM 1)).length) :=
  ⟨by decide,
    (QRenc_encodeBitStream_split splitSpec ⟨QR_MODE_NUM, bytesOf "01234", none⟩ 1 2 6
      (by decide) (by decide) (by decide) (fun h => by cases h) (by decide)).1⟩

/-- C6 at the sample job: the merged bit stream is made of the bit streams of
the two chunks encoded at version 1. -/
theorem QRenc_mergeBitStream_concat_witness :
    QRenc_mergeBitStream sampleSpec 10 sampleJob = .ok (sampleJobDone, some sampleMerged) ∧
    sampleMerged.length = 82 ∧
    List.Forall₂ (fun e e' =>
        QRenc_encodeBitStream sampleSpec 10 e sampleJobDone.version
          = .ok (e', BitStream_size e'.bstream))
      sampleJob.head sampleJobDone.head ∧
    sampleMerged = sampleJobDone.head.flatMap (fun e' => e'.bstream.getD []) :=
  ⟨by rfl, by decide,
    QRenc_mergeBitStream_concat sampleSpec 10 sampleJob sampleJobDone sampleMerged (by rfl)⟩

/-! ## The payload values fit their fields -/

theorem look_range_of_nonneg : ∀ c : UChar, ¬ QRenc_lookAnTable c < 0 →
    0 ≤ QRenc_lookAnTable c ∧ QRenc_lookAnTable c ≤ 44 := by
  decide

theorem u32_cast (x : Int) (h0 : 0 ≤ x) (h1 : x < 4294967296) : (u32 x : Int) = x := by
  have := u32_eq x x.toNat (by omega) (by omega)
  rw [this]
  omega

theorem kanjiWord_fit (hi lo : UChar) (hr : inKanjiRange (hi.val * 256 + lo.val)) :
    QRenc_encodeModeKanji.word hi lo < 2 ^ 13 ∧
    QRenc_encodeModeKanji.word hi lo
      = if hi.val * 256 + lo.val ≤ 0x9ffc then
          (hi.val * 256 + lo.val - 0x8140) / 256 * 0xc0 + (hi.val * 256 + lo.val - 0x8140) % 256
        else
          (hi.val * 256 + lo.val - 0xc140) / 256 * 0xc0 + (hi.val * 256 + lo.val - 0xc140) % 256 := by
  have hlo2 := lo.isLt
  unfold inKanjiRange at hr
  have key : QRenc_encodeModeKanji.word hi lo
      = if hi.val * 256 + lo.val ≤ 0x9ffc then
          (hi.val * 256 + lo.val - 0x8140) / 256 * 0xc0 + (hi.val * 256 + lo.val - 0x8140) % 256
        else
          (hi.val * 256 + lo.val - 0xc140) / 256 * 0xc0
            + (hi.val * 256 + lo.val - 0xc140) % 256 := by
    unfold QRenc_encodeModeKanji.word
    simp only
    split
    · rename_i hle
      rw [u32_eq ((((hi.val * 256 + lo.val : Nat) : Int)) - 0x8140)
        (hi.val * 256 + lo.val - 0x8140) (by omega) (by omega)]
      rw [u32_eq (((((hi.val * 256 + lo.val - 0x8140) / 256 : Nat)) : Int) * 0xc0)
        ((hi.val * 256 + lo.val - 0x8140) / 256 * 0xc0) (by omega) (by omega)]
      apply u32_eq <;> omega
    · rename_i hle
      rw [u32_eq ((((hi.val * 256 + lo.val : Nat) : Int)) - 0xc140)
        (hi.val * 256 + lo.val - 0xc140) (by omega) (by omega)]
      rw [u32_eq (((((hi.val * 256 + lo.val - 0xc140) / 256 : Nat)) : Int) * 0xc0)
        ((hi.val * 256 + lo.val - 0xc140) / 256 * 0xc0) (by omega) (by omega)]
      apply u32_eq <;> omega
  refine ⟨?_, key⟩
  rw [key]
  norm_num
  split <;> omega

/-- The payload values of a chunk that passes `QRinput_check`, as numbers: each
is the value computed without wrap-around and is below two to the power of
the width of its field. -/
theorem payload_values (entry : QRenc_List)
    (hvalid : QRinput_check entry.mode entry.data = 0) :
    (entry.mode = QR_MODE_NUM →
      (∀ i, i < entry.data.length / 3 →
        numWord entry.data i < 2 ^ 10 ∧
        (numWord entry.data i : Int)
          = ((byteAt entry.data (i * 3) : Nat) - 48 : Int) * 100
            + ((byteAt entry.data (i * 3 + 1) : Nat) - 48 : Int) * 10
            + ((byteAt entry.data (i * 3 + 2) : Nat) - 48 : Int)) ∧
      (entry.data.length - entry.data.length / 3 * 3 = 1 →
        u32 ((byteAt entry.data (entry.data.length / 3 * 3) : Nat) - 48 : Int) < 2 ^ 4 ∧
        (u32 ((byteAt entry.data (entry.data.length / 3 * 3) : Nat) - 48 : Int) : Int)
          = ((byteAt entry.data (entry.data.length / 3 * 3) : Nat) - 48 : Int)) ∧
      (entry.data.length - entry.data.length / 3 * 3 = 2 →
        u32 (((byteAt entry.data (entry.data.length / 3 * 3) : Nat) - 48 : Int) * 10
          + ((byteAt entry.data (entry.data.length / 3 * 3 + 1) : Nat) - 48 : Int)) < 2 ^ 7 ∧
        (u32 (((byteAt entry.data (entry.data.length / 3 * 3) : Nat) - 48 : Int) * 10
          + ((byteAt entry.data (entry.data.length / 3 * 3 + 1) : Nat) - 48 : Int)) : Int)
          = ((byteAt entry.data (entry.data.length / 3 * 3) : Nat) - 48 : Int) * 10
            + ((byteAt entry.data (entry.data.length / 3 * 3 + 1) : Nat) - 48 : Int))) ∧
    (entry.mode = QR_MODE_AN →
      (∀ i, i < entry.data.length / 2 →
        0 ≤ QRenc_lookAnTable (byteAt entry.data (i * 2)) ∧
        0 ≤ QRenc_lookAnTable (byteAt entry.data (i * 2 + 1)) ∧
        anWord entry.data i < 2 ^ 11 ∧
        (anWord entry.data i : Int)
          = QRenc_lookAnTable (byteAt entry.data (i * 2)) * 45
            + QRenc_lookAnTable (byteAt entry.data (i * 2 + 1))) ∧
      (entry.data.length % 2 = 1 →
        u32 (QRenc_lookAnTable (byteAt entry.data (entry.data.length / 2 * 2))) < 2 ^ 6 ∧
        (u32 (QRenc_lookAnTable (byteAt entry.data (entry.data.length / 2 * 2))) : Int)
          = QRenc_lookAnTable (byteAt entry.data (entry.data.length / 2 * 2)))) ∧
    (entry.mode = QR_MODE_8 →
      ∀ i, i < entry.data.length → (byteAt entry.data i).val < 2 ^ 8) ∧
    (entry.mode = QR_MODE_KANJI →
      ∀ k, k < entry.data.length / 2 →
        (kanjiValue entry.data k ≤ 0x9ffc → 0x8140 ≤ kanjiValue entry.data k) ∧
        (0x9ffc < kanjiValue entry.data k → 0xc140 ≤ kanjiValue entry.data k) ∧
        QRenc_encodeModeKanji.word (byteAt entry.data (2 * k)) (byteAt entry.data (2 * k + 1))
          < 2 ^ 13 ∧
        QRenc_encodeModeKanji.word (byteAt entry.data (2 * k)) (byteAt entry.data (2 * k + 1))
          = if kanjiValue entry.data k ≤ 0x9ffc then
              (kanjiValue entry.data k - 0x8140) / 256 * 0xc0
                + (kanjiValue entry.data k - 0x8140) % 256
            else
              (kanjiValue entry.data k - 0xc140) / 256 * 0xc0
                + (kanjiValue entry.data k - 0xc140) % 256) := by
  obtain ⟨mode, data, bs⟩ := entry
  simp only at hvalid ⊢
  refine ⟨?_, ?_, ?_, ?_⟩
  · intro hm
    subst hm
    simp only [QRinput_check] at hvalid
    have hv := (checkModeNum_eq_zero_iff data).mp hvalid
    have g : ∀ j, j < data.length → 48 ≤ (byteAt data j).val ∧ (byteAt data j).val ≤ 57 :=
      fun j hj => hv _ (byteAt_mem data j hj)
    refine ⟨fun i hi => ?_, fun h1 => ?_, fun h2 => ?_⟩
    · have a0 := g (i * 3) (by omega)
      have a1 := g (i * 3 + 1) (by omega)
      have a2 := g (i * 3 + 2) (by omega)
      refine ⟨numWord_lt data i a0 a1 a2, ?_⟩
      rw [numWord_eq data i a0 a1 a2]
      omega
    · have a0 := g (data.length / 3 * 3) (by omega)
      rw [numDigit_eq _ a0]
      constructor
      · norm_num; omega
      · omega
    · have a0 := g (data.length / 3 * 3) (by omega)
      have a1 := g (data.length / 3 * 3 + 1) (by omega)
      rw [numPair_eq _ _ a0 a1]
      constructor
      · norm_num; omega
      · omega
  · intro hm
    subst hm
    simp only [QRinput_check] at hvalid
    have hv := (checkModeAn_eq_zero_iff data).mp hvalid
    have g : ∀ j, j < data.length →
        0 ≤ QRenc_lookAnTable (byteAt data j) ∧ QRenc_lookAnTable (byteAt data j) ≤ 44 := by
      intro j hj
      apply look_range_of_nonneg
      rw [lookAnTable_neg_iff]
      exact not_not.mpr (hv _ (byteAt_mem data j hj))
    refine ⟨fun i hi => ?_, fun h1 => ?_⟩
    · have a0 := g (i * 2) (by omega)
      have a1 := g (i * 2 + 1) (by omega)
      refine ⟨a0.1, a1.1, ?_⟩
      unfold anWord
      rw [u32_cast _ a0.1 (by omega), u32_cast _ a1.1 (by omega)]
      have hc := u32_cast (QRenc_lookAnTable (byteAt data (i * 2)) * 45
        + QRenc_lookAnTable (byteAt data (i * 2 + 1))) (by omega) (by omega)
      refine ⟨?_, hc⟩
      have : ((u32 (QRenc_lookAnTable (byteAt data (i * 2)) * 45
        + QRenc_lookAnTable (byteAt data (i * 2 + 1))) : Nat) : Int) < 2 ^ 11 := by
        rw [hc]; norm_num; omega
      exact_mod_cast this
    · have a0 := g (data.length / 2 * 2) (by omega)
      have hc := u32_cast _ a0.1 (by omega : QRenc_lookAnTable (byteAt data (data.length / 2 * 2))
        < 4294967296)
      refine ⟨?_, hc⟩
      have : ((u32 (QRenc_lookAnTable (byteAt data (data.length / 2 * 2))) : Nat) : Int)
          < 2 ^ 6 := by
        rw [hc]; norm_num; omega
      exact_mod_cast this
  · intro _ i _
    exact (byteAt data i).isLt
  · intro hm
    subst hm
    have hv := (check_kanji_iff data).mp hvalid
    intro k hk
    have hr := hv.2 k hk
    obtain ⟨hlt, heq⟩ := kanjiWord_fit (byteAt data (2 * k)) (byteAt data (2 * k + 1)) hr
    refine ⟨?_, ?_, hlt, heq⟩
    · intro _
      unfold inKanjiRange at hr
      omega
    · intro _
      unfold inKanjiRange at hr
      omega

/-! ## The values passed to `BitStream_appendNum` -/

theorem toNum_fold (n num acc : Nat) :
    (BitStream_newFromNum n num).foldl (fun m b => 2 * m + (if b then 1 else 0)) acc
      = acc * 2 ^ n + num % 2 ^ n := by
  induction n generalizing acc with
  | zero => simp [BitStream_newFromNum, Nat.mod_one]
  | succ n ih =>
    simp only [BitStream_newFromNum, List.foldl_cons, ih]
    rw [Nat.mod_pow_succ]
    by_cases hb : num / 2 ^ n % 2 = 1
    · simp [hb]; ring
    · have h0 : num / 2 ^ n % 2 = 0 := by omega
      simp [h0]; ring

theorem toNum_newFromNum (n num : Nat) (h : num < 2 ^ n) :
    BitStream_toNum (BitStream_newFromNum n num) = num := by
  unfold BitStream_toNum
  rw [toNum_fold, Nat.mod_eq_of_lt h]
  simp

theorem field_of_calls (calls : List (Nat × Nat)) :
    ∀ (j w v : Nat), calls[j]? = some (w, v) →
      ((calls.flatMap (fun c => BitStream_newFromNum c.1 c.2)).drop
        ((calls.take j).map Prod.fst).sum).take w = BitStream_newFromNum w v := by
  induction calls with
  | nil => intro j w v h; simp at h
  | cons c rest ih =>
    intro j w v h
    cases j with
    | zero =>
      simp only [List.getElem?_cons_zero, Option.some.injEq] at h
      subst h
      simp only [List.take_zero, List.map_nil, List.sum_nil, List.drop_zero, List.flatMap_cons]
      exact List.take_left' (BitStream_newFromNum_length w v)
    | succ j =>
      simp only [List.getElem?_cons_succ] at h
      simp only [List.take_succ_cons, List.map_cons, List.sum_cons, List.flatMap_cons]
      have hl : (BitStream_newFromNum c.1 c.2).length = c.1 := BitStream_newFromNum_length _ _
      rw [show c.1 + ((rest.take j).map Prod.fst).sum
        = (BitStream_newFromNum c.1 c.2).length + ((rest.take j).map Prod.fst).sum by rw [hl],
        List.drop_append]
      exact ih j w v h

theorem calls_fold (calls : List (Nat × Nat)) :
    calls.foldl (fun bs c => BitStream_appendNum bs c.1 c.2) BitStream_new
      = calls.flatMap (fun c => BitStream_newFromNum c.1 c.2) := by
  have := foldl_append_flatMap (fun c : Nat × Nat => BitStream_newFromNum c.1 c.2) calls []
  simpa [BitStream_appendNum, BitStream_new] using this

theorem encode_calls (spec : QRspec) (entry : QRenc_List) (version : Int) :
    QRenc_encodeBitStream.encode spec entry version
      = { entry with bstream := some ((QRenc_encodeBitStream.calls spec entry version).foldl
          (fun bs c => BitStream_appendNum bs c.1 c.2) BitStream_new) } := by
  obtain ⟨mode, data, bs⟩ := entry
  cases mode
  · simp only [QRenc_encodeBitStream.encode, QRenc_encodeBitStream.calls, QRenc_encodeModeNum,
      QRenc_encodeModeNum.calls, List.foldl_append, List.foldl_cons, List.foldl_nil,
      List.foldl_map]
    congr 2
    split
    · rfl
    · split <;> rfl
  · simp only [QRenc_encodeBitStream.encode, QRenc_encodeBitStream.calls, QRenc_encodeModeAn,
      QRenc_encodeModeAn.calls, List.foldl_append, List.foldl_cons, List.foldl_nil,
      List.foldl_map]
    congr 2
    split <;> rfl
  · simp only [QRenc_encodeBitStream.encode, QRenc_encodeBitStream.calls, QRenc_encodeMode8,
      QRenc_encodeMode8.calls, List.foldl_append, List.foldl_cons, List.foldl_nil,
      List.foldl_map]
  · simp only [QRenc_encodeBitStream.encode, QRenc_encodeBitStream.calls, QRenc_encodeModeKanji,
      QRenc_encodeModeKanji.calls, List.foldl_append, List.foldl_cons, List.foldl_nil,
      List.foldl_map]

theorem calls_getElem_loop (a b : Nat × Nat) (f : Nat → Nat × Nat) (n : Nat)
    (T : List (Nat × Nat)) (i : Nat) (hi : i < n) :
    ([a, b] ++ (List.range n).map f ++ T)[2 + i]? = some (f i) := by
  have h2 : 2 + i = i + 1 + 1 := by omega
  rw [List.append_assoc, h2]
  simp only [List.cons_append, List.nil_append, List.getElem?_cons_succ]
  rw [List.getElem?_append_left (by simp [hi])]
  simp [hi]

theorem calls_getElem_tail (a b : Nat × Nat) (f : Nat → Nat × Nat) (n : Nat)
    (T : List (Nat × Nat)) (k : Nat) :
    ([a, b] ++ (List.range n).map f ++ T)[2 + n + k]? = T[k]? := by
  have h2 : 2 + n + k = n + k + 1 + 1 := by omega
  rw [List.append_assoc, h2]
  simp only [List.cons_append, List.nil_append, List.getElem?_cons_succ]
  rw [List.getElem?_append_right (by simp)]
  simp

theorem calls_mem_drop (a b : Nat × Nat) (f : Nat → Nat × Nat) (n : Nat)
    (T : List (Nat × Nat)) (j : Nat) (c : Nat × Nat) (hj : 2 ≤ j)
    (h : ([a, b] ++ (List.range n).map f ++ T)[j]? = some c) :
    (∃ i, i < n ∧ c = f i) ∨ c ∈ T := by
  obtain ⟨k, rfl⟩ : ∃ k, j = 2 + k := ⟨j - 2, by omega⟩
  by_cases hk : k < n
  · rw [calls_getElem_loop a b f n T k hk] at h
    left
    exact ⟨k, hk, by simpa using h.symm⟩
  · obtain ⟨m, rfl⟩ : ∃ m, k = n + m := ⟨k - n, by omega⟩
    rw [← Nat.add_assoc, calls_getElem_tail] at h
    right
    exact List.getElem?_mem h

theorem calls_getElem_tail_zero (a b : Nat × Nat) (f : Nat → Nat × Nat) (n : Nat)
    (T : List (Nat × Nat)) :
    ([a, b] ++ (List.range n).map f ++ T)[2 + n]? = T[0]? :=
  calls_getElem_tail a b f n T 0

/-- C20: for a chunk that passes `QRinput_check`, the bit stream of the encoder
of its mode is the one that the calls of `BitStream_appendNum` listed by
`QRenc_encodeBitStream.calls` build from the empty stream, and every payload
value passed, each call after the mode indicator and the length indicator, is
below two to the power of the width of its call; the field of that width
read back from the bit stream of the encoder is the value passed, so no value
is truncated.  Mode by mode the calls, their widths and their values are: a
numeric triple in 10 bits, a single digit in 4 bits, a numeric pair in 7 bits,
each the value computed without wrap-around; an alphanumeric pair in 11 bits
and a single table value in 6 bits, the table values being non-negative; a
byte in 8 bits; and in kanji mode the subtraction does not go below zero and
the folded value goes in 13 bits. -/
theorem QRenc_payload_values_fit (spec : QRspec) (entry : QRenc_List) (version : Int)
    (hvalid : QRinput_check entry.mode entry.data = 0) :
    QRenc_encodeBitStream.encode spec entry version
      = { entry with bstream := some ((QRenc_encodeBitStream.calls spec entry version).foldl
          (fun bs c => BitStream_appendNum bs c.1 c.2) BitStream_new) } ∧
    (∀ j w v, 2 ≤ j → (QRenc_encodeBitStream.calls spec entry version)[j]? = some (w, v) →
      v < 2 ^ w ∧
      BitStream_toNum
        ((((QRenc_encodeBitStream.encode spec entry version).bstream.getD []).drop
          (((QRenc_encodeBitStream.calls spec entry version).take j).map Prod.fst).sum).take w)
        = v) ∧
    (entry.mode = QR_MODE_NUM →
      (QRenc_encodeBitStream.calls spec entry version).length = 2 + (entry.data.length + 2) / 3 ∧
      (∀ i, i < entry.data.length / 3 → ∃ v : Nat,
        (QRenc_encodeBitStream.calls spec entry version)[2 + i]? = some (10, v) ∧
        (v : Int) = ((byteAt entry.data (i * 3) : Nat) - 48 : Int) * 100
          + ((byteAt entry.data (i * 3 + 1) : Nat) - 48 : Int) * 10
          + ((byteAt entry.data (i * 3 + 2) : Nat) - 48 : Int) ∧
        v < 2 ^ 10) ∧
      (entry.data.length % 3 = 1 → ∃ v : Nat,
        (QRenc_encodeBitStream.calls spec entry version)[2 + entry.data.length / 3]?
          = some (4, v) ∧
        (v : Int) = ((byteAt entry.data (entry.data.length / 3 * 3) : Nat) - 48 : Int) ∧
        v < 2 ^ 4) ∧
      (entry.data.length % 3 = 2 → ∃ v : Nat,
        (QRenc_encodeBitStream.calls spec entry version)[2 + entry.data.length / 3]?
          = some (7, v) ∧
        (v : Int) = ((byteAt entry.data (entry.data.length / 3 * 3) : Nat) - 48 : Int) * 10
          + ((byteAt entry.data (entry.data.length / 3 * 3 + 1) : Nat) - 48 : Int) ∧
        v < 2 ^ 7)) ∧
    (entry.mode = QR_MODE_AN →
      (QRenc_encodeBitStream.calls spec entry version).length = 2 + (entry.data.length + 1) / 2 ∧
      (∀ i, i < entry.data.length / 2 →
        0 ≤ QRenc_lookAnTable (byteAt entry.data (i * 2)) ∧
        0 ≤ QRenc_lookAnTable (byteAt entry.data (i * 2 + 1)) ∧
        ∃ v : Nat,
          (QRenc_encodeBitStream.calls spec entry version)[2 + i]? = some (11, v) ∧
          (v : Int) = QRenc_lookAnTable (byteAt entry.data (i * 2)) * 45
            + QRenc_lookAnTable (byteAt entry.data (i * 2 + 1)) ∧
          v < 2 ^ 11) ∧
      (entry.data.length % 2 = 1 →
        ∃ v : Nat,
          (QRenc_encodeBitStream.calls spec entry version)[2 + entry.data.length / 2]?
            = some (6, v) ∧
          (v : Int) = QRenc_lookAnTable (byteAt entry.data (entry.data.length / 2 * 2)) ∧
          v < 2 ^ 6)) ∧
    (entry.mode = QR_MODE_8 →
      (QRenc_encodeBitStream.calls spec entry version).length = 2 + entry.data.length ∧
      ∀ i, i < entry.data.length →
        (QRenc_encodeBitStream.calls spec entry version)[2 + i]?
          = some (8, (byteAt entry.data i).val) ∧
        (byteAt entry.data i).val < 2 ^ 8) ∧
    (entry.mode = QR_MODE_KANJI →
      (QRenc_encodeBitStream.calls spec entry version).length = 2 + entry.data.length / 2 ∧
      ∀ k, k < entry.data.length / 2 →
        (kanjiValue entry.data k ≤ 0x9ffc → 0x8140 ≤ kanjiValue entry.data k) ∧
        (0x9ffc < kanjiValue entry.data k → 0xc140 ≤ kanjiValue entry.data k) ∧
        ∃ v : Nat,
          (QRenc_encodeBitStream.calls spec entry version)[2 + k]? = some (13, v) ∧
          v = (if kanjiValue entry.data k ≤ 0x9ffc then
              (kanjiValue entry.data k - 0x8140) / 256 * 0xc0
                + (kanjiValue entry.data k - 0x8140) % 256
            else
              (kanjiValue entry.data k - 0xc140) / 256 * 0xc0
                + (kanjiValue entry.data k - 0xc140) % 256) ∧
          v < 2 ^ 13) := by
  have hvals := payload_values entry hvalid
  have hlink := encode_calls spec entry version
  -- the payload calls of the four modes
  have hnum : entry.mode = QR_MODE_NUM →
      (QRenc_encodeBitStream.calls spec entry version).length = 2 + (entry.data.length + 2) / 3 ∧
      (∀ i, i < entry.data.length / 3 →
        (QRenc_encodeBitStream.calls spec entry version)[2 + i]?
          = some (10, numWord entry.data i)) ∧
      (entry.data.length % 3 = 1 →
        (QRenc_encodeBitStream.calls spec entry version)[2 + entry.data.length / 3]?
          = some (4, u32 ((byteAt entry.data (entry.data.length / 3 * 3) : Nat) - 48 : Int))) ∧
      (entry.data.length % 3 = 2 →
        (QRenc_encodeBitStream.calls spec entry version)[2 + entry.data.length / 3]?
          = some (7, u32 (((byteAt entry.data (entry.data.length / 3 * 3) : Nat) - 48 : Int) * 10
            + ((byteAt entry.data (entry.data.length / 3 * 3 + 1) : Nat) - 48 : Int)))) := by
    intro hm
    simp only [QRenc_encodeBitStream.calls, hm, QRenc_encodeModeNum.calls]
    refine ⟨?_, fun i hi => ?_, fun h1 => ?_, fun h2 => ?_⟩
    · simp only [List.length_append, List.length_map, List.length_range, List.length_cons,
        List.length_nil]
      split
      · simp only [List.length_cons, List.length_nil]; omega
      · split
        · simp only [List.length_cons, List.length_nil]; omega
        · simp only [List.length_nil]; omega
    · rw [calls_getElem_loop _ _ _ _ _ i hi]
      rfl
    · rw [calls_getElem_tail_zero, if_pos (by omega)]
      rfl
    · rw [calls_getElem_tail_zero, if_neg (by omega), if_pos (by omega)]
      rfl
  have han : entry.mode = QR_MODE_AN →
      (QRenc_encodeBitStream.calls spec entry version).length = 2 + (entry.data.length + 1) / 2 ∧
      (∀ i, i < entry.data.length / 2 →
        (QRenc_encodeBitStream.calls spec entry version)[2 + i]?
          = some (11, anWord entry.data i)) ∧
      (entry.data.length % 2 = 1 →
        (QRenc_encodeBitStream.calls spec entry version)[2 + entry.data.length / 2]?
          = some (6, u32 (QRenc_lookAnTable (byteAt entry.data (entry.data.length / 2 * 2))))) := by
    intro hm
    simp only [QRenc_encodeBitStream.calls, hm, QRenc_encodeModeAn.calls]
    refine ⟨?_, fun i hi => ?_, fun h1 => ?_⟩
    · simp only [List.length_append, List.length_map, List.length_range, List.length_cons,
        List.length_nil]
      split
      · simp only [List.length_cons, List.length_nil]; omega
      · simp only [List.length_nil]; omega
    · rw [calls_getElem_loop _ _ _ _ _ i hi]
      rfl
    · rw [calls_getElem_tail_zero, if_pos h1]
      rfl
  have h8 : entry.mode = QR_MODE_8 →
      (QRenc_encodeBitStream.calls spec entry version).length = 2 + entry.data.length ∧
      ∀ i, i < entry.data.length →
        (QRenc_encodeBitStream.calls spec entry version)[2 + i]?
          = some (8, (byteAt entry.data i).val) := by
    intro hm
    simp only [QRenc_encodeBitStream.calls, hm, QRenc_encodeMode8.calls]
    refine ⟨?_, fun i hi => ?_⟩
    · simp only [List.length_append, List.length_map, List.length_range, List.length_cons,
        List.length_nil]
    · have := calls_getElem_loop (4, 4) (spec.lengthIndicator QR_MODE_8 version, entry.data.length)
        (fun i => (8, (byteAt entry.data i).val)) entry.data.length [] i hi
      rw [List.append_nil] at this
      exact this
  have hkanji : entry.mode = QR_MODE_KANJI →
      (QRenc_encodeBitStream.calls spec entry version).length = 2 + entry.data.length / 2 ∧
      ∀ k, k < entry.data.length / 2 →
        (QRenc_encodeBitStream.calls spec entry version)[2 + k]?
          = some (13, QRenc_encodeModeKanji.word (byteAt entry.data (2 * k))
              (byteAt entry.data (2 * k + 1))) := by
    intro hm
    have heven := check_kanji_even entry.data (by rw [← hm]; exact hvalid)
    simp only [QRenc_encodeBitStream.calls, hm, QRenc_encodeModeKanji.calls]
    refine ⟨?_, fun k hk => ?_⟩
    · simp only [List.length_append, List.length_map, List.length_range, List.length_cons,
        List.length_nil]
      omega
    · have := calls_getElem_loop (4, 8)
        (spec.lengthIndicator QR_MODE_KANJI version, entry.data.length / 2)
        (fun k => (13, QRenc_encodeModeKanji.word (byteAt entry.data (2 * k))
          (byteAt entry.data (2 * k + 1)))) ((entry.data.length + 1) / 2) [] k (by omega)
      rw [List.append_nil] at this
      exact this
  -- every payload value is below two to the power of its width
  have hfit : ∀ j w v, 2 ≤ j →
      (QRenc_encodeBitStream.calls spec entry version)[j]? = some (w, v) → v < 2 ^ w := by
    intro j w v hj h
    cases hm : entry.mode
    · obtain ⟨hv1, hv2, hv3⟩ := hvals.1 hm
      simp only [QRenc_encodeBitStream.calls, hm, QRenc_encodeModeNum.calls] at h
      rcases calls_mem_drop _ _ _ _ _ j (w, v) hj h with ⟨i, hi, hc⟩ | hT
      · simp only [Prod.mk.injEq] at hc
        obtain ⟨rfl, rfl⟩ := hc
        exact (hv1 i hi).1
      · split at hT
        · rename_i h1
          simp only [List.mem_singleton, Prod.mk.injEq] at hT
          obtain ⟨rfl, rfl⟩ := hT
          exact (hv2 h1).1
        · split at hT
          · rename_i h2
            simp only [List.mem_singleton, Prod.mk.injEq] at hT
            obtain ⟨rfl, rfl⟩ := hT
            exact (hv3 h2).1
          · simp at hT
    · obtain ⟨hv1, hv2⟩ := hvals.2.1 hm
      simp only [QRenc_encodeBitStream.calls, hm, QRenc_encodeModeAn.calls] at h
      rcases calls_mem_drop _ _ _ _ _ j (w, v) hj h with ⟨i, hi, hc⟩ | hT
      · simp only [Prod.mk.injEq] at hc
        obtain ⟨rfl, rfl⟩ := hc
        exact (hv1 i hi).2.2.1
      · split at hT
        · rename_i h1
          simp only [List.mem_singleton, Prod.mk.injEq] at hT
          obtain ⟨rfl, rfl⟩ := hT
          exact (hv2 h1).1
        · simp at hT
    · simp only [QRenc_encodeBitStream.calls, hm, QRenc_encodeMode8.calls] at h
      have h' : ([(4, 4), (spec.lengthIndicator QR_MODE_8 version, entry.data.length)]
          ++ (List.range entry.data.length).map (fun i => (8, (byteAt entry.data i).val))
          ++ [])[j]? = some (w, v) := by
        rw [List.append_nil]; exact h
      rcases calls_mem_drop _ _ _ _ _ j (w, v) hj h' with ⟨i, hi, hc⟩ | hT
      · simp only [Prod.mk.injEq] at hc
        obtain ⟨rfl, rfl⟩ := hc
        exact (byteAt entry.data i).isLt
      · simp at hT
    · have heven := check_kanji_even entry.data (by rw [← hm]; exact hvalid)
      simp only [QRenc_encodeBitStream.calls, hm, QRenc_encodeModeKanji.calls] at h
      have h' : ([(4, 8), (spec.lengthIndicator QR_MODE_KANJI version, entry.data.length / 2)]
          ++ (List.range ((entry.data.length + 1) / 2)).map (fun k =>
            (13, QRenc_encodeModeKanji.word (byteAt entry.data (2 * k))
              (byteAt entry.data (2 * k + 1))))
          ++ [])[j]? = some (w, v) := by
        rw [List.append_nil]; exact h
      rcases calls_mem_drop _ _ _ _ _ j (w, v) hj h' with ⟨k, hk, hc⟩ | hT
      · simp only [Prod.mk.injEq] at hc
        obtain ⟨rfl, rfl⟩ := hc
        exact (hvals.2.2.2 hm k (by omega)).2.2.1
      · simp at hT
  have hbs : (QRenc_encodeBitStream.encode spec entry version).bstream.getD []
      = (QRenc_encodeBitStream.calls spec entry version).flatMap
          (fun c => BitStream_newFromNum c.1 c.2) := by
    rw [hlink, calls_fold]
    rfl
  refine ⟨hlink, fun j w v hj h => ⟨hfit j w v hj h, ?_⟩, ?_, ?_, ?_, ?_⟩
  · rw [hbs, field_of_calls _ j w v h]
    exact toNum_newFromNum w v (hfit j w v hj h)
  · intro hm
    obtain ⟨hlen, c1, c2, c3⟩ := hnum hm
    obtain ⟨hv1, hv2, hv3⟩ := hvals.1 hm
    refine ⟨hlen, fun i hi => ⟨_, c1 i hi, (hv1 i hi).2, (hv1 i hi).1⟩,
      fun h1 => ⟨_, c2 h1, (hv2 (by omega)).2, (hv2 (by omega)).1⟩,
      fun h2 => ⟨_, c3 h2, (hv3 (by omega)).2, (hv3 (by omega)).1⟩⟩
  · intro hm
    obtain ⟨hlen, c1, c2⟩ := han hm
    obtain ⟨hv1, hv2⟩ := hvals.2.1 hm
    refine ⟨hlen, fun i hi => ⟨(hv1 i hi).1, (hv1 i hi).2.1, _, c1 i hi, (hv1 i hi).2.2.2,
      (hv1 i hi).2.2.1⟩, fun h1 => ⟨_, c2 h1, (hv2 h1).2, (hv2 h1).1⟩⟩
  · intro hm
    obtain ⟨hlen, c1⟩ := h8 hm
    exact ⟨hlen, fun i hi => ⟨c1 i hi, (byteAt entry.data i).isLt⟩⟩
  · intro hm
    obtain ⟨hlen, c1⟩ := hkanji hm
    refine ⟨hlen, fun k hk => ?_⟩
    obtain ⟨u1, u2, hlt, heq⟩ := hvals.2.2.2 hm k hk
    exact ⟨u1, u2, _, c1 k hk, heq, hlt⟩

/-! ## The version never goes down -/

theorem mergeBitStream_ok_any (spec : QRspec) (fuel : Nat) (input input' : QRinput)
    (x : Option BitStream) (h : QRenc_mergeBitStream spec fuel input = .ok (input', x)) :
    ∃ r, QRenc_convertData spec fuel input = .ok (input', r) ∧ (x = none ↔ r < 0) := by
  simp only [QRenc_mergeBitStream] at h
  split at h
  · simp at h
  · rename_i input1 r hconv
    split at h
    · rename_i hr
      simp only [Except.ok.injEq, Prod.mk.injEq] at h
      obtain ⟨h1, h2⟩ := h
      subst h1 h2
      exact ⟨r, hconv, by simp [hr]⟩
    · rename_i hr
      simp only [Except.ok.injEq, Prod.mk.injEq] at h
      obtain ⟨h1, h2⟩ := h
      subst h1 h2
      exact ⟨r, hconv, by simp [hr]⟩

theorem getBitStream_ok_any (spec : QRspec) (fuel : Nat) (input input' : QRinput)
    (x : Option BitStream) (h : QRenc_getBitStream spec fuel input = .ok (input', x)) :
    ∃ y, QRenc_mergeBitStream spec fuel input = .ok (input', y) ∧ (x = none ↔ y = none) := by
  simp only [QRenc_getBitStream] at h
  split at h
  · simp at h
  · rename_i input1 hm
    simp only [Except.ok.injEq, Prod.mk.injEq] at h
    obtain ⟨h1, h2⟩ := h
    subst h1 h2
    exact ⟨none, hm, by simp⟩
  · rename_i input1 bstream hm
    simp only [Except.ok.injEq, Prod.mk.injEq] at h
    obtain ⟨h1, h2⟩ := h
    subst h1 h2
    exact ⟨some bstream, hm, by simp⟩

/-- C14: when `QRenc_convertData`, `QRenc_mergeBitStream` or
`QRenc_getBitStream` returns, with success or with failure, the version of the
job is at least the version before the call, and the level and the mode and
data of every entry, in order, are those before the call; the assignment of
the version before the loop and every assignment inside the loop put a version
strictly above the one the job had. -/
theorem QRenc_convertData_version_monotone (spec : QRspec) (fuel : Nat)
    (input input' : QRinput) :
    (∀ r, QRenc_convertData spec fuel input = .ok (input', r) →
      input.version ≤ input'.version ∧ input'.level = input.level ∧
      input'.head.map (fun e => (e.mode, e.data))
        = input.head.map (fun e => (e.mode, e.data))) ∧
    (∀ x, QRenc_mergeBitStream spec fuel input = .ok (input', x) →
      input.version ≤ input'.version ∧ input'.level = input.level ∧
      input'.head.map (fun e => (e.mode, e.data))
        = input.head.map (fun e => (e.mode, e.data))) ∧
    (∀ x, QRenc_getBitStream spec fuel input = .ok (input', x) →
      input.version ≤ input'.version ∧ input'.level = input.level ∧
      input'.head.map (fun e => (e.mode, e.data))
        = input.head.map (fun e => (e.mode, e.data))) ∧
    (∀ ver, QRenc_estimateVersion spec fuel input = .ok ver → ver > QRenc_getVersion input →
      QRenc_convertData spec fuel input
        = QRenc_convertData.loop spec fuel fuel (QRenc_setVersion input ver) ∧
      input.version < (QRenc_setVersion input ver).version) ∧
    (∀ (encFuel n : Nat) (job job1 : QRinput) (bits : Nat),
      QRenc_createBitStream spec encFuel job = .ok (job1, bits) →
      ¬ spec.getMinimumVersion (((bits + 7) / 8 : Nat) : Int) job1.level < 0 →
      spec.getMinimumVersion (((bits + 7) / 8 : Nat) : Int) job1.level > QRenc_getVersion job1 →
      QRenc_convertData.loop spec encFuel (n + 1) job
        = QRenc_convertData.loop spec encFuel n (QRenc_setVersion job1
            (spec.getMinimumVersion (((bits + 7) / 8 : Nat) : Int) job1.level)) ∧
      job.version < (QRenc_setVersion job1
        (spec.getMinimumVersion (((bits + 7) / 8 : Nat) : Int) job1.level)).version) := by
  have hconv : ∀ r, QRenc_convertData spec fuel input = .ok (input', r) →
      input.version ≤ input'.version ∧ input'.level = input.level ∧
      input'.head.map (fun e => (e.mode, e.data))
        = input.head.map (fun e => (e.mode, e.data)) := by
    intro r h
    obtain ⟨hl, hv, hm, _⟩ := convertData_ok spec fuel input input' r h
    exact ⟨hv, hl, hm⟩
  have hmerge : ∀ x, QRenc_mergeBitStream spec fuel input = .ok (input', x) →
      input.version ≤ input'.version ∧ input'.level = input.level ∧
      input'.head.map (fun e => (e.mode, e.data))
        = input.head.map (fun e => (e.mode, e.data)) := by
    intro x h
    obtain ⟨r, hr, _⟩ := mergeBitStream_ok_any spec fuel input input' x h
    exact hconv r hr
  refine ⟨hconv, hmerge, ?_, ?_, ?_⟩
  · intro x h
    obtain ⟨y, hy, _⟩ := getBitStream_ok_any spec fuel input input' x h
    exact hmerge y hy
  · intro ver hest hgt
    refine ⟨?_, ?_⟩
    · simp only [QRenc_convertData, hest, hgt, if_true]
    · simpa only [QRenc_setVersion, QRenc_getVersion] using hgt
  · intro encFuel n job job1 bits hcreate hnneg hgt
    obtain ⟨hv, _⟩ := createBitStream_ok spec encFuel job job1 bits hcreate
    refine ⟨?_, ?_⟩
    · simp only [QRenc_convertData.loop, hcreate, hnneg, hgt, if_true, if_false]
    · simp only [QRenc_setVersion, QRenc_getVersion] at hgt ⊢
      omega

/-! ## Idempotence -/

theorem estimateBitStreamSize_congr (spec : QRspec) (input1 input2 : QRinput) (v : Int)
    (hm : input1.head.map (fun e => (e.mode, e.data))
      = input2.head.map (fun e => (e.mode, e.data))) :
    QRenc_estimateBitStreamSize spec input1 v = QRenc_estimateBitStreamSize spec input2 v := by
  have key : ∀ (l1 l2 : List QRenc_List) (a : Nat),
      l1.map (fun e => (e.mode, e.data)) = l2.map (fun e => (e.mode, e.data)) →
      l1.foldl (fun bits entry => bits + QRenc_estimateBitStreamSizeOfEntry spec entry v) a
        = l2.foldl (fun bits entry => bits + QRenc_estimateBitStreamSizeOfEntry spec entry v) a := by
    intro l1
    induction l1 with
    | nil =>
      intro l2 a h
      have : l2 = [] := by simpa using h.symm
      subst this
      rfl
    | cons e1 l1 ih =>
      intro l2 a h
      cases l2 with
      | nil => simp at h
      | cons e2 l2 =>
        simp only [List.map_cons, List.cons.injEq, Prod.mk.injEq] at h
        obtain ⟨⟨hmode, hdata⟩, hrest⟩ := h
        have he : QRenc_estimateBitStreamSizeOfEntry spec e1 v
            = QRenc_estimateBitStreamSizeOfEntry spec e2 v := by
          obtain ⟨m1, d1, b1⟩ := e1
          obtain ⟨m2, d2, b2⟩ := e2
          simp only at hmode hdata
          subst hmode hdata
          rfl
        simp only [List.foldl_cons, he]
        exact ih l2 _ hrest
  exact key _ _ 0 hm

theorem estimateVersion_loop_congr (spec : QRspec) (input1 input2 : QRinput)
    (hm : input1.head.map (fun e => (e.mode, e.data))
      = input2.head.map (fun e => (e.mode, e.data)))
    (hl : input1.level = input2.level) :
    ∀ (fuel : Nat) (new : Int),
      QRenc_estimateVersion.loop spec input1 fuel new
        = QRenc_estimateVersion.loop spec input2 fuel new := by
  intro fuel
  induction fuel with
  | zero => intro new; rfl
  | succ fuel ih =>
    intro new
    simp only [QRenc_estimateVersion.loop, estimateBitStreamSize_congr spec input1 input2 new hm,
      hl, ih]

theorem createBitStream_loop_fixed (spec : QRspec) (fuel : Nat) (v : Int) :
    ∀ (l : List QRenc_List),
      (∀ e ∈ l, QRenc_encodeBitStream spec fuel ⟨e.mode, e.data, none⟩ v
        = .ok (e, BitStream_size e.bstream)) →
      QRenc_createBitStream.loop spec fuel v l
        = .ok (l, (l.map (fun e => BitStream_size e.bstream)).sum) := by
  intro l
  induction l with
  | nil => intro _; rfl
  | cons e l ih =>
    intro h
    have he := h e (List.mem_cons_self e l)
    rw [← encodeBitStream_reset] at he
    have hl := ih (fun e' he' => h e' (List.mem_cons_of_mem e he'))
    simp only [QRenc_createBitStream.loop, he, hl, List.map_cons, List.sum_cons]

theorem createPaddingBit_bits_eq (input : QRinput) :
    QRenc_createPaddingBit.bits input
      = (input.head.map (fun e => BitStream_size e.bstream)).sum := by
  simp [QRenc_createPaddingBit.bits, foldl_size_eq]

/-- After a returning call of `QRenc_convertData`, a second call returns the
same value and leaves the job as it is. -/
theorem convertData_twice (spec : QRspec) (fuel : Nat) (input input1 : QRinput) (r : Int)
    (h : QRenc_convertData spec fuel input = .ok (input1, r)) :
    QRenc_convertData spec fuel input1 = .ok (input1, r) := by
  obtain ⟨hl, _, hm, he, hr, hneg, h0⟩ := convertData_ok spec fuel input input1 r h
  -- the estimate of the second call is the estimate of the first, and is not above the version
  have hfuel : ∃ f, fuel = f + 1 := by
    cases fuel with
    | zero =>
      simp only [QRenc_convertData, QRenc_estimateVersion, QRenc_estimateVersion.loop] at h
      simp at h
    | succ f => exact ⟨f, rfl⟩
  obtain ⟨f, rfl⟩ := hfuel
  simp only [QRenc_convertData] at h
  split at h
  · simp at h
  · rename_i ver hest
    have hest1 : QRenc_estimateVersion spec (f + 1) input1 = .ok ver := by
      rw [← hest]
      exact estimateVersion_loop_congr spec input1 input hm hl (f + 1) 0
    have hle : ver ≤ input1.version := by
      obtain ⟨_, hv, _⟩ := convertData_loop_ok spec (f + 1) (f + 1) _ _ _ h
      refine le_trans ?_ hv
      split
      · simp [QRenc_setVersion]
      · rename_i hng
        simp only [QRenc_getVersion] at hng
        omega
    have hng : ¬ ver > QRenc_getVersion input1 := by
      simp only [QRenc_getVersion]; omega
    have hcreate : QRenc_createBitStream spec (f + 1) input1
        = .ok (input1, QRenc_createPaddingBit.bits input1) := by
      simp only [QRenc_createBitStream, createBitStream_loop_fixed spec (f + 1) input1.version
        input1.head he, createPaddingBit_bits_eq]
    simp only [QRenc_convertData, hest1, hng, if_false, QRenc_convertData.loop, hcreate]
    rcases hr with hr | hr
    · subst hr
      obtain ⟨g0, g1⟩ := h0 rfl
      have a : ¬ spec.getMinimumVersion
          (((QRenc_createPaddingBit.bits input1 + 7) / 8 : Nat) : Int) input1.level < 0 := by
        omega
      have b : ¬ spec.getMinimumVersion
          (((QRenc_createPaddingBit.bits input1 + 7) / 8 : Nat) : Int) input1.level
            > QRenc_getVersion input1 := by
        simp only [QRenc_getVersion]; omega
      simp only [a, b, if_false]
    · subst hr
      have a := hneg rfl
      simp only [a, if_true]

/-- C11: when a call of `QRenc_getBitStream` on a job returns, the bit stream
or the failure, a second call on the job as the first call left it returns the
same result, and leaves the job, and so its version, as the first call left
it. -/
theorem QRenc_getBitStream_idempotent (spec : QRspec) (fuel : Nat) (input input1 : QRinput)
    (res : Option BitStream)
    (h : QRenc_getBitStream spec fuel input = .ok (input1, res)) :
    QRenc_getBitStream spec fuel input1 = .ok (input1, res) ∧
    (∀ input2 res2, QRenc_getBitStream spec fuel input1 = .ok (input2, res2) →
      res2 = res ∧ input2.version = input1.version) := by
  have key : QRenc_getBitStream spec fuel input1 = .ok (input1, res) := by
    have hmerge : ∀ y, QRenc_mergeBitStream spec fuel input = .ok (input1, y) →
        QRenc_mergeBitStream spec fuel input1 = .ok (input1, y) := by
      intro y hy
      simp only [QRenc_mergeBitStream] at hy ⊢
      split at hy
      · simp at hy
      · rename_i i1 r hconv
        have hi : i1 = input1 := by
          split at hy <;> simp only [Except.ok.injEq, Prod.mk.injEq] at hy <;> exact hy.1
        subst hi
        rw [convertData_twice spec fuel input i1 r hconv]
        exact hy
    simp only [QRenc_getBitStream] at h ⊢
    split at h
    · simp at h
    · rename_i i1 hm
      simp only [Except.ok.injEq, Prod.mk.injEq] at h
      obtain ⟨h1, h2⟩ := h
      subst h1 h2
      rw [hmerge none hm]
    · rename_i i1 bstream hm
      simp only [Except.ok.injEq, Prod.mk.injEq] at h
      obtain ⟨h1, h2⟩ := h
      subst h1 h2
      rw [hmerge (some bstream) hm]
  refine ⟨key, ?_⟩
  intro input2 res2 h2
  rw [key] at h2
  simp only [Except.ok.injEq, Prod.mk.injEq] at h2
  exact ⟨h2.2.symm, by rw [← h2.1]⟩

/-! ## Runs that return -/

theorem mem_of_map_eq {α β : Type} (key : α → β) :
    ∀ (l l' : List α), l'.map key = l.map key → ∀ e' ∈ l', ∃ e ∈ l, key e = key e' := by
  intro l l' h e' he'
  have : key e' ∈ l.map key := by
    rw [← h]; exact List.mem_map_of_mem key he'
  obtain ⟨e, he, hk⟩ := List.mem_map.mp this
  exact ⟨e, he, hk⟩

theorem transfer_of_map_eq (P : QRencodeMode → List UChar → Prop) (l l' : List QRenc_List)
    (h : l'.map (fun e => (e.mode, e.data)) = l.map (fun e => (e.mode, e.data)))
    (hP : ∀ e ∈ l, P e.mode e.data) : ∀ e' ∈ l', P e'.mode e'.data := by
  intro e' he'
  obtain ⟨e, he, hk⟩ := mem_of_map_eq (fun e : QRenc_List => (e.mode, e.data)) l l' h e' he'
  simp only [Prod.mk.injEq] at hk
  rw [← hk.1, ← hk.2]
  exact hP e he

/-- A valid chunk is encoded, split or not, when the limit of words is at
least one, the fuel is above its size and, for a kanji chunk above the limit,
the limit is even. -/
theorem encodeBitStream_returns (spec : QRspec) (fuel : Nat) (e : QRenc_List) (v : Int)
    (hvalid : QRinput_check e.mode e.data = 0)
    (hw1 : 1 ≤ spec.maximumWords e.mode v)
    (hk : e.mode = QR_MODE_KANJI →
      (e.data.length : Int) ≤ spec.maximumWords e.mode v ∨ spec.maximumWords e.mode v % 2 = 0)
    (hfuel : e.data.length < fuel) :
    ∃ e' n, QRenc_encodeBitStream spec fuel e v = .ok (e', n) := by
  obtain ⟨mode, data, b⟩ := e
  simp only at hvalid hw1 hk hfuel
  obtain ⟨w, hw⟩ : ∃ w : Nat, spec.maximumWords mode v = (w : Int) :=
    ⟨(spec.maximumWords mode v).toNat, by omega⟩
  by_cases hle : data.length ≤ w
  · obtain ⟨f, rfl⟩ : ∃ f, fuel = f + 1 := ⟨fuel - 1, by omega⟩
    exact ⟨_, _, encodeBitStream_leaf spec f ⟨mode, data, b⟩ v (by simp only [hw]; omega)⟩
  · have hk' : mode = QR_MODE_KANJI → w % 2 = 0 := by
      intro hm
      rcases hk hm with h | h
      · rw [hw] at h; omega
      · rw [hw] at h; omega
    exact ⟨_, _, encodeBitStream_slices spec mode v w hw (by omega) hk' fuel data b hfuel hvalid⟩

theorem createBitStream_loop_returns (spec : QRspec) (fuel : Nat) (v : Int) :
    ∀ (l : List QRenc_List),
      (∀ e ∈ l, QRinput_check e.mode e.data = 0 ∧ 1 ≤ spec.maximumWords e.mode v ∧
        (e.mode = QR_MODE_KANJI →
          (e.data.length : Int) ≤ spec.maximumWords e.mode v ∨
            spec.maximumWords e.mode v % 2 = 0) ∧
        e.data.length < fuel) →
      ∃ l' bits, QRenc_createBitStream.loop spec fuel v l = .ok (l', bits) := by
  intro l
  induction l with
  | nil => intro _; exact ⟨[], 0, rfl⟩
  | cons e l ih =>
    intro h
    obtain ⟨hv, hw, hk, hf⟩ := h e (List.mem_cons_self e l)
    obtain ⟨e', n, he⟩ := encodeBitStream_returns spec fuel e v hv hw hk hf
    obtain ⟨l', bits, hl⟩ := ih (fun x hx => h x (List.mem_cons_of_mem e hx))
    exact ⟨e' :: l', n + bits, by simp only [QRenc_createBitStream.loop, he, hl]⟩

/-- The condition under which every pass over the chunks of a job returns:
the chunks are valid and shorter than the fuel, the limits of words are at
least one, and the limit is even for a kanji chunk above it. -/
theorem createBitStream_returns (spec : QRspec) (fuel : Nat) (input : QRinput)
    (hw : ∀ mode v, 1 ≤ spec.maximumWords mode v)
    (hgood : ∀ e ∈ input.head, QRinput_check e.mode e.data = 0 ∧ e.data.length < fuel ∧
      (e.mode = QR_MODE_KANJI → ∀ v,
        (e.data.length : Int) ≤ spec.maximumWords QR_MODE_KANJI v ∨
          spec.maximumWords QR_MODE_KANJI v % 2 = 0)) :
    ∃ input1 bits, QRenc_createBitStream spec fuel input = .ok (input1, bits) := by
  obtain ⟨l', bits, hl⟩ := createBitStream_loop_returns spec fuel input.version input.head
    (fun e he => by
      obtain ⟨hv, hf, hk⟩ := hgood e he
      refine ⟨hv, hw _ _, fun hm => ?_, hf⟩
      have := hk hm input.version
      rw [hm]
      exact this)
  exact ⟨{ input with head := l' }, bits, by simp only [QRenc_createBitStream, hl]⟩

theorem estimateVersion_loop_returns (spec : QRspec) (input : QRinput) (Vmax : Nat)
    (hmin : ∀ b level, spec.getMinimumVersion b level = -1 ∨
      (1 ≤ spec.getMinimumVersion b level ∧ spec.getMinimumVersion b level ≤ Vmax)) :
    ∀ (fuel : Nat) (new : Int), new ≤ Vmax → (Vmax : Int) + 1 - new ≤ fuel →
      ∃ v, QRenc_estimateVersion.loop spec input fuel new = .ok v := by
  intro fuel
  induction fuel with
  | zero => intro new h1 h2; omega
  | succ fuel ih =>
    intro new h1 h2
    simp only [QRenc_estimateVersion.loop]
    split
    · exact ⟨_, rfl⟩
    · rename_i hne
      split
      · rename_i hgt
        rcases hmin (((QRenc_estimateBitStreamSize spec input new + 7) / 8 : Nat) : Int)
          input.level with h | ⟨ha, hb⟩
        · exact absurd h hne
        · exact ih _ hb (by omega)
      · exact ⟨_, rfl⟩

theorem convertData_loop_returns (spec : QRspec) (encFuel : Nat) (Vmax : Nat)
    (hmin : ∀ b level, spec.getMinimumVersion b level = -1 ∨
      (1 ≤ spec.getMinimumVersion b level ∧ spec.getMinimumVersion b level ≤ Vmax))
    (hw : ∀ mode v, 1 ≤ spec.maximumWords mode v) :
    ∀ (fuel : Nat) (input : QRinput),
      (∀ e ∈ input.head, QRinput_check e.mode e.data = 0 ∧ e.data.length < encFuel ∧
        (e.mode = QR_MODE_KANJI → ∀ v,
          (e.data.length : Int) ≤ spec.maximumWords QR_MODE_KANJI v ∨
            spec.maximumWords QR_MODE_KANJI v % 2 = 0)) →
      1 ≤ fuel → (Vmax : Int) + 1 - max input.version 0 ≤ fuel →
      ∃ input' r, QRenc_convertData.loop spec encFuel fuel input = .ok (input', r) := by
  intro fuel
  induction fuel with
  | zero => intro input _ h1 _; omega
  | succ fuel ih =>
    intro input hgood _ hmeas
    obtain ⟨input1, bits, hcreate⟩ := createBitStream_returns spec encFuel input hw hgood
    obtain ⟨hv, hl, hm, _, _⟩ := createBitStream_ok spec encFuel input input1 bits hcreate
    simp only [QRenc_convertData.loop, hcreate]
    split
    · exact ⟨_, _, rfl⟩
    · rename_i hnneg
      split
      · rename_i hgt
        simp only [QRenc_getVersion] at hgt
        rcases hmin (((bits + 7) / 8 : Nat) : Int) input1.level with h | ⟨ha, hb⟩
        · omega
        · apply ih
          · simp only [QRenc_setVersion]
            exact transfer_of_map_eq (fun mode data => QRinput_check mode data = 0 ∧
              data.length < encFuel ∧ (mode = QR_MODE_KANJI → ∀ v,
                (data.length : Int) ≤ spec.maximumWords QR_MODE_KANJI v ∨
                  spec.maximumWords QR_MODE_KANJI v % 2 = 0)) input.head input1.head hm hgood
          · simp only [QRenc_setVersion] at *
            omega
          · simp only [QRenc_setVersion]
            omega
      · exact ⟨_, _, rfl⟩

/-! ## Termination of the fitting loops -/

theorem newEntry_some (mode : QRencodeMode) (data : List UChar) (st : QRenc_List)
    (h : QRenc_newEntry mode data = some st) : st.mode = mode ∧ st.data = data := by
  simp only [QRenc_newEntry] at h
  split at h
  · simp at h
  · simp only [Option.some.injEq] at h
    subst h
    exact ⟨rfl, rfl⟩

theorem encodeBitStream_not_outOfFuel (spec : QRspec)
    (hw : ∀ mode v, 1 ≤ spec.maximumWords mode v) (v : Int) :
    ∀ (fuel : Nat) (e : QRenc_List), e.data.length < fuel →
      QRenc_encodeBitStream spec fuel e v ≠ .error EncError.outOfFuel := by
  intro fuel
  induction fuel with
  | zero => intro e h; omega
  | succ fuel ih =>
    intro e hfuel h
    have hw1 := hw e.mode v
    simp only [QRenc_encodeBitStream] at h
    split at h
    · rename_i hgt
      split at h
      · simp at h
      · rename_i st1 hst1
        obtain ⟨_, hd1⟩ := newEntry_some _ _ _ hst1
        have hl1 : st1.data.length < fuel := by
          rw [hd1, List.length_take]
          omega
        split at h
        · rename_i err herr
          simp only [Except.error.injEq] at h
          subst h
          exact ih st1 hl1 herr
        · split at h
          · simp at h
          · rename_i st2 hst2
            obtain ⟨_, hd2⟩ := newEntry_some _ _ _ hst2
            have hl2 : st2.data.length < fuel := by
              rw [hd2, List.length_drop]
              omega
            split at h
            · rename_i err herr
              simp only [Except.error.injEq] at h
              subst h
              exact ih st2 hl2 herr
            · simp at h
    · simp at h

theorem createBitStream_loop_not_outOfFuel (spec : QRspec)
    (hw : ∀ mode v, 1 ≤ spec.maximumWords mode v) (fuel : Nat) (v : Int) :
    ∀ (l : List QRenc_List), (∀ e ∈ l, e.data.length < fuel) →
      QRenc_createBitStream.loop spec fuel v l ≠ .error EncError.outOfFuel := by
  intro l
  induction l with
  | nil => intro _ h; simp [QRenc_createBitStream.loop] at h
  | cons e l ih =>
    intro hl h
    simp only [QRenc_createBitStream.loop] at h
    split at h
    · rename_i err herr
      simp only [Except.error.injEq] at h
      subst h
      exact encodeBitStream_not_outOfFuel spec hw v fuel e
        (hl e (List.mem_cons_self e l)) herr
    · split at h
      · rename_i err herr
        simp only [Except.error.injEq] at h
        subst h
        exact ih (fun x hx => hl x (List.mem_cons_of_mem e hx)) herr
      · simp at h

theorem convertData_loop_not_outOfFuel (spec : QRspec) (encFuel : Nat) (Vmax : Nat)
    (hmin : ∀ b level, spec.getMinimumVersion b level = -1 ∨
      (1 ≤ spec.getMinimumVersion b level ∧ spec.getMinimumVersion b level ≤ Vmax))
    (hw : ∀ mode v, 1 ≤ spec.maximumWords mode v) :
    ∀ (fuel : Nat) (input : QRinput),
      (∀ e ∈ input.head, e.data.length < encFuel) →
      1 ≤ fuel → (Vmax : Int) + 1 - max input.version 0 ≤ fuel →
      QRenc_convertData.loop spec encFuel fuel input ≠ .error EncError.outOfFuel := by
  intro fuel
  induction fuel with
  | zero => intro input _ h1 _; omega
  | succ fuel ih =>
    intro input hlen _ hmeas h
    simp only [QRenc_convertData.loop] at h
    split at h
    · rename_i err herr
      simp only [Except.error.injEq] at h
      subst h
      simp only [QRenc_createBitStream] at herr
      split at herr
      · rename_i err' herr'
        simp only [Except.error.injEq] at herr
        subst herr
        exact createBitStream_loop_not_outOfFuel spec hw encFuel input.version input.head
          hlen herr'
      · simp at herr
    · rename_i input1 bits hcreate
      obtain ⟨hv, hl, hm, _, _⟩ := createBitStream_ok spec encFuel input input1 bits hcreate
      split at h
      · simp at h
      · split at h
        · rename_i hnneg hgt
          simp only [QRenc_getVersion] at hgt
          rcases hmin (((bits + 7) / 8 : Nat) : Int) input1.level with h' | ⟨ha, hb⟩
          · omega
          · refine ih _ ?_ ?_ ?_ h
            · simp only [QRenc_setVersion]
              exact transfer_of_map_eq (fun _ data => data.length < encFuel)
                input.head input1.head hm hlen
            · omega
            · simp only [QRenc_setVersion]
              omega
        · simp at h

theorem sampleSpec_bounded (b : Int) (level : QRecLevel) :
    sampleSpec.getMinimumVersion b level = -1 ∨
      (1 ≤ sampleSpec.getMinimumVersion b level ∧
        sampleSpec.getMinimumVersion b level ≤ ((5 : Nat) : Int)) := by
  simp only [sampleSpec]
  split_ifs <;> simp

theorem sampleSpec_words (mode : QRencodeMode) (v : Int) :
    1 ≤ sampleSpec.maximumWords mode v := by
  cases mode <;> simp [sampleSpec]

/-- C19: when `QRspec_getMinimumVersion` only returns `-1` or a version from 1
to `Vmax`, `QRenc_estimateVersion` returns within `Vmax + 1` runs of its loop,
every run that goes on doing so with a strictly larger candidate; and, the
limits of words being at least one and the fuel of the splitter above the
sizes of the chunks, the loop of `QRenc_convertData` comes to an end within
`Vmax + 1` passes: it never uses up its fuel, and it returns when no sub-entry
of the splitter is `NULL` (valid chunks, an even limit for a kanji chunk above
the limit). -/
theorem QRenc_fitting_loops_terminate (spec : QRspec) (Vmax : Nat) (input : QRinput)
    (hmin : ∀ b level, spec.getMinimumVersion b level = -1 ∨
      (1 ≤ spec.getMinimumVersion b level ∧ spec.getMinimumVersion b level ≤ Vmax)) :
    (∀ fuel, Vmax + 1 ≤ fuel → ∃ v, QRenc_estimateVersion spec fuel input = .ok v) ∧
    (∀ (fuel : Nat) (new : Int),
      (∃ v, QRenc_estimateVersion.loop spec input (fuel + 1) new = .ok v) ∨
      (∃ new', new < new' ∧ new' ≤ Vmax ∧
        QRenc_estimateVersion.loop spec input (fuel + 1) new
          = QRenc_estimateVersion.loop spec input fuel new')) ∧
    ((∀ mode v, 1 ≤ spec.maximumWords mode v) →
      ∀ encFuel, (∀ e ∈ input.head, e.data.length < encFuel) →
      ∀ fuel, Vmax + 1 ≤ fuel →
        QRenc_convertData.loop spec encFuel fuel input ≠ .error EncError.outOfFuel ∧
        ((∀ e ∈ input.head, QRinput_check e.mode e.data = 0 ∧
            (e.mode = QR_MODE_KANJI → ∀ v,
              (e.data.length : Int) ≤ spec.maximumWords QR_MODE_KANJI v ∨
                spec.maximumWords QR_MODE_KANJI v % 2 = 0)) →
          (∃ input' r, QRenc_convertData.loop spec encFuel fuel input = .ok (input', r)) ∧
          (Vmax + 1 ≤ encFuel →
            ∃ input' r, QRenc_convertData spec encFuel input = .ok (input', r)))) := by
  refine ⟨?_, ?_, ?_⟩
  · intro fuel hfuel
    exact estimateVersion_loop_returns spec input Vmax hmin fuel 0 (by omega) (by omega)
  · intro fuel new
    simp only [QRenc_estimateVersion.loop]
    split
    · exact Or.inl ⟨_, rfl⟩
    · rename_i hne
      split
      · rename_i hgt
        rcases hmin (((QRenc_estimateBitStreamSize spec input new + 7) / 8 : Nat) : Int)
          input.level with h | ⟨_, hb⟩
        · exact absurd h hne
        · exact Or.inr ⟨_, hgt, hb, rfl⟩
      · exact Or.inl ⟨_, rfl⟩
  · intro hw encFuel hlen fuel hfuel
    refine ⟨convertData_loop_not_outOfFuel spec encFuel Vmax hmin hw fuel input hlen
      (by omega) (by omega), ?_⟩
    intro hgood
    have hgood' : ∀ e ∈ input.head, QRinput_check e.mode e.data = 0 ∧
        e.data.length < encFuel ∧ (e.mode = QR_MODE_KANJI → ∀ v,
          (e.data.length : Int) ≤ spec.maximumWords QR_MODE_KANJI v ∨
            spec.maximumWords QR_MODE_KANJI v % 2 = 0) :=
      fun e he => ⟨(hgood e he).1, hlen e he, (hgood e he).2⟩
    refine ⟨convertData_loop_returns spec encFuel Vmax hmin hw fuel input hgood'
      (by omega) (by omega), ?_⟩
    intro henc
    obtain ⟨ver, hest⟩ := estimateVersion_loop_returns spec input Vmax hmin encFuel 0
      (by omega) (by omega)
    have hest' : QRenc_estimateVersion spec encFuel input = .ok ver := hest
    simp only [QRenc_convertData, hest']
    apply convertData_loop_returns spec encFuel Vmax hmin hw encFuel
    · split
      · exact hgood'
      · exact hgood'
    · omega
    · omega

/-- C19 at the sample job and the sample table, whose versions are 1 to 5:
six runs are enough for the version fitter and six passes for the conversion
loop. -/
theorem QRenc_fitting_loops_terminate_witness :
    (∃ v, QRenc_estimateVersion sampleSpec 6 sampleJob = .ok v) ∧
    QRenc_convertData.loop sampleSpec 9 6 sampleJob ≠ .error EncError.outOfFuel :=
  ⟨(QRenc_fitting_loops_terminate sampleSpec 5 sampleJob sampleSpec_bounded).1 6 (by decide),
    ((QRenc_fitting_loops_terminate sampleSpec 5 sampleJob sampleSpec_bounded).2.2
      sampleSpec_words 9 (by decide) 6 (by decide)).1⟩

/-! ## A byte chunk above every capacity -/

theorem foldl_add_eq_sum (f : QRenc_List → Nat) (l : List QRenc_List) (a : Nat) :
    l.foldl (fun bits entry => bits + f entry) a = a + (l.map f).sum := by
  induction l generalizing a with
  | nil => simp
  | cons e l ih => simp [List.foldl_cons, ih]; omega

theorem le_sum_of_mem (f : QRenc_List → Nat) (l : List QRenc_List) (e : QRenc_List)
    (he : e ∈ l) : f e ≤ (l.map f).sum := by
  induction l with
  | nil => simp at he
  | cons a l ih =>
    simp only [List.map_cons, List.sum_cons]
    rcases List.mem_cons.mp he with rfl | hmem
    · omega
    · have := ih hmem
      omega

/-- The bit stream of a byte chunk, split or not, has at least eight bits for
every byte. -/
theorem encodeBitStream_byte_size (spec : QRspec) (v : Int) :
    ∀ (fuel : Nat) (e e' : QRenc_List) (n : Nat), e.mode = QR_MODE_8 →
      QRenc_encodeBitStream spec fuel e v = .ok (e', n) → 8 * e.data.length ≤ n := by
  intro fuel
  induction fuel with
  | zero => intro e e' n _ h; simp [QRenc_encodeBitStream] at h
  | succ fuel ih =>
    intro e e' n hmode h
    simp only [QRenc_encodeBitStream] at h
    split at h
    · split at h
      · simp at h
      · rename_i st1 hst1
        obtain ⟨hm1, hd1⟩ := newEntry_some _ _ _ hst1
        split at h
        · simp at h
        · rename_i st1' n1 hrec1
          split at h
          · simp at h
          · rename_i st2 hst2
            obtain ⟨hm2, hd2⟩ := newEntry_some _ _ _ hst2
            split at h
            · simp at h
            · rename_i st2' n2 hrec2
              have g1 := ih st1 st1' n1 (by rw [hm1]; exact hmode) hrec1
              have g2 := ih st2 st2' n2 (by rw [hm2]; exact hmode) hrec2
              obtain ⟨_, _, s1⟩ := encodeBitStream_ok spec fuel st1 v st1' n1 hrec1
              obtain ⟨_, _, s2⟩ := encodeBitStream_ok spec fuel st2 v st2' n2 hrec2
              simp only [Except.ok.injEq, Prod.mk.injEq] at h
              obtain ⟨_, hn⟩ := h
              rw [hd1] at g1
              rw [hd2] at g2
              have hlen : (List.take (spec.maximumWords e.mode v).toNat e.data).length
                  + (List.drop (spec.maximumWords e.mode v).toNat e.data).length
                  = e.data.length := by
                rw [← List.length_append, List.take_append_drop]
              have hsz : BitStream_size (some (BitStream_append
                  (BitStream_append BitStream_new st1'.bstream) st2'.bstream))
                  = BitStream_size st1'.bstream + BitStream_size st2'.bstream := by
                simp only [BitStream_append_eq, BitStream_new, List.nil_append, BitStream_size,
                  List.length_append]
                cases st1'.bstream <;> cases st2'.bstream <;> simp
              rw [hsz] at hn
              omega
    · simp only [Except.ok.injEq, Prod.mk.injEq] at h
      obtain ⟨_, hn⟩ := h
      rw [encode_eq] at hn
      simp only [BitStream_size, chunkBits, hmode, modePayload, List.length_append,
        BitStream_newFromNum_length] at hn
      have := bytePayload_length e.data
      simp only [QRenc_estimateBitsMode8] at this
      omega

theorem estimate_byte_ge (spec : QRspec) (e : QRenc_List) (v : Int) (hmode : e.mode = QR_MODE_8) :
    8 * e.data.length ≤ QRenc_estimateBitStreamSizeOfEntry spec e v := by
  simp only [QRenc_estimateBitStreamSizeOfEntry, QRenc_estimateBitStreamSizeOfEntry.estimate,
    hmode, QRenc_estimateBitsMode8]
  have : 0 ≤ (e.data.length * 8 + 2 ^ spec.lengthIndicator QR_MODE_8 v - 1)
      / 2 ^ spec.lengthIndicator QR_MODE_8 v * (4 + spec.lengthIndicator QR_MODE_8 v) :=
    Nat.zero_le _
  omega

/-- The realised bits of a job that holds a byte chunk are at least eight
times the size of that chunk. -/
theorem bits_ge_of_byte_chunk (spec : QRspec) (fuel : Nat) (v : Int) (l l' : List QRenc_List)
    (seg : QRenc_List) (hseg : seg ∈ l) (hmode : seg.mode = QR_MODE_8)
    (hm : l'.map (fun e => (e.mode, e.data)) = l.map (fun e => (e.mode, e.data)))
    (he : ∀ e' ∈ l', QRenc_encodeBitStream spec fuel ⟨e'.mode, e'.data, none⟩ v
      = .ok (e', BitStream_size e'.bstream)) :
    8 * seg.data.length ≤ (l'.map (fun e => BitStream_size e.bstream)).sum := by
  obtain ⟨e', he', hk⟩ := mem_of_map_eq (fun e : QRenc_List => (e.mode, e.data)) l' l hm.symm
    seg hseg
  simp only [Prod.mk.injEq] at hk
  have h1 := encodeBitStream_byte_size spec v fuel ⟨e'.mode, e'.data, none⟩ e' _
    (by simp only [hk.1, hmode]) (he e' he')
  have h2 := le_sum_of_mem (fun e => BitStream_size e.bstream) l' e' he'
  simp only [hk.2] at h1
  simp only at h2
  omega

theorem sampleSpec_capacity (v : Int) (level : QRecLevel) :
    sampleSpec.getDataLength v level ≤ 108 := by
  simp only [sampleSpec]
  split_ifs <;> omega

theorem sampleSpec_none (b : Int) (level : QRecLevel)
    (h : ∀ v, sampleSpec.getDataLength v level < b) :
    sampleSpec.getMinimumVersion b level = -1 := by
  have h5 := h 5
  simp only [sampleSpec] at h5 ⊢
  norm_num at h5
  split_ifs <;> first | rfl | omega

/-- C13, the code at a failing input: the sample table gives `-1` for a number
of bytes above every capacity and limits of words that are at least one; the
job holds a valid kanji chunk of 256 bytes and a byte chunk of 109 bytes, above
the capacity of every version; the call of `QRenc_getBitStream` does not
return the failure: the splitter gets a `NULL` sub-entry for the first 255
bytes of the kanji chunk and dereferences it. -/
theorem QRenc_getBitStream_crash_on_kanji :
    (∀ b level, (∀ v, sampleSpec.getDataLength v level < b) →
      sampleSpec.getMinimumVersion b level = -1) ∧
    (∀ mode v, 1 ≤ sampleSpec.maximumWords mode v) ∧
    (∀ e ∈ crashJob.head, QRinput_check e.mode e.data = 0) ∧
    (⟨QR_MODE_8, List.replicate 109 65, none⟩ : QRenc_List) ∈ crashJob.head ∧
    (∀ v, sampleSpec.getDataLength v crashJob.level
      < ((List.replicate 109 (65 : UChar)).length : Int)) ∧
    QRenc_getBitStream sampleSpec 300 crashJob = .error EncError.nullEntry := by
  refine ⟨sampleSpec_none, sampleSpec_words, by decide, by decide, ?_, by rfl⟩
  intro v
  have := sampleSpec_capacity v crashJob.level
  simp only [List.length_replicate]
  omega

/-- Where the splitter gets no `NULL` sub-entry the failure is reported: for a
job that holds a byte chunk whose size is above the data capacity of every
version, `QRspec_getMinimumVersion` giving `-1` for a number of bytes that no
version holds, `QRenc_getBitStream` never returns a bit stream; and it returns
the failure (`NULL`) when moreover the limits of words are at least one, the
chunks are valid and shorter than the fuel, and a kanji chunk above the limit
of words has an even limit. -/
theorem getBitStream_byte_overflow (spec : QRspec) (fuel : Nat) (input : QRinput)
    (seg : QRenc_List) (hseg : seg ∈ input.head) (hmode : seg.mode = QR_MODE_8)
    (hbig : ∀ v, spec.getDataLength v input.level < (seg.data.length : Int))
    (hnone : ∀ b level, (∀ v, spec.getDataLength v level < b) →
      spec.getMinimumVersion b level = -1) :
    (∀ input' bs, QRenc_getBitStream spec fuel input ≠ .ok (input', some bs)) ∧
    ((∀ mode v, 1 ≤ spec.maximumWords mode v) →
      (∀ e ∈ input.head, QRinput_check e.mode e.data = 0 ∧ e.data.length < fuel ∧
        (e.mode = QR_MODE_KANJI → ∀ v,
          (e.data.length : Int) ≤ spec.maximumWords QR_MODE_KANJI v ∨
            spec.maximumWords QR_MODE_KANJI v % 2 = 0)) →
      ∃ input', QRenc_getBitStream spec fuel input = .ok (input', none)) := by
  have hover : ∀ bits : Nat, 8 * seg.data.length ≤ bits →
      spec.getMinimumVersion (((bits + 7) / 8 : Nat) : Int) input.level = -1 := by
    intro bits hb
    apply hnone
    intro v
    have := hbig v
    omega
  refine ⟨?_, ?_⟩
  · intro input' bs h
    obtain ⟨y, hy, hxy⟩ := getBitStream_ok_any spec fuel input input' (some bs) h
    obtain ⟨r, hr, hyr⟩ := mergeBitStream_ok_any spec fuel input input' y hy
    obtain ⟨hl, _, hm, he, hr01, _, h0⟩ := convertData_ok spec fuel input input' r hr
    have hr0 : r = 0 := by
      rcases hr01 with h' | h'
      · exact h'
      · exfalso
        have : y = none := hyr.mpr (by omega)
        have := hxy.mpr this
        simp at this
    have hge := bits_ge_of_byte_chunk spec fuel input'.version input.head input'.head seg hseg
      hmode hm he
    rw [← createPaddingBit_bits_eq] at hge
    have := hover _ hge
    have h0' := (h0 hr0).1
    rw [hl, this] at h0'
    omega
  · intro hw hgood
    have hf : seg.data.length < fuel := (hgood seg hseg).2.1
    obtain ⟨f, rfl⟩ : ∃ f, fuel = f + 1 := ⟨fuel - 1, by omega⟩
    have hest : QRenc_estimateVersion spec (f + 1) input = .ok (-1) := by
      have hge : 8 * seg.data.length ≤ QRenc_estimateBitStreamSize spec input 0 := by
        simp only [QRenc_estimateBitStreamSize, foldl_add_eq_sum, Nat.zero_add]
        exact le_trans (estimate_byte_ge spec seg 0 hmode)
          (le_sum_of_mem (fun e => QRenc_estimateBitStreamSizeOfEntry spec e 0) input.head seg hseg)
      simp only [QRenc_estimateVersion, QRenc_estimateVersion.loop, hover _ hge, if_true]
    have hloop : ∀ job : QRinput, job.head = input.head → job.level = input.level →
        ∃ input', QRenc_convertData.loop spec (f + 1) (f + 1) job = .ok (input', -1) := by
      intro job hh hlev
      obtain ⟨input1, bits, hcreate⟩ := createBitStream_returns spec (f + 1) job hw
        (by rw [hh]; exact hgood)
      obtain ⟨hv, hl, hm, he, hb⟩ := createBitStream_ok spec (f + 1) job input1 bits hcreate
      have hge := bits_ge_of_byte_chunk spec (f + 1) job.version job.head input1.head seg
        (by rw [hh]; exact hseg) hmode hm he
      rw [← createPaddingBit_bits_eq, ← hb] at hge
      have hm1 := hover _ hge
      rw [← hlev, ← hl] at hm1
      refine ⟨input1, ?_⟩
      simp only [QRenc_convertData.loop, hcreate, hm1]
      simp
    obtain ⟨input', hconv⟩ : ∃ input', QRenc_convertData spec (f + 1) input = .ok (input', -1) := by
      simp only [QRenc_convertData, hest]
      split
      · exact hloop _ rfl rfl
      · exact hloop _ rfl rfl
    refine ⟨input', ?_⟩
    simp only [QRenc_getBitStream, QRenc_mergeBitStream, hconv]
    simp

/-- The job of one byte chunk of 109 bytes and the sample table: the call
returns the failure. -/
theorem getBitStream_byte_overflow_overJob :
    (∀ v, sampleSpec.getDataLength v overJob.level
      < ((List.replicate 109 (65 : UChar)).length : Int)) ∧
    ∃ input', QRenc_getBitStream sampleSpec 110 overJob = .ok (input', none) :=
  have hbig : ∀ v, sampleSpec.getDataLength v overJob.level
      < ((List.replicate 109 (65 : UChar)).length : Int) := fun v => by
    have := sampleSpec_capacity v overJob.level
    simp only [List.length_replicate]
    omega
  ⟨hbig,
    (getBitStream_byte_overflow sampleSpec 110 overJob
      ⟨QR_MODE_8, List.replicate 109 65, none⟩ (by decide) rfl hbig sampleSpec_none).2
      sampleSpec_words (fun e he => by
        have : e = ⟨QR_MODE_8, List.replicate 109 65, none⟩ := by simpa [overJob] using he
        subst this
        exact ⟨by decide, by decide, fun h => by cases h⟩)⟩

/-! ## The version that the fitter returns -/

theorem byteJob_convert : QRenc_convertData sampleSpec 10 byteJob = .ok (byteJobDone, 0) := by
  rfl

/-- C12, the claim refuted: for the job of one chunk of 105 bytes and the
sample table, `QRenc_estimateVersion` returns `-1` (its estimate of 888 bits
needs 111 bytes, above the 108 of the last version), yet `QRenc_convertData`
returns `0` with version 5 and `QRenc_mergeBitStream` and `QRenc_getBitStream`
return a bit stream. -/
theorem QRenc_estimateVersion_failure_ignored :
    QRenc_estimateVersion sampleSpec 10 byteJob = .ok (-1) ∧
    QRenc_convertData sampleSpec 10 byteJob = .ok (byteJobDone, 0) ∧
    byteJobDone.version = 5 ∧
    (QRenc_mergeBitStream sampleSpec 10 byteJob).toOption.map (fun p => p.2.isSome) = some true ∧
    (QRenc_getBitStream sampleSpec 10 byteJob).toOption.map (fun p => p.2.isSome) = some true := by
  refine ⟨by rfl, byteJob_convert, ?_, ?_, ?_⟩
  · rfl
  · simp [QRenc_mergeBitStream, byteJob_convert, Except.toOption]
  · simp [QRenc_getBitStream, QRenc_mergeBitStream, byteJob_convert, Except.toOption]

/-- C12, amended: when `QRenc_estimateVersion` returns `-1` for a job whose
version is not below `-1`, `QRenc_convertData` is its encoding loop on the job
as it is; when it returns, it returns `0` or `-1`, and `-1` exactly when
`QRspec_getMinimumVersion` is negative for the number of bytes of the bit
streams encoded in the last pass; `QRenc_mergeBitStream` and
`QRenc_getBitStream` return the failure (`NULL`) exactly in that case. -/
theorem QRenc_convertData_failure_iff (spec : QRspec) (fuel : Nat) (input input' : QRinput)
    (r : Int)
    (hest : QRenc_estimateVersion spec fuel input = .ok (-1))
    (h : QRenc_convertData spec fuel input = .ok (input', r)) :
    (-1 ≤ input.version →
      QRenc_convertData spec fuel input = QRenc_convertData.loop spec fuel fuel input) ∧
    (r = 0 ∨ r = -1) ∧
    (r = -1 ↔ spec.getMinimumVersion
      (((QRenc_createPaddingBit.bits input' + 7) / 8 : Nat) : Int) input'.level < 0) ∧
    (∃ x, QRenc_mergeBitStream spec fuel input = .ok (input', x) ∧ (x = none ↔ r = -1)) ∧
    (∃ x, QRenc_getBitStream spec fuel input = .ok (input', x) ∧ (x = none ↔ r = -1)) := by
  obtain ⟨_, _, _, _, hr, hneg, h0⟩ := convertData_ok spec fuel input input' r h
  refine ⟨?_, hr, ⟨hneg, ?_⟩, ?_, ?_⟩
  · intro hv
    have hng : ¬ (-1 : Int) > QRenc_getVersion input := by
      simp only [QRenc_getVersion]; omega
    simp only [QRenc_convertData, hest, hng, if_false]
  · intro hlt
    rcases hr with hr | hr
    · have := (h0 hr).1
      omega
    · exact hr
  · rcases hr with hr | hr
    · subst hr
      refine ⟨_, by simp only [QRenc_mergeBitStream, h]; rfl, by simp⟩
    · subst hr
      refine ⟨none, by simp only [QRenc_mergeBitStream, h]; rfl, by simp⟩
  · rcases hr with hr | hr
    · subst hr
      refine ⟨_, by simp only [QRenc_getBitStream, QRenc_mergeBitStream, h]; rfl, by simp⟩
    · subst hr
      refine ⟨none, by simp only [QRenc_getBitStream, QRenc_mergeBitStream, h]; rfl, by simp⟩

/-- C12, amended, at the job of 105 bytes: the fitter returns `-1`, the call
returns `0`, and the minimum version for the bytes encoded is not negative. -/
theorem QRenc_convertData_failure_iff_witness :
    QRenc_estimateVersion sampleSpec 10 byteJob = .ok (-1) ∧
    ((0 : Int) = -1 ↔ sampleSpec.getMinimumVersion
      (((QRenc_createPaddingBit.bits byteJobDone + 7) / 8 : Nat) : Int) byteJobDone.level < 0) :=
  ⟨by rfl,
    (QRenc_convertData_failure_iff sampleSpec 10 byteJob byteJobDone 0 (by rfl)
      byteJob_convert).2.2.1⟩

/-! ## Runs on which the code departs from the specification -/

/-- C15, the code at a failing input: for the job of the two digits "12" the
conversion chooses version 1 and merges 21 bits; 131 bits are missing to the
152 of the version, so the padding generator takes its third case, and it
emits three zero bits only before the first pad byte `0xEC`: the four bits
after the data are `0001`, not a terminator. -/
theorem QRenc_createPaddingBit_no_terminator :
    QRenc_convertData sampleSpec 10 shortJob = .ok (shortJobDone, 0) ∧
    QRenc_createPaddingBit.bits shortJobDone = 21 ∧
    sampleSpec.getDataLength shortJobDone.version shortJobDone.level = 19 ∧
    QRenc_createPaddingBit sampleSpec shortJobDone
      = some ([false, false, false] ++ padBytes 16) ∧
    ([false, false, false] ++ padBytes 16).take 4 = [false, false, false, true] := by
  refine ⟨by rfl, by decide, by decide, by decide, by decide⟩

/-- C16, the code at a failing input: for a byte chunk of 33 bytes at version 1
of the sample table, with `L = 8` and `maxWords = 2^8 − 1`, the estimator counts
`num = ⌈264 / 2^8⌉ = 2` headers and returns `264 + 2 × (4 + 8)` bits, while
`QRenc_encodeBitStream` emits the one chunk of the one slice, `264 + 1 × (4 + 8)`
bits. -/
theorem QRenc_estimate_overcounts_chunks :
    QRinput_check entry33.mode entry33.data = 0 ∧
    sampleSpec.lengthIndicator QR_MODE_8 1 = 8 ∧
    sampleSpec.maximumWords QR_MODE_8 1 = 2 ^ 8 - 1 ∧
    QRenc_estimateBitStreamSizeOfEntry.estimate entry33 = 264 ∧
    QRenc_estimateBitStreamSizeOfEntry sampleSpec entry33 1 = 264 + 2 * (4 + 8) ∧
    slices 255 entry33.data = [entry33.data] ∧
    QRenc_encodeBitStream sampleSpec 1 entry33 1
      = .ok (QRenc_encodeBitStream.encode sampleSpec entry33 1, 264 + 1 * (4 + 8)) := by
  refine ⟨by decide, by decide, by decide, by decide, by decide, by decide, by rfl⟩

/-- What the headers counted twice cost: for the job of one byte chunk of 78
bytes the estimate at version 0 is 660 bits, 83 bytes, so the version fitter
returns version 5, while the chunk encoded at version 4 has 636 bits, the 80
bytes that version 4 holds. -/
theorem estimateVersion_above_needed :
    QRenc_estimateBitStreamSize sampleSpec job78 0 = 660 ∧
    QRenc_estimateVersion sampleSpec 10 job78 = .ok 5 ∧
    (QRenc_encodeBitStream sampleSpec 100 ⟨QR_MODE_8, List.replicate 78 65, none⟩ 4).toOption.map
      Prod.snd = some 636 ∧
    sampleSpec.getDataLength 4 QR_ECLEVEL_L = 80 := by
  refine ⟨by decide, by rfl, by decide, by decide⟩

/-- C18, the code at a failing input: the kanji chunk of 128 characters, 256
bytes, passes `QRinput_check`; at version 1 of the sample table, with
`maxWords = 2^8 − 1 = 255`, the head of 255 bytes that the splitter builds is
rejected by `QRinput_check` for its odd size, `QRenc_newEntry` returns `NULL`,
and `QRenc_encodeBitStream` dereferences it. -/
theorem QRenc_encodeBitStream_kanji_null :
    QRinput_check QR_MODE_KANJI kanji256 = 0 ∧
    kanji256.length = 256 ∧
    sampleSpec.maximumWords QR_MODE_KANJI 1
      = 2 ^ sampleSpec.lengthIndicator QR_MODE_KANJI 1 - 1 ∧
    QRinput_check QR_MODE_KANJI (kanji256.take 255) = -1 ∧
    QRenc_newEntry QR_MODE_KANJI (kanji256.take 255) = none ∧
    QRenc_encodeBitStream sampleSpec 300 ⟨QR_MODE_KANJI, kanji256, none⟩ 1
      = .error EncError.nullEntry := by
  refine ⟨by decide, by decide, by decide, by decide, by decide, by rfl⟩

/-! ## Further concrete runs -/

/-- C11 at the sample job: the second call of `QRenc_getBitStream` returns the
bit stream of the first and leaves the job as it is. -/
theorem QRenc_getBitStream_idempotent_witness :
    QRenc_getBitStream sampleSpec 10 sampleJob = .ok (sampleJobDone, some samplePadded) ∧
    QRenc_getBitStream sampleSpec 10 sampleJobDone = .ok (sampleJobDone, some samplePadded) :=
  ⟨by rfl,
    (QRenc_getBitStream_idempotent sampleSpec 10 sampleJob sampleJobDone (some samplePadded)
      (by rfl)).1⟩

/-- C20 at the digits "01234567" and version 1 of the sample table: the encoder
passes the mode indicator, the length 8, the triples 12 and 345 in 10 bits
each and the pair 67 in 7 bits; the pair is below `2^7`, and the 7 bits after
the first 34 bits of the bit stream of the encoder read back as 67. -/
theorem QRenc_payload_values_fit_witness :
    QRinput_check QR_MODE_NUM (bytesOf "01234567") = 0 ∧
    QRenc_encodeBitStream.calls sampleSpec ⟨QR_MODE_NUM, bytesOf "01234567", none⟩ 1
      = [(4, 1), (10, 8), (10, 12), (10, 345), (7, 67)] ∧
    (67 < 2 ^ 7 ∧
      BitStream_toNum
        ((((QRenc_encodeBitStream.encode sampleSpec
            ⟨QR_MODE_NUM, bytesOf "01234567", none⟩ 1).bstream.getD []).drop
          (((QRenc_encodeBitStream.calls sampleSpec
            ⟨QR_MODE_NUM, bytesOf "01234567", none⟩ 1).take 4).map Prod.fst).sum).take 7)
        = 67) :=
  ⟨by decide, by decide,
    (QRenc_payload_values_fit sampleSpec ⟨QR_MODE_NUM, bytesOf "01234567", none⟩ 1
      (by decide)).2.1 4 7 67 (by decide) (by decide)⟩
